import Mathlib

/-!
Verification of the romam intra-domain routing daemon against its
natural-language specification.

The Rust sources under `src/irp/src` are shallowly embedded below.
Conventions used throughout:

* `u32` router identifiers are modelled as `Nat` (ids are only compared,
  never subjected to wrapping arithmetic).  Where the source uses the
  sentinel `u32::MAX` as "no value yet" in comparisons, the embedding
  uses `Option Nat` with `none` as the sentinel, which agrees with the
  source for all ids representable in a `u32`.
* `f64` costs, metrics and timestamps are modelled as exact rationals
  `ℚ`.  The claims under study quantify over finite costs, for which
  the source's arithmetic is ordinary field arithmetic; the source's
  `is_finite` guards are therefore vacuous in the model and noted where
  they occur.
* `BTreeMap` is modelled as an association list sorted by key
  (`SMap`), with `smapInsert` implementing ordered insert-or-replace,
  so iteration order of the embedding matches the ascending-key
  iteration order of the source.
* Stateful methods become functions returning the updated state
  together with the method's return value.
-/

namespace Romam

/-- Router identifier (`u32` in the source). -/
abbrev RId := Nat

/-- Association list sorted by key, modelling `BTreeMap<u32, α>`. -/
abbrev SMap (α : Type) := List (RId × α)

/-- Lookup in a key-sorted association list (first match). -/
def smapGet {α : Type} (m : SMap α) (k : RId) : Option α :=
  match m with
  | [] => none
  | (k2, v) :: rest => if k2 = k then some v else smapGet rest k

/-- Ordered insert-or-replace, modelling `BTreeMap::insert` for the
purposes of both lookup and (ascending) iteration order. -/
def smapInsert {α : Type} (m : SMap α) (k : RId) (v : α) : SMap α :=
  match m with
  | [] => [(k, v)]
  | (k2, v2) :: rest =>
    if k < k2 then (k, v) :: (k2, v2) :: rest
    else if k = k2 then (k, v) :: rest
    else (k2, v2) :: smapInsert rest k v

/-- Remove a key, modelling `BTreeMap::remove` (as a pure map). -/
def smapErase {α : Type} (m : SMap α) (k : RId) : SMap α :=
  match m with
  | [] => []
  | (k2, v2) :: rest => if k2 = k then rest else (k2, v2) :: smapErase rest k

/-- Keys of the association list, in iteration order. -/
def smapKeys {α : Type} (m : SMap α) : List RId := m.map Prod.fst

theorem smapGet_insert_self {α : Type} (m : SMap α) (k : RId) (v : α) :
    smapGet (smapInsert m k v) k = some v := by
  induction m with
  | nil => simp [smapInsert, smapGet]
  | cons hd tl ih =>
    obtain ⟨k2, v2⟩ := hd
    by_cases h1 : k < k2
    · simp [smapInsert, h1, smapGet]
    · by_cases h2 : k = k2
      · simp [smapInsert, h1, h2, smapGet]
      · have hne : k2 ≠ k := fun h => h2 h.symm
        simp [smapInsert, h1, h2, smapGet, hne, ih]

theorem smapGet_insert_ne {α : Type} (m : SMap α) (k k2 : RId) (v : α)
    (h : k ≠ k2) : smapGet (smapInsert m k v) k2 = smapGet m k2 := by
  induction m with
  | nil => simp [smapInsert, smapGet, h]
  | cons hd tl ih =>
    obtain ⟨k3, v3⟩ := hd
    by_cases h1 : k < k3
    · simp only [smapInsert, if_pos h1, smapGet, if_neg h]
    · by_cases h2 : k = k3
      · subst h2
        simp [smapInsert, h1, smapGet, h]
      · simp only [smapInsert, if_neg h1, if_neg h2, smapGet]
        by_cases h3 : k3 = k2
        · simp [h3]
        · simp [h3, ih]

/-! ## `model/state.rs`: `NeighborTable` -/

/-- `NeighborInfo` from `model/state.rs`. -/
structure NeighborInfo where
  router_id : RId
  address : String
  port : Nat
  cost : ℚ
  interface_name : Option String
  last_seen : Option ℚ
  is_up : Bool
deriving DecidableEq, Repr

/-- `NeighborTable`: the values of the `BTreeMap<u32, NeighborInfo>`, in
ascending-key iteration order. -/
abbrev NeighborTable := List NeighborInfo

/-- One iteration of the `refresh_liveness` loop body for a single
neighbor record: the updated record, and (when `is_up` flipped) the
router id pushed onto `changed`. -/
def refreshOne (now dead_interval : ℚ) (n : NeighborInfo) :
    NeighborInfo × Option RId :=
  match n.last_seen with
  | none => (n, none)
  | some last_seen =>
    let alive := decide (now - last_seen ≤ dead_interval)
    if alive ≠ n.is_up then ({ n with is_up := alive }, some n.router_id)
    else (n, none)

/-- `NeighborTable::refresh_liveness` from `model/state.rs`:
walks all neighbors in map order, flips `is_up` according to
`now - last_seen ≤ dead_interval` (skipping records without a
`last_seen`) and collects the ids whose `is_up` changed. -/
def refresh_liveness (t : NeighborTable) (now dead_interval : ℚ) :
    NeighborTable × List RId :=
  match t with
  | [] => ([], [])
  | n :: rest =>
    let first := refreshOne now dead_interval n
    let tail := refresh_liveness rest now dead_interval
    (first.1 :: tail.1,
      match first.2 with
      | some rid => rid :: tail.2
      | none => tail.2)

/-- Specification-side description of what one `refresh_liveness` step
does to a record: a record without `last_seen` is untouched, otherwise
`is_up` is set to `now − last_seen ≤ dead_interval`. -/
def refreshedRecord (now dead_interval : ℚ) (n : NeighborInfo) :
    NeighborInfo :=
  match n.last_seen with
  | none => n
  | some last_seen =>
    { n with is_up := decide (now - last_seen ≤ dead_interval) }

theorem refreshOne_fst (now dead_interval : ℚ) (n : NeighborInfo) :
    (refreshOne now dead_interval n).1 = refreshedRecord now dead_interval n := by
  obtain ⟨rid, addr, port, cost, iface, last_seen, is_up⟩ := n
  cases last_seen with
  | none => rfl
  | some ls =>
    simp only [refreshOne, refreshedRecord]
    split
    · rfl
    · next h =>
      rw [show decide (now - ls ≤ dead_interval) = is_up from not_not.mp h]

theorem refreshOne_snd (now dead_interval : ℚ) (n : NeighborInfo) :
    (refreshOne now dead_interval n).2 =
      (if (refreshedRecord now dead_interval n).is_up ≠ n.is_up
       then some n.router_id else none) := by
  obtain ⟨rid, addr, port, cost, iface, last_seen, is_up⟩ := n
  cases last_seen with
  | none => simp [refreshOne, refreshedRecord]
  | some ls =>
    simp only [refreshOne, refreshedRecord]
    split
    · rfl
    · rfl

/-! ## Claim C9 -/

/-- C9: `NeighborTable.refresh_liveness(now, dead_interval)` sets, for
every neighbor whose `last_seen` is recorded, `is_up` to the value of
`now − last_seen ≤ dead_interval` (so it can flip a down neighbor back
up without any new message arriving), never modifies a neighbor whose
`last_seen` was never set, and returns exactly the router ids whose
`is_up` value changed. -/
theorem C9_refresh_liveness (t : NeighborTable) (now dead_interval : ℚ) :
    (refresh_liveness t now dead_interval).1 =
        t.map (refreshedRecord now dead_interval) ∧
    (refresh_liveness t now dead_interval).2 =
      (t.zip (refresh_liveness t now dead_interval).1).filterMap
        (fun p => if p.2.is_up ≠ p.1.is_up then some p.1.router_id else none) := by
  induction t with
  | nil => simp [refresh_liveness]
  | cons n rest ih =>
    have hfst := refreshOne_fst now dead_interval n
    refine ⟨?_, ?_⟩
    · simp only [refresh_liveness, List.map_cons]
      exact congrArg₂ _ hfst ih.1
    · simp only [refresh_liveness, List.zip_cons_cons, List.filterMap_cons,
        refreshOne_snd, hfst]
      by_cases h : (refreshedRecord now dead_interval n).is_up ≠ n.is_up
      · simp only [if_pos h]
        exact congrArg _ ih.2
      · simp only [if_neg h]
        exact ih.2

/-! ## `model/state.rs`: `NeighborStateDb` -/

/-- `NeighborFastState` from `model/state.rs`. -/
structure NeighborFastState where
  queue_level : Option Nat
  interface_utilization : Option ℚ
  delay_ms : Option ℚ
  loss_rate : Option ℚ
deriving DecidableEq, Repr

/-- `NeighborFastStatePatch` from `model/state.rs`. -/
structure NeighborFastStatePatch where
  queue_level : Option Nat
  interface_utilization : Option ℚ
  delay_ms : Option ℚ
  loss_rate : Option ℚ
deriving DecidableEq, Repr

/-- `NeighborFastStatePatch::is_empty`. -/
def NeighborFastStatePatch.isEmptyPatch (p : NeighborFastStatePatch) : Bool :=
  p.queue_level.isNone && p.interface_utilization.isNone
    && p.delay_ms.isNone && p.loss_rate.isNone

/-- `NeighborStateRecord` from `model/state.rs`. -/
structure NeighborStateRecord where
  router_id : RId
  state : NeighborFastState
  learned_at : ℚ
deriving DecidableEq, Repr

/-- `NeighborStateDb`: the `records` map. -/
abbrev NeighborStateDb := SMap NeighborStateRecord

/-- The free function `apply_optional` from `model/state.rs`: merge an
optional incoming value into a slot, reporting whether it changed. -/
def apply_optional {α : Type} [DecidableEq α] (slot incoming : Option α) :
    Option α × Bool :=
  match incoming with
  | none => (slot, false)
  | some v => if slot = some v then (slot, false) else (some v, true)

/-- `NeighborStateDb::upsert_fast_state` from `model/state.rs`. -/
def upsert_fast_state (db : NeighborStateDb) (router_id : RId)
    (patch : NeighborFastStatePatch) (now : ℚ) : NeighborStateDb × Bool :=
  if patch.isEmptyPatch then (db, false)
  else
    match smapGet db router_id with
    | some record =>
      let q := apply_optional record.state.queue_level patch.queue_level
      let u := apply_optional record.state.interface_utilization
        patch.interface_utilization
      let d := apply_optional record.state.delay_ms patch.delay_ms
      let l := apply_optional record.state.loss_rate patch.loss_rate
      let changed := q.2 || u.2 || d.2 || l.2
      (smapInsert db router_id
        { router_id := router_id
          state :=
            { queue_level := q.1
              interface_utilization := u.1
              delay_ms := d.1
              loss_rate := l.1 }
          learned_at := now }, changed)
    | none =>
      (smapInsert db router_id
        { router_id := router_id
          state :=
            { queue_level := patch.queue_level
              interface_utilization := patch.interface_utilization
              delay_ms := patch.delay_ms
              loss_rate := patch.loss_rate }
          learned_at := now }, true)

/-- Every field supplied by the patch already equals the stored value. -/
def PatchMatchesState (p : NeighborFastStatePatch) (s : NeighborFastState) :
    Prop :=
  (∀ v, p.queue_level = some v → s.queue_level = some v) ∧
  (∀ v, p.interface_utilization = some v → s.interface_utilization = some v) ∧
  (∀ v, p.delay_ms = some v → s.delay_ms = some v) ∧
  (∀ v, p.loss_rate = some v → s.loss_rate = some v)

theorem apply_optional_matching {α : Type} [DecidableEq α]
    (slot incoming : Option α)
    (h : ∀ v, incoming = some v → slot = some v) :
    apply_optional slot incoming = (slot, false) := by
  cases incoming with
  | none => rfl
  | some v => simp [apply_optional, h v rfl]

/-! ## Claim C10 -/

/-- C10: for an already-recorded neighbor,
`NeighborStateDb.upsert_fast_state` with a non-empty patch always
resets the record's `learned_at` to `now` — even when every supplied
field equals the stored value and the function returns `false` — and an
all-empty patch returns `false` leaving both the stored state and
`learned_at` unchanged. -/
theorem C10_upsert_fast_state (db : NeighborStateDb) (router_id : RId)
    (patch : NeighborFastStatePatch) (now : ℚ) :
    (patch.isEmptyPatch = true →
      upsert_fast_state db router_id patch now = (db, false)) ∧
    (∀ record, smapGet db router_id = some record →
      patch.isEmptyPatch = false →
      (∃ r2, smapGet (upsert_fast_state db router_id patch now).1 router_id
          = some r2 ∧ r2.learned_at = now) ∧
      (PatchMatchesState patch record.state →
        (upsert_fast_state db router_id patch now).2 = false ∧
        (∃ r2, smapGet (upsert_fast_state db router_id patch now).1 router_id
            = some r2 ∧ r2.learned_at = now ∧ r2.state = record.state))) := by
  constructor
  · intro hempty
    simp [upsert_fast_state, hempty]
  · intro record hget hnonempty
    constructor
    · simp only [upsert_fast_state, hnonempty, Bool.false_eq_true,
        if_false, hget]
      exact ⟨_, smapGet_insert_self .., rfl⟩
    · intro hmatch
      obtain ⟨h1, h2, h3, h4⟩ := hmatch
      constructor
      · simp only [upsert_fast_state, hnonempty, Bool.false_eq_true,
          if_false, hget, apply_optional_matching _ _ h1,
          apply_optional_matching _ _ h2, apply_optional_matching _ _ h3,
          apply_optional_matching _ _ h4]
        rfl
      · simp only [upsert_fast_state, hnonempty, Bool.false_eq_true,
          if_false, hget, apply_optional_matching _ _ h1,
          apply_optional_matching _ _ h2, apply_optional_matching _ _ h3,
          apply_optional_matching _ _ h4]
        exact ⟨_, smapGet_insert_self .., rfl, rfl⟩

/-- Witness for C10 at a concrete database: neighbor 2 is recorded with
`learned_at = 0`, an identical patch arrives at time 5, the call
returns `false` and yet `learned_at` becomes 5. -/
theorem C10_upsert_fast_state_witness :
    (upsert_fast_state
        [(2, { router_id := 2
               state := { queue_level := some 1
                          interface_utilization := none
                          delay_ms := none
                          loss_rate := none }
               learned_at := 0 })] 2
        { queue_level := some 1
          interface_utilization := none
          delay_ms := none
          loss_rate := none } 5).2 = false ∧
    (∃ r2, smapGet (upsert_fast_state
        [(2, { router_id := 2
               state := { queue_level := some 1
                          interface_utilization := none
                          delay_ms := none
                          loss_rate := none }
               learned_at := 0 })] 2
        { queue_level := some 1
          interface_utilization := none
          delay_ms := none
          loss_rate := none } 5).1 2 = some r2 ∧ r2.learned_at = 5) := by
  have h := C10_upsert_fast_state
    [(2, { router_id := 2
           state := { queue_level := some 1
                      interface_utilization := none
                      delay_ms := none
                      loss_rate := none }
           learned_at := 0 })] 2
    { queue_level := some 1
      interface_utilization := none
      delay_ms := none
      loss_rate := none } 5
  have h2 := h.2 _ (by rfl) (by rfl)
  exact ⟨(h2.2 ⟨fun _ hv => hv, fun _ hv => hv, fun _ hv => hv,
    fun _ hv => hv⟩).1, h2.1⟩

/-! ## `protocols/base.rs`: context types shared by the engines -/

/-- `RouterLink` from `protocols/base.rs`. -/
structure RouterLink where
  neighbor_id : RId
  cost : ℚ
  address : String
  port : Nat
  interface_name : Option String
  is_up : Bool
deriving DecidableEq, Repr

/-- `ProtocolContext` from `protocols/base.rs`. -/
structure ProtocolContext where
  router_id : RId
  now : ℚ
  links : SMap RouterLink
deriving Repr

/-! ## `model/routing.rs`: routing entries -/

/-- `Ipv4RoutingTableEntry` from `model/routing.rs`. -/
structure Ipv4RoutingTableEntry where
  destination : RId
  destination_network : RId
  destination_prefix_len : Nat
  gateway : Option RId
  interface : Option Nat
deriving DecidableEq, Repr

/-- `Ipv4RoutingTableEntry::create_host_route_to`. -/
def create_host_route_to (dest : RId) (next_hop : RId)
    (interface : Option Nat) : Ipv4RoutingTableEntry :=
  { destination := dest
    destination_network := dest
    destination_prefix_len := 32
    gateway := some next_hop
    interface := interface }

/-! ## `protocols/rip.rs` -/

/-- `RipRouteStatus` from `protocols/rip.rs`. -/
inductive RipRouteStatus
  | Valid
  | Invalid
deriving DecidableEq, Repr

/-- `RipRoutingTableEntry` from `protocols/rip.rs`. -/
structure RipRoutingTableEntry where
  base : Ipv4RoutingTableEntry
  route_tag : Nat
  route_metric : ℚ
  status : RipRouteStatus
  changed : Bool
deriving DecidableEq, Repr

/-- `RipTimers` from `protocols/rip.rs`. -/
structure RipTimers where
  update_interval : ℚ
  neighbor_timeout : ℚ
deriving DecidableEq, Repr

/-- The `RipProtocol` engine state from `protocols/rip.rs`. -/
structure RipProtocol where
  timers : RipTimers
  infinity_metric : ℚ
  poison_reverse : Bool
  msg_seq : Nat
  last_update_at : ℚ
  routes : SMap RipRoutingTableEntry
  neighbor_vectors : SMap (ℚ × SMap ℚ)
deriving Repr

/-- One `{"destination": …, "metric": …}` element of the `entries`
array in a RIP update payload. -/
structure RipEntryJson where
  destination : RId
  metric : ℚ
deriving DecidableEq, Repr

/-- A RIP update `ControlMessage` with its payload's structured
content (the payload's only key is `entries`). -/
structure RipUpdateMessage where
  protocol : String
  src_router_id : RId
  seq : Nat
  entries : List RipEntryJson
  ts : ℚ
deriving DecidableEq, Repr

/-- The per-route body of the `send_updates` loop in
`protocols/rip.rs`: skip routes without a gateway; poison (or omit,
without poison-reverse) routes whose next hop is the addressed
neighbor and whose destination is another node; otherwise clamp the
metric to `infinity_metric`. -/
def ripEntryForRoute (st : RipProtocol) (neighbor_id : RId)
    (route : RipRoutingTableEntry) : Option RipEntryJson :=
  match route.base.gateway with
  | none => none
  | some next_hop =>
    let destination := route.base.destination
    let route_metric := route.route_metric
    if next_hop = neighbor_id ∧ destination ≠ neighbor_id then
      if st.poison_reverse then
        some { destination := destination, metric := st.infinity_metric }
      else none
    else
      some { destination := destination,
             metric := min st.infinity_metric route_metric }

/-- The `entries` array built by `send_updates` for one neighbor:
the self-advertisement followed by one entry per exported route. -/
def ripEntriesForNeighbor (st : RipProtocol) (router_id neighbor_id : RId) :
    List RipEntryJson :=
  { destination := router_id, metric := 0 } ::
    st.routes.filterMap (fun p => ripEntryForRoute st neighbor_id p.2)

/-- The neighbor loop of `RipProtocol::send_updates`, threading the
`msg_seq` counter that `new_message` increments per message. -/
def sendUpdatesGo (st : RipProtocol) (router_id : RId) (now : ℚ) :
    List (RId × RouterLink) → RipProtocol × List (RId × RipUpdateMessage)
  | [] => (st, [])
  | (neighbor_id, _) :: rest =>
    let entries := ripEntriesForNeighbor st router_id neighbor_id
    let st2 := { st with msg_seq := st.msg_seq + 1 }
    let msg : RipUpdateMessage :=
      { protocol := "rip"
        src_router_id := router_id
        seq := st2.msg_seq
        entries := entries
        ts := now }
    let tail := sendUpdatesGo st2 router_id now rest
    (tail.1, (neighbor_id, msg) :: tail.2)

/-- `RipProtocol::send_updates` from `protocols/rip.rs`. -/
def send_updates (st : RipProtocol) (ctx : ProtocolContext) :
    RipProtocol × List (RId × RipUpdateMessage) :=
  sendUpdatesGo st ctx.router_id ctx.now ctx.links

theorem sendUpdatesGo_shape (router_id : RId) (now : ℚ) :
    ∀ (links : List (RId × RouterLink)) (st : RipProtocol),
      (sendUpdatesGo st router_id now links).2.map Prod.fst
          = links.map Prod.fst ∧
      ∀ n msg, (n, msg) ∈ (sendUpdatesGo st router_id now links).2 →
        ∃ st2 : RipProtocol, st2.routes = st.routes ∧
          st2.poison_reverse = st.poison_reverse ∧
          st2.infinity_metric = st.infinity_metric ∧
          msg.entries = ripEntriesForNeighbor st2 router_id n := by
  intro links
  induction links with
  | nil => intro st; exact ⟨rfl, by intro n msg h; cases h⟩
  | cons hd rest ih =>
    intro st
    obtain ⟨nid, link⟩ := hd
    refine ⟨?_, ?_⟩
    · simpa [sendUpdatesGo] using
        (ih { st with msg_seq := st.msg_seq + 1 }).1
    · intro n msg hmem
      simp only [sendUpdatesGo, List.mem_cons] at hmem
      rcases hmem with hmem | hmem
      · obtain ⟨h1, h2⟩ := Prod.mk.injEq .. ▸ hmem
        exact ⟨st, rfl, rfl, rfl, by rw [h2, ← h1]⟩
      · obtain ⟨st2, hroutes, hpoison, hinf, hentries⟩ :=
          (ih { st with msg_seq := st.msg_seq + 1 }).2 n msg hmem
        exact ⟨st2, hroutes, hpoison, hinf, hentries⟩

/-! ## Claim C8 -/

/-- C8: every RIP update message produced by `send_updates` carries,
for every configured neighbor and regardless of the routing table
contents, the self-advertisement `{destination: own router_id,
metric: 0}` as the first element of `entries`; one message is produced
per configured neighbor, in link-table order. -/
theorem C8_send_updates_self_advertisement (st : RipProtocol)
    (ctx : ProtocolContext) :
    (send_updates st ctx).2.map Prod.fst = smapKeys ctx.links ∧
    ∀ n msg, (n, msg) ∈ (send_updates st ctx).2 →
      msg.entries.head? =
        some { destination := ctx.router_id, metric := 0 } := by
  obtain ⟨h1, h2⟩ := sendUpdatesGo_shape ctx.router_id ctx.now ctx.links st
  refine ⟨h1, ?_⟩
  intro n msg hmem
  obtain ⟨st2, _, _, _, hentries⟩ := h2 n msg hmem
  rw [hentries, ripEntriesForNeighbor]
  rfl

/-- Witness for C8 on a concrete state: router 1 with neighbor 2 and
an empty routing table. -/
theorem C8_send_updates_self_advertisement_witness :
    ∀ msgs, msgs = (send_updates
      { timers := { update_interval := 5, neighbor_timeout := 15 }
        infinity_metric := 16
        poison_reverse := true
        msg_seq := 0
        last_update_at := 0
        routes := []
        neighbor_vectors := [] }
      { router_id := 1
        now := 0
        links := [(2, { neighbor_id := 2, cost := 1, address := "a",
                        port := 5500, interface_name := none,
                        is_up := true })] }).2 →
      msgs.map Prod.fst = [2] ∧
      ∀ n msg, (n, msg) ∈ msgs →
        msg.entries.head? = some { destination := 1, metric := 0 } := by
  intro msgs hm
  subst hm
  exact ⟨(C8_send_updates_self_advertisement _ _).1,
    (C8_send_updates_self_advertisement _ _).2⟩

/-! ## Claim C3 -/

/-- The concrete RIP state used to refute C3 as stated: poison-reverse
on, one neighbor (router 2), and the direct route to 2 via 2 with
metric 1 installed. -/
def ripPoisonState : RipProtocol :=
  { timers := { update_interval := 5, neighbor_timeout := 15 }
    infinity_metric := 16
    poison_reverse := true
    msg_seq := 0
    last_update_at := 0
    routes := [(2, { base := create_host_route_to 2 2 none
                     route_tag := 0
                     route_metric := 1
                     status := RipRouteStatus.Valid
                     changed := false })]
    neighbor_vectors := [] }

/-- The context for the C3 counterexample. -/
def ripPoisonCtx : ProtocolContext :=
  { router_id := 1
    now := 0
    links := [(2, { neighbor_id := 2, cost := 1, address := "a",
                    port := 5500, interface_name := none,
                    is_up := true })] }

/-- C3 as stated, instantiated at one engine state: with poison reverse
enabled, every route whose next hop is neighbor `n` is advertised to
`n` only with metric at least `infinity_metric`. -/
def ClaimC3At (st : RipProtocol) (ctx : ProtocolContext) : Prop :=
  ∀ n msg d route e, (n, msg) ∈ (send_updates st ctx).2 →
    (d, route) ∈ st.routes → route.base.gateway = some n →
    e ∈ msg.entries → e.destination = route.base.destination →
    st.infinity_metric ≤ e.metric

/-- The message that `send_updates` actually produces for neighbor 2
in the C3 counterexample scenario. -/
def ripPoisonMsg : RipUpdateMessage :=
  { protocol := "rip"
    src_router_id := 1
    seq := 1
    entries := [{ destination := 1, metric := 0 },
                { destination := 2, metric := 1 }]
    ts := 0 }

/-- The direct route to neighbor 2 installed in `ripPoisonState`. -/
def ripDirectRouteTo2 : RipRoutingTableEntry :=
  { base := create_host_route_to 2 2 none
    route_tag := 0
    route_metric := 1
    status := RipRouteStatus.Valid
    changed := false }

/-- Counterexample to C3 as stated: the direct route to neighbor 2
(next hop 2) is advertised to 2 with its ordinary metric 1, not with
`infinity_metric = 16`, because the poison-reverse branch exempts
routes whose destination is the addressed neighbor itself. -/
theorem C3_counterexample : ¬ ClaimC3At ripPoisonState ripPoisonCtx := by
  intro h
  have hmem : ((2 : RId), ripPoisonMsg) ∈
      (send_updates ripPoisonState ripPoisonCtx).2 := by decide
  have hroute : ((2 : RId), ripDirectRouteTo2) ∈ ripPoisonState.routes := by
    decide
  have := h 2 ripPoisonMsg 2 ripDirectRouteTo2
    { destination := 2, metric := 1 } hmem hroute rfl (by decide) rfl
  norm_num [ripPoisonState] at this

/-- C3 amended: with poison reverse enabled, every route whose next hop
is neighbor `n` **and whose destination is not `n` itself** is
advertised to `n` with metric `infinity_metric`; the poisoned entry is
present in every update message `send_updates` produces for `n`. -/
theorem C3_poison_reverse (st : RipProtocol) (ctx : ProtocolContext)
    (hpoison : st.poison_reverse = true) :
    ∀ n msg d route, (n, msg) ∈ (send_updates st ctx).2 →
      (d, route) ∈ st.routes → route.base.gateway = some n →
      route.base.destination ≠ n →
      ({ destination := route.base.destination,
         metric := st.infinity_metric } : RipEntryJson) ∈ msg.entries := by
  intro n msg d route hmem hroute hgw hdest
  obtain ⟨st2, hroutes, hpoison2, hinf, hentries⟩ :=
    (sendUpdatesGo_shape ctx.router_id ctx.now ctx.links st).2 n msg hmem
  rw [hentries, ripEntriesForNeighbor]
  rw [← hroutes] at hroute
  rw [← hinf]
  refine List.mem_cons_of_mem _ (List.mem_filterMap.mpr ⟨(d, route), hroute, ?_⟩)
  simp only [ripEntryForRoute, hgw]
  rw [if_pos (And.intro trivial hdest), hpoison2, hpoison]
  rfl

/-- A RIP route to destination 7 via neighbor 2, for the amended-C3
witness. -/
def ripRouteTo7Via2 : RipRoutingTableEntry :=
  { base := create_host_route_to 7 2 none
    route_tag := 0
    route_metric := 3
    status := RipRouteStatus.Valid
    changed := false }

/-- `ripPoisonState` with `ripRouteTo7Via2` installed instead of the
direct route. -/
def ripPoisonState7 : RipProtocol :=
  { ripPoisonState with routes := [(7, ripRouteTo7Via2)] }

/-- The message `send_updates` produces for neighbor 2 from
`ripPoisonState7`: the route to 7 via 2 is poisoned to metric 16. -/
def ripPoisonMsg7 : RipUpdateMessage :=
  { protocol := "rip"
    src_router_id := 1
    seq := 1
    entries := [{ destination := 1, metric := 0 },
                { destination := 7, metric := 16 }]
    ts := 0 }

/-- Witness for the amended C3: with poison reverse on and a route to
destination 7 via neighbor 2, the poisoned entry `{7, 16}` appears in
the update sent to 2. -/
theorem C3_poison_reverse_witness :
    ({ destination := 7, metric := 16 } : RipEntryJson) ∈
      ripPoisonMsg7.entries := by
  have h := C3_poison_reverse ripPoisonState7 ripPoisonCtx rfl 2
    ripPoisonMsg7 7 ripRouteTo7Via2 (by decide) (by decide) rfl (by decide)
  exact h

/-! ## `model/routing.rs`: `ForwardingTable` -/

/-- `Route` from `model/routing.rs`. -/
structure Route where
  entry : Ipv4RoutingTableEntry
  destination : RId
  next_hop : RId
  metric : ℚ
  protocol : String
deriving DecidableEq, Repr

/-- `Route::new_host`. -/
def Route.new_host (destination next_hop : RId) (metric : ℚ)
    (protocol : String) : Route :=
  { entry := create_host_route_to destination next_hop none
    destination := destination
    next_hop := next_hop
    metric := metric
    protocol := protocol }

/-- `ForwardingEntry` from `model/routing.rs`. -/
structure ForwardingEntry where
  destination : RId
  next_hop : RId
  metric : ℚ
  protocol : String
deriving DecidableEq, Repr

/-- The `ForwardingEntry` candidate built from a route inside
`sync_from_routes`. -/
def toForwardingEntry (route : Route) : ForwardingEntry :=
  { destination := route.destination
    next_hop := route.next_hop
    metric := route.metric
    protocol := route.protocol }

/-- `ForwardingTable::prefers_first_route`. -/
def prefers_first_route (protocol : String) : Bool :=
  protocol = "ddr" || protocol = "dgr" || protocol = "octopus"

/-- `ForwardingTable::forwarding_candidate_better`: strict preference
of the candidate over the current entry, by metric, then next hop,
then protocol name. -/
def forwarding_candidate_better (candidate : Route)
    (current : ForwardingEntry) : Bool :=
  if candidate.metric < current.metric then true
  else if current.metric < candidate.metric then false
  else if candidate.next_hop ≠ current.next_hop then
    decide (candidate.next_hop < current.next_hop)
  else decide (candidate.protocol < current.protocol)

/-- The per-route body of the `sync_from_routes` loop. -/
def fibStep (acc : SMap ForwardingEntry) (route : Route) :
    SMap ForwardingEntry :=
  let candidate := toForwardingEntry route
  match smapGet acc route.destination with
  | none => smapInsert acc route.destination candidate
  | some current =>
    if prefers_first_route current.protocol then acc
    else if forwarding_candidate_better route current then
      smapInsert acc route.destination candidate
    else acc

/-- `ForwardingTable::sync_from_routes` from `model/routing.rs`:
rebuild the destination-keyed entry map from scratch and report
whether it differs from the previous one. -/
def sync_from_routes (fib : SMap ForwardingEntry) (routes : List Route) :
    SMap ForwardingEntry × Bool :=
  let next := routes.foldl fibStep []
  if next = fib then (fib, false) else (next, true)

/-- The effect of one `sync_from_routes` iteration on the entry of a
single destination. -/
def fibSelect (cur : Option ForwardingEntry) (r : Route) :
    Option ForwardingEntry :=
  match cur with
  | none => some (toForwardingEntry r)
  | some c =>
    if prefers_first_route c.protocol then some c
    else if forwarding_candidate_better r c then some (toForwardingEntry r)
    else some c

/-- The `sync_from_routes` fold projected onto one destination `d`. -/
def fibSelectFold (d : RId) (cur : Option ForwardingEntry)
    (routes : List Route) : Option ForwardingEntry :=
  routes.foldl (fun acc r => if r.destination = d then fibSelect acc r else acc)
    cur

theorem fibStep_get (acc : SMap ForwardingEntry) (r : Route) (d : RId) :
    smapGet (fibStep acc r) d =
      (if r.destination = d then fibSelect (smapGet acc d) r
       else smapGet acc d) := by
  by_cases hd : r.destination = d
  · subst hd
    rw [if_pos rfl]
    cases hcur : smapGet acc r.destination with
    | none =>
      simp only [fibStep, fibSelect, hcur]
      exact smapGet_insert_self ..
    | some c =>
      simp only [fibStep, fibSelect, hcur]
      by_cases hpref : prefers_first_route c.protocol
      · simp [hpref, hcur]
      · by_cases hbet : forwarding_candidate_better r c
        · simp only [hpref, Bool.false_eq_true, if_false, hbet, if_true]
          exact smapGet_insert_self ..
        · simp [hpref, hbet, hcur]
  · rw [if_neg hd]
    cases hcur : smapGet acc r.destination with
    | none =>
      simp only [fibStep, hcur]
      exact smapGet_insert_ne _ _ _ _ hd
    | some c =>
      simp only [fibStep, hcur]
      by_cases hpref : prefers_first_route c.protocol
      · simp [hpref]
      · by_cases hbet : forwarding_candidate_better r c
        · simp only [hpref, Bool.false_eq_true, if_false, hbet, if_true]
          exact smapGet_insert_ne _ _ _ _ hd
        · simp [hpref, hbet]

theorem syncFold_get (routes : List Route) :
    ∀ (acc : SMap ForwardingEntry) (d : RId),
      smapGet (routes.foldl fibStep acc) d =
        fibSelectFold d (smapGet acc d) routes := by
  induction routes with
  | nil => intro acc d; rfl
  | cons r rest ih =>
    intro acc d
    rw [List.foldl_cons, ih]
    simp only [fibSelectFold, List.foldl_cons, fibStep_get]

theorem fibSelectFold_some (d : RId) (routes : List Route) :
    ∀ (c : ForwardingEntry),
      ∃ e, fibSelectFold d (some c) routes = some e := by
  induction routes with
  | nil => intro c; exact ⟨c, rfl⟩
  | cons r rest ih =>
    intro c
    rw [fibSelectFold, List.foldl_cons, ← fibSelectFold]
    by_cases hd : r.destination = d
    · rw [if_pos hd, fibSelect]
      by_cases hpref : prefers_first_route c.protocol
      · simpa [hpref] using ih c
      · by_cases hbet : forwarding_candidate_better r c
        · simpa [hpref, hbet] using ih (toForwardingEntry r)
        · simpa [hpref, hbet] using ih c
    · rw [if_neg hd]
      exact ih c

theorem fibSelectFold_none_isSome (d : RId) (routes : List Route) :
    (∃ e, fibSelectFold d none routes = some e) ↔
      ∃ r ∈ routes, r.destination = d := by
  induction routes with
  | nil => simp [fibSelectFold]
  | cons r rest ih =>
    rw [fibSelectFold, List.foldl_cons, ← fibSelectFold]
    by_cases hd : r.destination = d
    · rw [if_pos hd]
      simp only [fibSelect]
      constructor
      · intro _; exact ⟨r, List.mem_cons_self .., hd⟩
      · intro _; exact fibSelectFold_some d rest (toForwardingEntry r)
    · rw [if_neg hd, ih]
      constructor
      · rintro ⟨r2, hr2, hd2⟩
        exact ⟨r2, List.mem_cons_of_mem _ hr2, hd2⟩
      · rintro ⟨r2, hr2, hd2⟩
        rcases List.mem_cons.mp hr2 with h | h
        · exact absurd (h ▸ hd2) hd
        · exact ⟨r2, h, hd2⟩

theorem fibSelectFold_first_wins (d : RId) (routes : List Route) :
    ∀ (c : ForwardingEntry), prefers_first_route c.protocol = true →
      fibSelectFold d (some c) routes = some c := by
  induction routes with
  | nil => intro c _; rfl
  | cons r rest ih =>
    intro c hpref
    rw [fibSelectFold, List.foldl_cons, ← fibSelectFold]
    by_cases hd : r.destination = d
    · rw [if_pos hd, fibSelect]
      rw [if_pos hpref]
      exact ih c hpref
    · rw [if_neg hd]
      exact ih c hpref

/-- The lexicographic selection key `(metric, next_hop, protocol)`
implicit in `forwarding_candidate_better`. -/
def fibKey (e : ForwardingEntry) : ℚ ×ₗ (ℕ ×ₗ String) :=
  toLex (e.metric, toLex (e.next_hop, e.protocol))

theorem fibKey_lt_iff (e f : ForwardingEntry) :
    fibKey e < fibKey f ↔
      (e.metric < f.metric ∨ (e.metric = f.metric ∧
        (e.next_hop < f.next_hop ∨
          (e.next_hop = f.next_hop ∧ e.protocol < f.protocol)))) := by
  rw [fibKey, fibKey, Prod.Lex.lt_iff, Prod.Lex.lt_iff]

theorem fibKey_le_iff (e f : ForwardingEntry) :
    fibKey e ≤ fibKey f ↔
      (e.metric < f.metric ∨ (e.metric = f.metric ∧
        (e.next_hop < f.next_hop ∨
          (e.next_hop = f.next_hop ∧ e.protocol ≤ f.protocol)))) := by
  rw [fibKey, fibKey, Prod.Lex.le_iff, Prod.Lex.le_iff]

theorem forwarding_candidate_better_iff (r : Route) (c : ForwardingEntry) :
    forwarding_candidate_better r c = true ↔
      fibKey (toForwardingEntry r) < fibKey c := by
  rw [forwarding_candidate_better, fibKey_lt_iff]
  rcases lt_trichotomy r.metric c.metric with h | h | h
  · simp [toForwardingEntry, h]
  · simp only [toForwardingEntry, h, lt_irrefl, if_false, if_true, true_and]
    by_cases hh : r.next_hop = c.next_hop
    · simp [hh]
    · simp [hh]
  · have h1 : ¬ r.metric < c.metric := not_lt.mpr (le_of_lt h)
    have h2 : r.metric ≠ c.metric := (ne_of_lt h).symm
    simp [toForwardingEntry, h, h1, h2]

theorem fibSelectFold_earliest (d : RId) (routes : List Route) :
    ∀ r, routes.find? (fun x => decide (x.destination = d)) = some r →
      prefers_first_route r.protocol = true →
      fibSelectFold d none routes = some (toForwardingEntry r) := by
  induction routes with
  | nil => intro r h; cases h
  | cons x rest ih =>
    intro r hfind hpref
    rw [fibSelectFold, List.foldl_cons, ← fibSelectFold]
    by_cases hd : x.destination = d
    · rw [List.find?_cons_of_pos _ (by simpa using hd)] at hfind
      have hx : x = r := Option.some.inj hfind
      subst hx
      rw [if_pos hd]
      exact fibSelectFold_first_wins d rest (toForwardingEntry x) hpref
    · rw [List.find?_cons_of_neg _ (by simpa using hd)] at hfind
      rw [if_neg hd]
      exact ih r hfind hpref

theorem fibSelectFold_min (d : RId) (routes : List Route) :
    ∀ (cur : Option ForwardingEntry),
      (∀ r ∈ routes, r.destination = d →
        prefers_first_route r.protocol = false) →
      (∀ c, cur = some c → prefers_first_route c.protocol = false) →
      ∀ e, fibSelectFold d cur routes = some e →
        (cur = some e ∨
          ∃ r, r ∈ routes ∧ r.destination = d ∧ toForwardingEntry r = e) ∧
        (∀ c, cur = some c → fibKey e ≤ fibKey c) ∧
        (∀ r ∈ routes, r.destination = d →
          fibKey e ≤ fibKey (toForwardingEntry r)) := by
  induction routes with
  | nil =>
    intro cur hroutes hcur e hfold
    refine ⟨Or.inl hfold, fun c hc => ?_, fun r hr => absurd hr (by simp)⟩
    rw [hc] at hfold
    rw [Option.some.inj hfold]
  | cons x rest ih =>
    intro cur hroutes hcur e hfold
    have hrest : ∀ r ∈ rest, r.destination = d →
        prefers_first_route r.protocol = false :=
      fun r hr hrd => hroutes r (List.mem_cons_of_mem _ hr) hrd
    rw [fibSelectFold, List.foldl_cons, ← fibSelectFold] at hfold
    by_cases hd : x.destination = d
    · rw [if_pos hd] at hfold
      have hpx : prefers_first_route x.protocol = false :=
        hroutes x (List.mem_cons_self ..) hd
      cases cur with
      | none =>
        rw [show fibSelect none x = some (toForwardingEntry x) from rfl]
          at hfold
        obtain ⟨h1, h2, h3⟩ := ih (some (toForwardingEntry x)) hrest
          (fun c hc => by rw [← Option.some.inj hc]; exact hpx) e hfold
        refine ⟨?_, fun c hc => Option.noConfusion hc, fun r hr hrd => ?_⟩
        · rcases h1 with h | ⟨r, hr, hrd, hre⟩
          · exact Or.inr ⟨x, List.mem_cons_self .., hd, Option.some.inj h⟩
          · exact Or.inr ⟨r, List.mem_cons_of_mem _ hr, hrd, hre⟩
        · rcases List.mem_cons.mp hr with h | h
          · rw [h]; exact h2 _ rfl
          · exact h3 r h hrd
      | some c =>
        have hpc : prefers_first_route c.protocol = false := hcur c rfl
        rw [show fibSelect (some c) x =
            (if prefers_first_route c.protocol then some c
             else if forwarding_candidate_better x c then
               some (toForwardingEntry x) else some c) from rfl,
          hpc] at hfold
        rw [if_neg (by simp)] at hfold
        by_cases hbet : forwarding_candidate_better x c = true
        · rw [if_pos hbet] at hfold
          have hklt : fibKey (toForwardingEntry x) < fibKey c :=
            (forwarding_candidate_better_iff x c).mp hbet
          obtain ⟨h1, h2, h3⟩ := ih (some (toForwardingEntry x)) hrest
            (fun c0 hc0 => by rw [← Option.some.inj hc0]; exact hpx) e hfold
          have hex : fibKey e ≤ fibKey (toForwardingEntry x) := h2 _ rfl
          refine ⟨?_, fun c0 hc0 => ?_, fun r hr hrd => ?_⟩
          · rcases h1 with h | ⟨r, hr, hrd, hre⟩
            · exact Or.inr ⟨x, List.mem_cons_self .., hd, Option.some.inj h⟩
            · exact Or.inr ⟨r, List.mem_cons_of_mem _ hr, hrd, hre⟩
          · rw [← Option.some.inj hc0]
            exact hex.trans (le_of_lt hklt)
          · rcases List.mem_cons.mp hr with h | h
            · rw [h]; exact hex
            · exact h3 r h hrd
        · rw [if_neg hbet] at hfold
          have hkge : fibKey c ≤ fibKey (toForwardingEntry x) := by
            have := (forwarding_candidate_better_iff x c).not.mp hbet
            exact le_of_not_lt this
          obtain ⟨h1, h2, h3⟩ := ih (some c) hrest hcur e hfold
          have hec : fibKey e ≤ fibKey c := h2 _ rfl
          refine ⟨?_, h2, fun r hr hrd => ?_⟩
          · rcases h1 with h | ⟨r, hr, hrd, hre⟩
            · exact Or.inl h
            · exact Or.inr ⟨r, List.mem_cons_of_mem _ hr, hrd, hre⟩
          · rcases List.mem_cons.mp hr with h | h
            · rw [h]; exact hec.trans hkge
            · exact h3 r h hrd
    · rw [if_neg hd] at hfold
      obtain ⟨h1, h2, h3⟩ := ih cur hrest hcur e hfold
      refine ⟨?_, h2, fun r hr hrd => ?_⟩
      · rcases h1 with h | ⟨r, hr, hrd, hre⟩
        · exact Or.inl h
        · exact Or.inr ⟨r, List.mem_cons_of_mem _ hr, hrd, hre⟩
      · rcases List.mem_cons.mp hr with h | h
        · exact absurd (h ▸ hrd) hd
        · exact h3 r h hrd

theorem sync_from_routes_fst (fib : SMap ForwardingEntry)
    (routes : List Route) :
    (sync_from_routes fib routes).1 = routes.foldl fibStep [] := by
  rw [sync_from_routes]
  by_cases h : routes.foldl fibStep [] = fib
  · rw [if_pos h]; exact h.symm
  · rw [if_neg h]

/-! ## Claim C4 -/

/-- C4 (amended): for every route list given to
`ForwardingTable.sync_from_routes`, the resulting FIB holds exactly one
entry per destination occurring in the list; when the entry first
installed for a destination (the earliest route for it in list order)
belongs to a first-wins protocol (`ddr`, `dgr`, `octopus`) that
earliest route is retained; when **no** route for the destination
belongs to a first-wins protocol, the retained entry has metric ≤
every candidate's metric, ties broken by lowest next hop, then
lexicographically smallest protocol name; and the function returns
`true` iff the entry map changed. -/
theorem C4_sync_from_routes (fib : SMap ForwardingEntry)
    (routes : List Route) :
    (∀ d, (∃ e, smapGet (sync_from_routes fib routes).1 d = some e) ↔
        ∃ r ∈ routes, r.destination = d) ∧
    (∀ d r, routes.find? (fun x => decide (x.destination = d)) = some r →
        prefers_first_route r.protocol = true →
        smapGet (sync_from_routes fib routes).1 d =
          some (toForwardingEntry r)) ∧
    (∀ d, (∀ r ∈ routes, r.destination = d →
          prefers_first_route r.protocol = false) →
        ∀ e, smapGet (sync_from_routes fib routes).1 d = some e →
          (∃ r, r ∈ routes ∧ r.destination = d ∧ toForwardingEntry r = e) ∧
          ∀ r ∈ routes, r.destination = d →
            e.metric ≤ r.metric ∧
            (e.metric = r.metric → e.next_hop ≤ r.next_hop) ∧
            (e.metric = r.metric → e.next_hop = r.next_hop →
              e.protocol ≤ r.protocol)) ∧
    ((sync_from_routes fib routes).2 = true ↔
      (sync_from_routes fib routes).1 ≠ fib) := by
  have hbase : ∀ d, smapGet (sync_from_routes fib routes).1 d =
      fibSelectFold d none routes := by
    intro d
    rw [sync_from_routes_fst, syncFold_get]
    rfl
  refine ⟨?_, ?_, ?_, ?_⟩
  · intro d
    rw [hbase d]
    exact fibSelectFold_none_isSome d routes
  · intro d r hfind hpref
    rw [hbase d]
    exact fibSelectFold_earliest d routes r hfind hpref
  · intro d hnofw e hget
    rw [hbase d] at hget
    obtain ⟨h1, _, h3⟩ := fibSelectFold_min d routes none hnofw
      (fun c hc => Option.noConfusion hc) e hget
    have hsrc : ∃ r, r ∈ routes ∧ r.destination = d ∧
        toForwardingEntry r = e := by
      rcases h1 with h | h
      · exact Option.noConfusion h
      · exact h
    refine ⟨hsrc, fun r hr hrd => ?_⟩
    have hle := (fibKey_le_iff e (toForwardingEntry r)).mp (h3 r hr hrd)
    simp only [toForwardingEntry] at hle
    refine ⟨?_, ?_, ?_⟩
    · rcases hle with h | ⟨h, _⟩
      · exact le_of_lt h
      · exact le_of_eq h
    · intro hm
      rcases hle with h | ⟨_, hh | ⟨hh, _⟩⟩
      · exact absurd h (by rw [hm]; exact lt_irrefl _)
      · exact le_of_lt hh
      · exact le_of_eq hh
    · intro hm hh
      rcases hle with h | ⟨_, h2 | ⟨_, hp⟩⟩
      · exact absurd h (by rw [hm]; exact lt_irrefl _)
      · exact absurd h2 (by rw [hh]; exact lt_irrefl _)
      · exact hp
  · rw [sync_from_routes]
    by_cases h : routes.foldl fibStep [] = fib
    · simp [h]
    · simp [h]

/-- The route list refuting C4 as stated: the earliest route for
destination 4 is an `ospf` route (not first-wins), a `ddr` route with a
better metric captures the entry mid-fold, and the final `ospf` route
with the overall best metric is then ignored. -/
def c4Routes : List Route :=
  [Route.new_host 4 2 10 "ospf",
   Route.new_host 4 9 5 "ddr",
   Route.new_host 4 3 1 "ospf"]

/-- Counterexample to C4 as stated: the first route installed for
destination 4 belongs to `ospf` (not first-wins), yet the retained
entry (the `ddr` one, metric 5) does **not** have metric ≤ every
candidate's metric — the last candidate has metric 1. -/
theorem C4_counterexample :
    c4Routes.find? (fun x => decide (x.destination = 4)) =
        some (Route.new_host 4 2 10 "ospf") ∧
    prefers_first_route "ospf" = false ∧
    ¬ (∀ e, smapGet (sync_from_routes [] c4Routes).1 4 = some e →
        ∀ r ∈ c4Routes, r.destination = 4 → e.metric ≤ r.metric) := by
  refine ⟨by decide, by decide, ?_⟩
  intro h
  have := h (toForwardingEntry (Route.new_host 4 9 5 "ddr")) (by decide)
    (Route.new_host 4 3 1 "ospf") (by decide) rfl
  norm_num [toForwardingEntry, Route.new_host] at this

/-- Witness for the amended C4 on a pure-`ospf` route list: the
retained entry for destination 4 is the metric-8 route and its metric
is ≤ the metric of the metric-10 candidate. -/
theorem C4_sync_from_routes_witness :
    (toForwardingEntry (Route.new_host 4 3 8 "ospf")).metric ≤
      (Route.new_host 4 2 10 "ospf").metric := by
  have h := (C4_sync_from_routes []
      [Route.new_host 4 2 10 "ospf", Route.new_host 4 3 8 "ospf"]).2.2.1
    4 (by decide) (toForwardingEntry (Route.new_host 4 3 8 "ospf"))
    (by decide)
  exact (h.2 (Route.new_host 4 2 10 "ospf") (by decide) rfl).1

/-! ## `model/control_plane.rs`: exchange scheduling and lifetimes -/

/-- `ExchangeScope` from `model/control_plane.rs`. -/
inductive ExchangeScope
  | OneHop
  | FloodDomain
  | RouterDomain
deriving DecidableEq, Repr

/-- `RecordFreshness` from `model/control_plane.rs`. -/
inductive RecordFreshness
  | Fresh
  | Stale
  | Expired
deriving DecidableEq, Repr

/-- `StateLifetimePolicy` from `model/control_plane.rs`. -/
structure StateLifetimePolicy where
  fresh_for_s : ℚ
  stale_for_s : ℚ
deriving DecidableEq, Repr

/-- `StateLifetimePolicy::strict`. -/
def StateLifetimePolicy.strict (max_age_s : ℚ) : StateLifetimePolicy :=
  { fresh_for_s := max max_age_s 0, stale_for_s := 0 }

/-- `StateLifetimePolicy::classify`. -/
def StateLifetimePolicy.classify (p : StateLifetimePolicy)
    (learned_at now : ℚ) : RecordFreshness :=
  let age_s := max (now - learned_at) 0
  if age_s ≤ p.fresh_for_s then RecordFreshness.Fresh
  else if age_s ≤ p.fresh_for_s + p.stale_for_s then RecordFreshness.Stale
  else RecordFreshness.Expired

/-- `StateLifetimePolicy::is_usable`. -/
def StateLifetimePolicy.is_usable (p : StateLifetimePolicy)
    (learned_at now : ℚ) : Bool :=
  p.classify learned_at now ≠ RecordFreshness.Expired

/-- `ExchangePolicy` from `model/control_plane.rs`. -/
structure ExchangePolicy where
  periodic_interval_s : Option ℚ
  min_trigger_spacing_s : ℚ
deriving DecidableEq, Repr

/-- `ExchangePolicy::periodic`. -/
def ExchangePolicy.periodic (interval_s : ℚ) : ExchangePolicy :=
  { periodic_interval_s := some (max interval_s 0)
    min_trigger_spacing_s := 0 }

/-- `ExchangePolicy::hybrid`. -/
def ExchangePolicy.hybrid (interval_s min_trigger_spacing_s : ℚ) :
    ExchangePolicy :=
  { periodic_interval_s := some (max interval_s 0)
    min_trigger_spacing_s := max min_trigger_spacing_s 0 }

/-- `ExchangeState` from `model/control_plane.rs` (default has both
timestamps at `-1e9`). -/
structure ExchangeState where
  last_periodic_at : ℚ
  last_triggered_at : ℚ
deriving DecidableEq, Repr

/-- `ExchangeState::periodic_due` (returns the flag and the updated
state). -/
def ExchangeState.periodic_due (st : ExchangeState) (now : ℚ)
    (policy : ExchangePolicy) : Bool × ExchangeState :=
  match policy.periodic_interval_s with
  | none => (false, st)
  | some interval_s =>
    if now - st.last_periodic_at < interval_s then (false, st)
    else (true, { st with last_periodic_at := now })

/-- `ExchangeState::trigger_due`. -/
def ExchangeState.trigger_due (st : ExchangeState) (now : ℚ)
    (policy : ExchangePolicy) : Bool × ExchangeState :=
  if now - st.last_triggered_at < policy.min_trigger_spacing_s then (false, st)
  else (true, { st with last_triggered_at := now })

/-- `ExchangeState::mark_triggered`. -/
def ExchangeState.mark_triggered (st : ExchangeState) (now : ℚ) :
    ExchangeState :=
  { st with last_triggered_at := now }

theorem periodic_due_fst (st : ExchangeState) (now : ℚ)
    (policy : ExchangePolicy) :
    (st.periodic_due now policy).1 =
      (match policy.periodic_interval_s with
       | none => false
       | some interval_s => decide (interval_s ≤ now - st.last_periodic_at)) := by
  rw [ExchangeState.periodic_due]
  cases policy.periodic_interval_s with
  | none => rfl
  | some i =>
    by_cases h : now - st.last_periodic_at < i
    · simp [h, not_le.mpr h]
    · simp [h, not_lt.mp h]

theorem trigger_due_fst (st : ExchangeState) (now : ℚ)
    (policy : ExchangePolicy) :
    (st.trigger_due now policy).1 =
      decide (policy.min_trigger_spacing_s ≤ now - st.last_triggered_at) := by
  rw [ExchangeState.trigger_due]
  by_cases h : now - st.last_triggered_at < policy.min_trigger_spacing_s
  · simp [h, not_le.mpr h]
  · simp [h, not_lt.mp h]

/-! ## `model/state.rs`: `LinkStateDb` -/

/-- `LinkStateRecord` from `model/state.rs`. -/
structure LinkStateRecord where
  router_id : RId
  seq : ℤ
  links : SMap ℚ
  learned_at : ℚ
deriving DecidableEq, Repr

/-- `LinkStateDb`: the `records` map. -/
abbrev LinkStateDb := SMap LinkStateRecord

/-- `LinkStateDb::upsert` from `model/state.rs`: a no-op when
`seq ≤ stored.seq`, otherwise replaces the record. -/
def LinkStateDb.upsert (db : LinkStateDb) (router_id : RId) (seq : ℤ)
    (links : SMap ℚ) (now : ℚ) : LinkStateDb × Bool :=
  match smapGet db router_id with
  | some current =>
    if seq ≤ current.seq then (db, false)
    else (smapInsert db router_id
      { router_id := router_id, seq := seq, links := links
        learned_at := now }, true)
  | none =>
    (smapInsert db router_id
      { router_id := router_id, seq := seq, links := links
        learned_at := now }, true)

/-- `LinkStateDb::age_out` from `model/state.rs`: drop expired records
and report whether the set changed. -/
def LinkStateDb.age_out (db : LinkStateDb) (now max_age : ℚ) :
    LinkStateDb × Bool :=
  let policy := StateLifetimePolicy.strict max_age
  let retained := db.filter (fun p => policy.is_usable p.2.learned_at now)
  (retained, retained.length ≠ db.length)

/-! ## `protocols/link_state.rs`: `LinkStateControlPlane` -/

/-- `LinkStateTimers` from `protocols/link_state.rs`. -/
structure LinkStateTimers where
  hello_interval : ℚ
  lsa_interval : ℚ
  lsa_max_age : ℚ
  lsa_min_trigger_spacing_s : ℚ
deriving DecidableEq, Repr

/-- The structured content of an originated LSA payload (keys
`origin_router_id`, `lsa_seq`, `links`). -/
structure LsaPayload where
  origin_router_id : RId
  lsa_seq : ℤ
  links : SMap ℚ
deriving DecidableEq, Repr

/-- `LinkStateTick` from `protocols/link_state.rs`. -/
structure LinkStateTick where
  hello_due : Bool
  lsa_payload : Option LsaPayload
  topology_changed : Bool
deriving DecidableEq, Repr

/-- `LinkStateControlPlane` from `protocols/link_state.rs`. -/
structure LinkStateControlPlane where
  msg_seq : Nat
  lsa_seq : ℤ
  hello_exchange : ExchangeState
  lsa_exchange : ExchangeState
  hello_scope : ExchangeScope
  lsa_scope : ExchangeScope
  last_local_links : SMap ℚ
  lsdb : LinkStateDb
deriving Repr

/-- The snapshot of up-links computed at the top of `tick`:
`{neighbor → link.cost}` filtered by `is_up` (ascending key order, as
with the source's `BTreeMap` collect). -/
def localUpLinks (ctx : ProtocolContext) : SMap ℚ :=
  ctx.links.filterMap
    (fun p => if p.2.is_up then some (p.1, p.2.cost) else none)

/-- `LinkStateControlPlane::tick` from `protocols/link_state.rs`,
returning the tick result and the updated control plane. -/
def LinkStateControlPlane.tick (cp : LinkStateControlPlane)
    (ctx : ProtocolContext) (timers : LinkStateTimers) (force_lsa : Bool) :
    LinkStateTick × LinkStateControlPlane :=
  let now := ctx.now
  let hello := cp.hello_exchange.periodic_due now
    (ExchangePolicy.periodic timers.hello_interval)
  let links := localUpLinks ctx
  let lsa_policy := ExchangePolicy.hybrid timers.lsa_interval
    (max timers.lsa_min_trigger_spacing_s 0)
  let p := cp.lsa_exchange.periodic_due now lsa_policy
  let t :=
    if force_lsa then (true, p.2.mark_triggered now)
    else if links ≠ cp.last_local_links then p.2.trigger_due now lsa_policy
    else (false, p.2)
  let should_originate := p.1 || t.1
  let org :
      Option LsaPayload × ℤ × SMap ℚ × LinkStateDb :=
    if should_originate then
      (some { origin_router_id := ctx.router_id, lsa_seq := cp.lsa_seq + 1
              links := links },
       cp.lsa_seq + 1, links,
       (cp.lsdb.upsert ctx.router_id (cp.lsa_seq + 1) links now).1)
    else (none, cp.lsa_seq, cp.last_local_links, cp.lsdb)
  let aged := LinkStateDb.age_out org.2.2.2 now timers.lsa_max_age
  ({ hello_due := hello.1
     lsa_payload := org.1
     topology_changed := aged.2 || should_originate },
   { cp with
     hello_exchange := hello.2
     lsa_exchange := t.2
     lsa_seq := org.2.1
     last_local_links := org.2.2.1
     lsdb := aged.1 })

/-! ## Claim C7 -/

/-- C7: on every `LinkStateControlPlane.tick`, an LSA payload is
originated iff `force_lsa` is set, or the periodic condition
(`now − last periodic origination ≥ lsa_interval`) holds, or the
snapshot of up-links differs from the last originated snapshot and the
triggered min-spacing allows; each origination increments `lsa_seq` by
exactly one, builds the payload from the new sequence number and the
snapshot, and self-upserts the new record into the local LSDB; and
`topology_changed` equals (originated OR the LSDB age-out removed at
least one record).  Timer intervals are non-negative durations. -/
theorem C7_tick (cp : LinkStateControlPlane) (ctx : ProtocolContext)
    (timers : LinkStateTimers) (force_lsa : Bool)
    (hI : 0 ≤ timers.lsa_interval) :
    ((cp.tick ctx timers force_lsa).1.lsa_payload.isSome =
      (force_lsa
        || decide (timers.lsa_interval ≤
             ctx.now - cp.lsa_exchange.last_periodic_at)
        || (decide (localUpLinks ctx ≠ cp.last_local_links)
            && decide (max timers.lsa_min_trigger_spacing_s 0 ≤
                 ctx.now - cp.lsa_exchange.last_triggered_at)))) ∧
    ((cp.tick ctx timers force_lsa).1.lsa_payload.isSome = true →
      (cp.tick ctx timers force_lsa).1.lsa_payload =
        some { origin_router_id := ctx.router_id
               lsa_seq := cp.lsa_seq + 1
               links := localUpLinks ctx } ∧
      (cp.tick ctx timers force_lsa).2.lsa_seq = cp.lsa_seq + 1 ∧
      (cp.tick ctx timers force_lsa).2.lsdb =
        (LinkStateDb.age_out
          (cp.lsdb.upsert ctx.router_id (cp.lsa_seq + 1) (localUpLinks ctx)
            ctx.now).1 ctx.now timers.lsa_max_age).1) ∧
    ((cp.tick ctx timers force_lsa).1.topology_changed =
      ((cp.tick ctx timers force_lsa).1.lsa_payload.isSome
        || (LinkStateDb.age_out
            (if (cp.tick ctx timers force_lsa).1.lsa_payload.isSome then
              (cp.lsdb.upsert ctx.router_id (cp.lsa_seq + 1)
                (localUpLinks ctx) ctx.now).1
             else cp.lsdb) ctx.now timers.lsa_max_age).2)) := by
  have hmax : max (max timers.lsa_min_trigger_spacing_s 0) 0 =
      max timers.lsa_min_trigger_spacing_s 0 :=
    max_eq_left (le_max_right _ _)
  have hP : (cp.lsa_exchange.periodic_due ctx.now
      (ExchangePolicy.hybrid timers.lsa_interval
        (max timers.lsa_min_trigger_spacing_s 0))).1 =
      decide (timers.lsa_interval ≤
        ctx.now - cp.lsa_exchange.last_periodic_at) := by
    rw [periodic_due_fst]
    show decide (max timers.lsa_interval 0 ≤ _) = _
    rw [max_eq_left hI]
  have hPsnd : ((cp.lsa_exchange.periodic_due ctx.now
      (ExchangePolicy.hybrid timers.lsa_interval
        (max timers.lsa_min_trigger_spacing_s 0))).2).last_triggered_at =
      cp.lsa_exchange.last_triggered_at := by
    simp only [ExchangeState.periodic_due, ExchangePolicy.hybrid]
    split
    · rfl
    · rfl
  have hT : (ExchangeState.trigger_due
      ((cp.lsa_exchange.periodic_due ctx.now
        (ExchangePolicy.hybrid timers.lsa_interval
          (max timers.lsa_min_trigger_spacing_s 0))).2) ctx.now
      (ExchangePolicy.hybrid timers.lsa_interval
        (max timers.lsa_min_trigger_spacing_s 0))).1 =
      decide (max timers.lsa_min_trigger_spacing_s 0 ≤
        ctx.now - cp.lsa_exchange.last_triggered_at) := by
    rw [trigger_due_fst, hPsnd]
    show decide (max (max timers.lsa_min_trigger_spacing_s 0) 0 ≤ _) = _
    rw [hmax]
  cases force_lsa with
  | true =>
    cases hp : decide (timers.lsa_interval ≤
        ctx.now - cp.lsa_exchange.last_periodic_at) with
    | true => simp [LinkStateControlPlane.tick, hP, hp, Bool.or_comm]
    | false => simp [LinkStateControlPlane.tick, hP, hp, Bool.or_comm]
  | false =>
    by_cases hc : localUpLinks ctx ≠ cp.last_local_links
    · cases hp : decide (timers.lsa_interval ≤
          ctx.now - cp.lsa_exchange.last_periodic_at) with
      | true => simp [LinkStateControlPlane.tick, hP, hT, hp, hc, Bool.or_comm]
      | false =>
        cases ht : decide (max timers.lsa_min_trigger_spacing_s 0 ≤
            ctx.now - cp.lsa_exchange.last_triggered_at) with
        | true =>
          simp [LinkStateControlPlane.tick, hP, hT, hp, ht,
            of_decide_eq_true ht, hc, Bool.or_comm]
        | false =>
          simp [LinkStateControlPlane.tick, hP, hT, hp, ht,
            of_decide_eq_false ht, hc, Bool.or_comm]
    · cases hp : decide (timers.lsa_interval ≤
          ctx.now - cp.lsa_exchange.last_periodic_at) with
      | true => simp [LinkStateControlPlane.tick, hP, hp, hc, Bool.or_comm]
      | false => simp [LinkStateControlPlane.tick, hP, hp, hc, Bool.or_comm]

/-- A freshly constructed control plane (`LinkStateControlPlane::new`),
used as the C7 witness state. -/
def c7Cp : LinkStateControlPlane :=
  { msg_seq := 0
    lsa_seq := 0
    hello_exchange := { last_periodic_at := -1000000000
                        last_triggered_at := -1000000000 }
    lsa_exchange := { last_periodic_at := -1000000000
                      last_triggered_at := -1000000000 }
    hello_scope := ExchangeScope.OneHop
    lsa_scope := ExchangeScope.FloodDomain
    last_local_links := []
    lsdb := [] }

/-- The context for the C7 witness. -/
def c7Ctx : ProtocolContext :=
  { router_id := 1
    now := 0
    links := [(2, { neighbor_id := 2, cost := 1, address := "a",
                    port := 5500, interface_name := none,
                    is_up := true })] }

/-- The timers for the C7 witness. -/
def c7Timers : LinkStateTimers :=
  { hello_interval := 1
    lsa_interval := 3
    lsa_max_age := 15
    lsa_min_trigger_spacing_s := 0 }

/-- Witness for C7: on a fresh control plane the first (periodic-due)
tick originates an LSA and bumps `lsa_seq` to 1. -/
theorem C7_tick_witness :
    (c7Cp.tick c7Ctx c7Timers false).1.lsa_payload.isSome = true ∧
    (c7Cp.tick c7Ctx c7Timers false).2.lsa_seq = 1 := by
  have h := C7_tick c7Cp c7Ctx c7Timers false (by norm_num [c7Timers])
  have hb : (false
      || decide (c7Timers.lsa_interval ≤
           c7Ctx.now - c7Cp.lsa_exchange.last_periodic_at)
      || (decide (localUpLinks c7Ctx ≠ c7Cp.last_local_links)
          && decide (max c7Timers.lsa_min_trigger_spacing_s 0 ≤
               c7Ctx.now - c7Cp.lsa_exchange.last_triggered_at))) = true := by
    norm_num [c7Cp, c7Ctx, c7Timers, localUpLinks]
  refine ⟨?_, ?_⟩
  · rw [h.1, hb]
  · exact (h.2.1 (by rw [h.1, hb])).2.1

/-! ## `protocols/ddr.rs`: queue-aware route selection -/

/-- `RouteChoice` from `protocols/ddr.rs`. -/
structure RouteChoice where
  next_hop : RId
  distance : ℚ
  completion_ms : ℚ
  pressure_level : Nat
deriving DecidableEq, Repr

/-- `DdrRoutingTableEntry` from `protocols/ddr.rs`. -/
structure DdrRoutingTableEntry where
  base : Ipv4RoutingTableEntry
  route_metric : ℚ
  next_interface : Option Nat
  distance : ℚ
  pressure_level : Nat
  changed : Bool
deriving DecidableEq, Repr

/-- `DdrRoutingTableEntry::new_host_route_to`. -/
def DdrRoutingTableEntry.new_host_route_to (destination next_hop : RId)
    (interface next_interface : Option Nat) (distance : ℚ) :
    DdrRoutingTableEntry :=
  { base := create_host_route_to destination next_hop interface
    route_metric := 0
    next_interface := next_interface
    distance := max distance 0
    pressure_level := 0
    changed := false }

/-- `DdrRoutingTableEntry::set_route_metric`. -/
def DdrRoutingTableEntry.set_route_metric (e : DdrRoutingTableEntry)
    (route_metric : ℚ) : DdrRoutingTableEntry :=
  if e.route_metric ≠ route_metric then
    { e with route_metric := route_metric, changed := true }
  else e

/-- `DdrRoutingTableEntry::set_pressure_level`. -/
def DdrRoutingTableEntry.set_pressure_level (e : DdrRoutingTableEntry)
    (pressure_level : Nat) : DdrRoutingTableEntry :=
  if e.pressure_level ≠ pressure_level then
    { e with pressure_level := pressure_level, changed := true }
  else e

/-- `DdrRoutingTableEntry::set_route_changed`. -/
def DdrRoutingTableEntry.set_route_changed (e : DdrRoutingTableEntry)
    (changed : Bool) : DdrRoutingTableEntry :=
  { e with changed := changed }

/-- `DdrRoutingTableEntry::to_route`. -/
def DdrRoutingTableEntry.to_route (e : DdrRoutingTableEntry)
    (protocol : String) : Option Route :=
  match e.base.gateway with
  | none => none
  | some next_hop =>
    some (Route.new_host e.base.destination next_hop e.route_metric protocol)

/-- The routing-table entry `compute_routes` builds from one candidate
(`new_host_route_to` followed by the three setter calls). -/
def ddrEntryOfChoice (destination : RId) (choice : RouteChoice) :
    DdrRoutingTableEntry :=
  (((DdrRoutingTableEntry.new_host_route_to destination choice.next_hop
      none none choice.distance).set_route_metric
        choice.completion_ms).set_pressure_level
          choice.pressure_level).set_route_changed false

/-- `DdrProtocol::is_high_pressure`. -/
def ddrIsHighPressure (pressure_threshold : Nat) (choice : RouteChoice) :
    Bool :=
  pressure_threshold < choice.pressure_level

/-- `u32::MAX`, used by the route sort as the "no gateway" sentinel. -/
def u32Max : Nat := 4294967295

/-- The hop a routing-table entry sorts under
(`next_hop().unwrap_or(u32::MAX)`). -/
def ddrEntryHop (e : DdrRoutingTableEntry) : Nat :=
  e.base.gateway.getD u32Max

/-- The preference class assigned during the route sort: 0 for the
randomized pick, 1 for hops in the selection pool, 2 otherwise. -/
def ddrPrefClass (preferred_hops : List RId) (randomized : Option RId)
    (hop : Nat) : Nat :=
  if randomized = some hop then 0
  else if hop ∈ preferred_hops then 1
  else 2

/-- The comparator of the `destination_routes.sort_by` call in
`compute_routes`, as a boolean `le` (the comparison is not `Greater`):
preference class, then metric, then hop. -/
def ddrSortLe (preferred_hops : List RId) (randomized : Option RId)
    (l r : DdrRoutingTableEntry) : Bool :=
  let lh := ddrEntryHop l
  let rh := ddrEntryHop r
  let lp := ddrPrefClass preferred_hops randomized lh
  let rp := ddrPrefClass preferred_hops randomized rh
  if lp < rp then true
  else if rp < lp then false
  else if l.route_metric < r.route_metric then true
  else if r.route_metric < l.route_metric then false
  else lh ≤ rh

/-- Sorted-unique insertion, modelling `BTreeSet<u32>::insert`. -/
def natSetInsert (l : List Nat) (n : Nat) : List Nat :=
  match l with
  | [] => [n]
  | m :: rest =>
    if n < m then n :: m :: rest
    else if n = m then m :: rest
    else m :: natSetInsert rest n

/-- `BTreeSet<u32>` collected from a list, as a sorted-unique list. -/
def natSetOfList (xs : List Nat) : List Nat := xs.foldl natSetInsert []

theorem mem_natSetInsert (l : List Nat) (n a : Nat) :
    a ∈ natSetInsert l n ↔ a = n ∨ a ∈ l := by
  induction l with
  | nil => simp [natSetInsert]
  | cons m rest ih =>
    by_cases h1 : n < m
    · simp [natSetInsert, h1]
    · by_cases h2 : n = m
      · subst h2
        simp [natSetInsert, h1]
      · simp only [natSetInsert, if_neg h1, if_neg h2, List.mem_cons, ih]
        tauto

theorem mem_natSetOfList (xs : List Nat) (a : Nat) :
    a ∈ natSetOfList xs ↔ a ∈ xs := by
  suffices h : ∀ acc, a ∈ xs.foldl natSetInsert acc ↔ a ∈ acc ∨ a ∈ xs by
    simpa [natSetOfList] using h []
  induction xs with
  | nil => intro acc; simp
  | cons x rest ih =>
    intro acc
    rw [List.foldl_cons, ih, mem_natSetInsert]
    simp only [List.mem_cons]
    tauto

/-- The `base_set` of the claim: deadline-filtered candidates, falling
back to all candidates when the filter empties. -/
def ddrBaseSet (deadline_ms : ℚ) (cs : List RouteChoice) :
    List RouteChoice :=
  let deadline_candidates :=
    cs.filter (fun c => decide (c.completion_ms ≤ deadline_ms))
  if deadline_candidates.isEmpty then cs else deadline_candidates

/-- The `selection_pool` of the claim: the base set restricted to
low-pressure candidates, falling back to the base set when empty. -/
def ddrPool (deadline_ms : ℚ) (pressure_threshold : Nat)
    (cs : List RouteChoice) : List RouteChoice :=
  let low_pressure_candidates := (ddrBaseSet deadline_ms cs).filter
    (fun c => ! ddrIsHighPressure pressure_threshold c)
  if low_pressure_candidates.isEmpty then ddrBaseSet deadline_ms cs
  else low_pressure_candidates

/-- The per-destination body of `DdrProtocol::compute_routes`
(`protocols/ddr.rs` lines 597–687): filter by deadline with fallback,
filter by pressure with fallback, collect the preferred hop set, build
one routing-table entry per candidate, sort preferred-first and export
the routes.  `randomized_selected_hop` is the value of the local of the
same name (always `none` when `randomize_route_selection` is off or
the pool has at most one hop). -/
def compute_routes_for_destination (deadline_ms : ℚ)
    (pressure_threshold : Nat) (randomized_selected_hop : Option RId)
    (protocol : String) (destination : RId)
    (all_candidates : List RouteChoice) : List Route :=
  if all_candidates.isEmpty then []
  else
    let selection_pool := ddrPool deadline_ms pressure_threshold
      all_candidates
    let preferred_hops := natSetOfList
      (selection_pool.map RouteChoice.next_hop)
    let destination_routes := all_candidates.map (ddrEntryOfChoice destination)
    let sorted := destination_routes.mergeSort
      (ddrSortLe preferred_hops randomized_selected_hop)
    sorted.filterMap (fun e => e.to_route protocol)

theorem ddrEntryOfChoice_spec (d : RId) (c : RouteChoice) :
    (ddrEntryOfChoice d c).base.gateway = some c.next_hop ∧
    (ddrEntryOfChoice d c).route_metric = c.completion_ms ∧
    (ddrEntryOfChoice d c).base.destination = d := by
  rw [ddrEntryOfChoice, DdrRoutingTableEntry.new_host_route_to,
    create_host_route_to, DdrRoutingTableEntry.set_route_metric]
  split_ifs with h1
  · rw [DdrRoutingTableEntry.set_pressure_level]
    split_ifs with h2 <;> simp [DdrRoutingTableEntry.set_route_changed]
  · rw [not_not] at h1
    rw [DdrRoutingTableEntry.set_pressure_level]
    split_ifs with h2 <;>
      simp [DdrRoutingTableEntry.set_route_changed, ← h1]

theorem ddrEntryHop_ofChoice (d : RId) (c : RouteChoice) :
    ddrEntryHop (ddrEntryOfChoice d c) = c.next_hop := by
  rw [ddrEntryHop, (ddrEntryOfChoice_spec d c).1]
  rfl

theorem ddrEntryOfChoice_to_route (d : RId) (c : RouteChoice)
    (protocol : String) :
    (ddrEntryOfChoice d c).to_route protocol =
      some (Route.new_host d c.next_hop c.completion_ms protocol) := by
  obtain ⟨h1, h2, h3⟩ := ddrEntryOfChoice_spec d c
  rw [DdrRoutingTableEntry.to_route]
  simp only [h1, h2, h3]

/-- The lexicographic key the DDR route sort orders by. -/
def ddrKey (preferred_hops : List RId) (randomized : Option RId)
    (e : DdrRoutingTableEntry) : Nat ×ₗ (ℚ ×ₗ Nat) :=
  toLex (ddrPrefClass preferred_hops randomized (ddrEntryHop e),
    toLex (e.route_metric, ddrEntryHop e))

theorem ddrSortLe_iff (p : List RId) (rnd : Option RId)
    (l r : DdrRoutingTableEntry) :
    ddrSortLe p rnd l r = true ↔ ddrKey p rnd l ≤ ddrKey p rnd r := by
  rw [ddrSortLe, ddrKey, ddrKey, Prod.Lex.le_iff]
  rcases lt_trichotomy (ddrPrefClass p rnd (ddrEntryHop l))
    (ddrPrefClass p rnd (ddrEntryHop r)) with h | h | h
  · simp [h]
  · have h1 : ¬ ddrPrefClass p rnd (ddrEntryHop l) <
        ddrPrefClass p rnd (ddrEntryHop r) := by rw [h]; exact lt_irrefl _
    have h2 : ¬ ddrPrefClass p rnd (ddrEntryHop r) <
        ddrPrefClass p rnd (ddrEntryHop l) := by rw [h]; exact lt_irrefl _
    simp only [if_neg h1, if_neg h2, h, lt_self_iff_false, false_or,
      true_and, Prod.Lex.le_iff]
    rcases lt_trichotomy l.route_metric r.route_metric with h3 | h3 | h3
    · simp [h3]
    · have h4 : ¬ l.route_metric < r.route_metric := by
        rw [h3]; exact lt_irrefl _
      have h5 : ¬ r.route_metric < l.route_metric := by
        rw [h3]; exact lt_irrefl _
      simp [if_neg h4, if_neg h5, h3]
    · have h4 : ¬ l.route_metric < r.route_metric := not_lt.mpr (le_of_lt h3)
      have h5 : l.route_metric ≠ r.route_metric := (ne_of_lt h3).symm
      simp only [if_neg h4, if_pos h3, if_false, Bool.false_eq_true,
        false_iff]
      rintro (h6 | ⟨h6, h7⟩)
      · exact h4 h6
      · exact h5 h6
  · have h1 : ¬ ddrPrefClass p rnd (ddrEntryHop l) <
        ddrPrefClass p rnd (ddrEntryHop r) := not_lt.mpr (le_of_lt h)
    have h2 : ddrPrefClass p rnd (ddrEntryHop l) ≠
        ddrPrefClass p rnd (ddrEntryHop r) := (ne_of_lt h).symm
    simp [if_neg h1, h, h1, h2]

theorem ddrSortLe_trans (p : List RId) (rnd : Option RId) :
    ∀ a b c, ddrSortLe p rnd a b = true → ddrSortLe p rnd b c = true →
      ddrSortLe p rnd a c = true := by
  intro a b c hab hbc
  rw [ddrSortLe_iff] at hab hbc ⊢
  exact le_trans hab hbc

theorem ddrSortLe_total (p : List RId) (rnd : Option RId) :
    ∀ a b, (ddrSortLe p rnd a b || ddrSortLe p rnd b a) = true := by
  intro a b
  rcases le_total (ddrKey p rnd a) (ddrKey p rnd b) with h | h
  · rw [Bool.or_eq_true, ddrSortLe_iff]
    exact Or.inl h
  · rw [Bool.or_eq_true, ddrSortLe_iff p rnd b a]
    exact Or.inr h

theorem pairwise_hop_inj {l : List RouteChoice}
    (h : l.Pairwise (fun a b => a.next_hop ≠ b.next_hop)) :
    ∀ a ∈ l, ∀ b ∈ l, a.next_hop = b.next_hop → a = b := by
  induction l with
  | nil => intro a ha; cases ha
  | cons x rest ih =>
    intro a ha b hb heq
    rcases List.pairwise_cons.mp h with ⟨hx, hrest⟩
    rcases List.mem_cons.mp ha with rfl | ha2
    · rcases List.mem_cons.mp hb with rfl | hb2
      · rfl
      · exact absurd heq (hx b hb2)
    · rcases List.mem_cons.mp hb with rfl | hb2
      · exact absurd heq.symm (hx a ha2)
      · exact ih hrest a ha2 b hb2 heq

theorem filterMap_eq_map_of_some {α β : Type} {l : List α}
    {f : α → Option β} {g : α → β} (h : ∀ e ∈ l, f e = some (g e)) :
    l.filterMap f = l.map g := by
  induction l with
  | nil => rfl
  | cons x rest ih =>
    rw [List.filterMap_cons, h x (List.mem_cons_self ..), List.map_cons,
      ih (fun e he => h e (List.mem_cons_of_mem _ he))]

theorem ddrBaseSet_subset (deadline_ms : ℚ) (cs : List RouteChoice) :
    ∀ c ∈ ddrBaseSet deadline_ms cs, c ∈ cs := by
  intro c hc
  rw [ddrBaseSet] at hc
  split at hc
  · exact hc
  · exact List.mem_of_mem_filter hc

theorem ddrPool_subset (deadline_ms : ℚ) (pressure_threshold : Nat)
    (cs : List RouteChoice) :
    ∀ c ∈ ddrPool deadline_ms pressure_threshold cs, c ∈ cs := by
  intro c hc
  rw [ddrPool] at hc
  split at hc
  · exact ddrBaseSet_subset deadline_ms cs c hc
  · exact ddrBaseSet_subset deadline_ms cs c (List.mem_of_mem_filter hc)

/-- The route `to_route` exports for an entry that has a gateway. -/
def ddrExportedRoute (protocol : String) (e : DdrRoutingTableEntry) :
    Route :=
  Route.new_host e.base.destination (ddrEntryHop e) e.route_metric protocol

theorem ddrExportedRoute_ofChoice (protocol : String) (d : RId)
    (c : RouteChoice) :
    ddrExportedRoute protocol (ddrEntryOfChoice d c) =
      Route.new_host d c.next_hop c.completion_ms protocol := by
  rw [ddrExportedRoute, ddrEntryHop_ofChoice, (ddrEntryOfChoice_spec d c).2.1,
    (ddrEntryOfChoice_spec d c).2.2]

theorem ddrPrefClass_none (p : List RId) (hop : Nat) :
    ddrPrefClass p none hop = if hop ∈ p then 1 else 2 := by
  rw [ddrPrefClass]
  simp

/-! ## Claim C6 -/

/-- C6: in DDR/DGR/Octopus route computation, for every destination
other than the local router with a non-empty candidate set over the
neighbor-rooted trees, with pairwise-distinct candidate next hops (one
candidate per neighbor-rooted tree): the base set is the candidates
with `completion_ms ≤ deadline_ms` falling back to all candidates when
empty (`ddrBaseSet`), the selection pool is the base set restricted to
`pressure_level ≤ pressure_threshold` falling back to the base set when
empty (`ddrPool`), one route per candidate next-hop is emitted, and
with randomization off the selected hop — the selection-pool member
with the lowest `completion_ms`, ties broken by lower next-hop — comes
first. -/
theorem C6_compute_routes_selection (deadline_ms : ℚ)
    (pressure_threshold : Nat) (protocol : String) (destination : RId)
    (all_candidates : List RouteChoice) (sel : RouteChoice)
    (hne : all_candidates ≠ [])
    (hdist : List.Pairwise (fun a b => a.next_hop ≠ b.next_hop)
      all_candidates)
    (hsel : sel ∈ ddrPool deadline_ms pressure_threshold all_candidates)
    (hmin : ∀ c ∈ ddrPool deadline_ms pressure_threshold all_candidates,
      sel.completion_ms < c.completion_ms ∨
        (sel.completion_ms = c.completion_ms ∧ sel.next_hop ≤ c.next_hop)) :
    (compute_routes_for_destination deadline_ms pressure_threshold none
        protocol destination all_candidates).length =
      all_candidates.length ∧
    (∀ c ∈ all_candidates,
      Route.new_host destination c.next_hop c.completion_ms protocol ∈
        compute_routes_for_destination deadline_ms pressure_threshold none
          protocol destination all_candidates) ∧
    (compute_routes_for_destination deadline_ms pressure_threshold none
        protocol destination all_candidates).head? =
      some (Route.new_host destination sel.next_hop sel.completion_ms
        protocol) := by
  have hne2 : all_candidates.isEmpty = false := by
    cases all_candidates with
    | nil => exact absurd rfl hne
    | cons a b => rfl
  set P : List RId := natSetOfList ((ddrPool deadline_ms pressure_threshold
    all_candidates).map RouteChoice.next_hop) with hP
  set destRoutes : List DdrRoutingTableEntry :=
    all_candidates.map (ddrEntryOfChoice destination) with hDR
  set sorted : List DdrRoutingTableEntry :=
    destRoutes.mergeSort (ddrSortLe P none) with hS
  have hmemDR : ∀ e ∈ sorted, ∃ c ∈ all_candidates,
      e = ddrEntryOfChoice destination c := by
    intro e he
    rcases List.mem_map.mp (List.mem_mergeSort.mp he) with ⟨c, hc, hce⟩
    exact ⟨c, hc, hce.symm⟩
  have hfun : compute_routes_for_destination deadline_ms pressure_threshold
      none protocol destination all_candidates =
      sorted.map (ddrExportedRoute protocol) := by
    rw [compute_routes_for_destination, hne2]
    show List.filterMap _ _ = _
    exact filterMap_eq_map_of_some (fun e he => by
      rcases hmemDR e he with ⟨c, _, rfl⟩
      rw [ddrEntryOfChoice_to_route, ddrExportedRoute_ofChoice])
  have hperm := List.mergeSort_perm destRoutes (ddrSortLe P none)
  have hselhopP : sel.next_hop ∈ P := by
    rw [hP, mem_natSetOfList]
    exact List.mem_map.mpr ⟨sel, hsel, rfl⟩
  have hminE : ∀ e ∈ destRoutes,
      ddrSortLe P none (ddrEntryOfChoice destination sel) e = true := by
    intro e he
    rcases List.mem_map.mp he with ⟨c, hc, rfl⟩
    rw [ddrSortLe_iff, ddrKey, ddrKey, ddrEntryHop_ofChoice,
      ddrEntryHop_ofChoice, (ddrEntryOfChoice_spec destination sel).2.1,
      (ddrEntryOfChoice_spec destination c).2.1, ddrPrefClass_none,
      ddrPrefClass_none, if_pos hselhopP]
    by_cases hcp : c.next_hop ∈ P
    · rw [if_pos hcp]
      have hcpool : c ∈ ddrPool deadline_ms pressure_threshold
          all_candidates := by
        rw [hP, mem_natSetOfList] at hcp
        rcases List.mem_map.mp hcp with ⟨p0, hp0, hp0h⟩
        have := pairwise_hop_inj hdist p0
          (ddrPool_subset _ _ _ p0 hp0) c hc hp0h
        rw [← this]
        exact hp0
      rw [Prod.Lex.le_iff]
      refine Or.inr ⟨rfl, ?_⟩
      rw [Prod.Lex.le_iff]
      rcases hmin c hcpool with hlt | ⟨heq, hhop⟩
      · exact Or.inl hlt
      · exact Or.inr ⟨heq, hhop⟩
    · rw [if_neg hcp, Prod.Lex.le_iff]
      exact Or.inl (by norm_num)
  have hselE_mem : ddrEntryOfChoice destination sel ∈ sorted := by
    rw [hS, List.mem_mergeSort, hDR]
    exact List.mem_map.mpr ⟨sel, ddrPool_subset _ _ _ sel hsel, rfl⟩
  obtain ⟨hd, tl, hs⟩ : ∃ hd tl, sorted = hd :: tl := by
    cases hsor : sorted with
    | nil => rw [hsor] at hselE_mem; cases hselE_mem
    | cons a b => exact ⟨a, b, rfl⟩
  have hPairwise := List.sorted_mergeSort (ddrSortLe_trans P none)
    (ddrSortLe_total P none) destRoutes
  rw [← hS, hs] at hPairwise
  have hhd_eq : hd = ddrEntryOfChoice destination sel := by
    rw [hs] at hselE_mem
    rcases List.mem_cons.mp hselE_mem with h | h
    · exact h.symm
    · have h1 : ddrSortLe P none hd (ddrEntryOfChoice destination sel)
          = true :=
        (List.pairwise_cons.mp hPairwise).1 _ h
      have h2 : ddrSortLe P none (ddrEntryOfChoice destination sel) hd
          = true := by
        refine hminE hd ?_
        have : hd ∈ sorted := by rw [hs]; exact List.mem_cons_self ..
        exact List.mem_mergeSort.mp (hS ▸ this)
      rw [ddrSortLe_iff] at h1 h2
      have hkey := le_antisymm h1 h2
      have hhop : ddrEntryHop hd =
          ddrEntryHop (ddrEntryOfChoice destination sel) := by
        have := congrArg (fun k => (ofLex (ofLex k).2).2) hkey
        simpa [ddrKey] using this
      rcases hmemDR hd (by rw [hs]; exact List.mem_cons_self ..) with
        ⟨c, hc, rfl⟩
      rw [ddrEntryHop_ofChoice, ddrEntryHop_ofChoice] at hhop
      rw [pairwise_hop_inj hdist c hc sel
        (ddrPool_subset _ _ _ sel hsel) hhop]
  refine ⟨?_, ?_, ?_⟩
  · rw [hfun, List.length_map, hperm.length_eq, hDR, List.length_map]
  · intro c hc
    rw [hfun]
    refine List.mem_map.mpr ⟨ddrEntryOfChoice destination c, ?_, ?_⟩
    · rw [hS, List.mem_mergeSort, hDR]
      exact List.mem_map.mpr ⟨c, hc, rfl⟩
    · rw [ddrExportedRoute_ofChoice]
  · rw [hfun, hs, List.map_cons, List.head?_cons, hhd_eq,
      ddrExportedRoute_ofChoice]

/-- Witness candidates for C6: next hop 2 with completion 50 ms, next
hop 3 with completion 30 ms. -/
def c6Cands : List RouteChoice :=
  [{ next_hop := 2, distance := 1, completion_ms := 50, pressure_level := 0 },
   { next_hop := 3, distance := 2, completion_ms := 30, pressure_level := 0 }]

/-- Witness for C6: with deadline 100 ms and pressure threshold 2, the
route via hop 3 (lowest completion) is emitted first and both
candidates are exported. -/
theorem C6_compute_routes_selection_witness :
    (compute_routes_for_destination 100 2 none "ddr" 4 c6Cands).length
        = 2 ∧
    (compute_routes_for_destination 100 2 none "ddr" 4 c6Cands).head? =
      some (Route.new_host 4 3 30 "ddr") := by
  have h := C6_compute_routes_selection 100 2 "ddr" 4 c6Cands
    { next_hop := 3, distance := 2, completion_ms := 30,
      pressure_level := 0 }
    (of_decide_eq_true (Eq.refl true))
    (of_decide_eq_true (Eq.refl true))
    (of_decide_eq_true (Eq.refl true))
    (of_decide_eq_true (Eq.refl true))
  exact ⟨h.1, h.2.2⟩

/-! ## `route_compute/algorithms/dijkstra/mod.rs` and `frontier.rs`

The graph is `BTreeMap<u32, BTreeMap<u32, f64>>`, modelled as a
key-sorted association list of association lists with exact rational
costs.  `DistanceFrontier` wraps a `BinaryHeap` whose order is
(min cost, then min node); it is modelled as a list kept sorted in pop
order, so `push` is ordered insertion and popping inspects the head.
The `u32::MAX` sentinels of the source (`first_hop`/`parent` defaults
in comparisons) are modelled by `Option.getD u32Max`, which coincides
with the source for all `u32`-representable ids. -/

/-- The graph type `BTreeMap<u32, BTreeMap<u32, f64>>`. -/
abbrev Graph := SMap (SMap ℚ)

/-- `EPS = 1e-9` from `dijkstra/mod.rs`. -/
def EPS : ℚ := 1 / 1000000000

/-- `edge_cost_supported`: finite (vacuous over `ℚ`) and
non-negative. -/
def edge_cost_supported (edge_cost : ℚ) : Bool := decide (0 ≤ edge_cost)

/-- `is_stale(best, candidate)`: `candidate > best + EPS`. -/
def is_stale (best candidate : ℚ) : Bool := decide (best + EPS < candidate)

/-- Sorted-set removal, modelling `BTreeSet::remove`. -/
def natSetErase (l : List Nat) (n : Nat) : List Nat :=
  match l with
  | [] => []
  | m :: rest => if m = n then rest else m :: natSetErase rest n

/-- `DistanceFrontier::push`: insert keeping the list sorted in pop
order. -/
def frontierPush (l : List (RId × ℚ)) (node : RId) (cost : ℚ) :
    List (RId × ℚ) :=
  match l with
  | [] => [(node, cost)]
  | e :: rest =>
    if cost < e.2 ∨ (cost = e.2 ∧ node ≤ e.1) then (node, cost) :: e :: rest
    else e :: frontierPush rest node cost

/-- `DistanceFrontier::pop_min`: pop entries in (cost, node) order,
discarding the ones the stale filter rejects. -/
def frontierPop (stale : RId → ℚ → Bool) :
    List (RId × ℚ) → Option ((RId × ℚ) × List (RId × ℚ))
  | [] => none
  | e :: rest =>
    if stale e.1 e.2 then frontierPop stale rest else some (e, rest)

/-- `SpfTreeResult` from `route_compute`. -/
structure SpfTreeResult where
  dist : SMap ℚ
  first_hop : SMap RId
  parent : SMap RId
deriving DecidableEq, Repr

/-- `SpfSingleResult` from `route_compute`. -/
structure SpfSingleResult where
  dist : SMap ℚ
  first_hop : SMap RId
deriving DecidableEq, Repr

/-- The mutable state of the `compute_spf_tree` loop. -/
structure SpfState where
  dist : SMap ℚ
  first_hop : SMap RId
  parent : SMap RId
  settled : List Nat
  frontier : List (RId × ℚ)
deriving DecidableEq, Repr

/-- The loop body of `compute_spf_tree` for a single neighbor edge
`(v, edge_cost)` of the settled node `u` popped at key `cost_u`. -/
def spfRelaxEdge (src u : RId) (cost_u : ℚ) (st : SpfState)
    (v : RId) (edge_cost : ℚ) : SpfState :=
  if ¬ edge_cost_supported edge_cost then st
  else
    let candidate_metric := cost_u + edge_cost
    let candidate_hop := if u = src then v else (smapGet st.first_hop u).getD v
    let best_metric := smapGet st.dist v
    let best_hop := (smapGet st.first_hop v).getD u32Max
    let best_parent := (smapGet st.parent v).getD u32Max
    let better_metric :=
      match best_metric with
      | none => true
      | some best => decide (candidate_metric + EPS < best)
    let equal_metric :=
      match best_metric with
      | none => false
      | some best => decide (|candidate_metric - best| ≤ EPS)
    let better_hop := equal_metric && decide (candidate_hop < best_hop)
    let better_parent := equal_metric && decide (candidate_hop = best_hop)
      && decide (u < best_parent)
    if better_metric || better_hop || better_parent then
      { dist := smapInsert st.dist v candidate_metric
        first_hop := smapInsert st.first_hop v candidate_hop
        parent := smapInsert st.parent v u
        settled := natSetErase st.settled v
        frontier := frontierPush st.frontier v candidate_metric }
    else st

/-- The stale filter `compute_spf_tree` passes to `pop_min`. -/
def spfStale (st : SpfState) (node : RId) (cost : ℚ) : Bool :=
  if node ∈ st.settled then true
  else
    match smapGet st.dist node with
    | some best => is_stale best cost
    | none => true

/-- One iteration of the `compute_spf_tree` loop: pop the next
non-stale entry (or stop), settle it, and relax its out-edges. -/
def spfStep (graph : Graph) (src : RId) (st : SpfState) :
    Option SpfState :=
  match frontierPop (spfStale st) st.frontier with
  | none => none
  | some ((u, cost_u), rest) =>
    let st1 := { st with frontier := rest
                         settled := natSetInsert st.settled u }
    some (match smapGet graph u with
      | none => st1
      | some neighbors =>
        neighbors.foldl (fun s p => spfRelaxEdge src u cost_u s p.1 p.2) st1)

/-- Run the `compute_spf_tree` loop for at most `fuel` iterations. -/
def spfRun (graph : Graph) (src : RId) : Nat → SpfState → SpfState
  | 0, st => st
  | fuel + 1, st =>
    match spfStep graph src st with
    | none => st
    | some st2 => spfRun graph src fuel st2

/-- The initial state of `compute_spf_tree`. -/
def spfInit (src : RId) : SpfState :=
  { dist := [(src, 0)]
    first_hop := []
    parent := []
    settled := []
    frontier := [(src, 0)] }

/-- The loop has reached its exit condition (empty frontier after
stale filtering). -/
def spfDone (graph : Graph) (src : RId) (st : SpfState) : Bool :=
  (spfStep graph src st).isNone

/-- `compute_spf_tree` from `dijkstra/mod.rs`, with the loop embedded
via explicit fuel; at any `fuel` for which the loop has terminated
(`spfDone`), this is the function's value. -/
def compute_spf_tree (fuel : Nat) (graph : Graph) (src : RId) :
    SpfTreeResult :=
  let final := spfRun graph src fuel (spfInit src)
  { dist := final.dist
    first_hop := final.first_hop
    parent := final.parent }

/-- `compute_spf_single`: `compute_spf_tree` without the parent map. -/
def compute_spf_single (fuel : Nat) (graph : Graph) (src : RId) :
    SpfSingleResult :=
  let tree := compute_spf_tree fuel graph src
  { dist := tree.dist, first_hop := tree.first_hop }

/-! ## Walks and shortest distances (specification side) -/

/-- The cost of the directed edge `u → v`, when present. -/
def edgeCost (g : Graph) (u v : RId) : Option ℚ :=
  match smapGet g u with
  | none => none
  | some adj => smapGet adj v

/-- Consecutive nodes of the list are joined by graph edges. -/
def WalkChain (g : Graph) (l : List RId) : Prop :=
  l.Chain' (fun u v => edgeCost g u v ≠ none)

/-- `l` is a walk from `s` to `t` in `g` (edges may repeat; for the
non-negative graphs of the claims the infimum cost over walks and over
simple paths coincide). -/
def IsWalkFrom (g : Graph) (s t : RId) (l : List RId) : Prop :=
  l.head? = some s ∧ l.getLast? = some t ∧ WalkChain g l

/-- Total edge cost of a node list. -/
def walkCost (g : Graph) : List RId → ℚ
  | [] => 0
  | [_] => 0
  | u :: v :: rest => (edgeCost g u v).getD 0 + walkCost g (v :: rest)

/-- `d` is the true shortest-path distance from `s` to `v`. -/
def IsShortestDist (g : Graph) (s v : RId) (d : ℚ) : Prop :=
  (∃ l, IsWalkFrom g s v l ∧ walkCost g l = d) ∧
  ∀ l, IsWalkFrom g s v l → d ≤ walkCost g l

/-- All edges of the graph carry non-negative cost. -/
def NonnegGraph (g : Graph) : Prop :=
  ∀ u v c, edgeCost g u v = some c → 0 ≤ c

theorem walkCost_nonneg (g : Graph) (hg : NonnegGraph g) :
    ∀ l : List RId, WalkChain g l → 0 ≤ walkCost g l := by
  intro l
  induction l with
  | nil => intro _; exact le_refl 0
  | cons u rest ih =>
    intro hchain
    cases rest with
    | nil => exact le_refl 0
    | cons v rest2 =>
      rcases List.chain'_cons.mp hchain with ⟨hedge, hchain2⟩
      have h2 := ih hchain2
      rcases Option.ne_none_iff_exists.mp hedge with ⟨c, hc⟩
      have hc2 : 0 ≤ c := hg u v c hc.symm
      rw [walkCost, ← hc]
      simpa using add_nonneg hc2 h2

/-! ## Claim C2 -/

/-- The graph refuting C2 as stated: the direct edge `1 → 2` costs
`1/2 · 10⁻⁹` (half of `EPS`), while the two-edge path `1 → 3 → 2` is
free. -/
def c2Graph : Graph :=
  [(1, [(2, 1 / 2000000000), (3, 0)]), (2, []), (3, [(2, 0)])]

/-- C2 as stated, at one input: every shortest-path distance is
reported exactly in `dist`. -/
def ClaimC2At (fuel : Nat) (g : Graph) (s : RId) : Prop :=
  ∀ v d, IsShortestDist g s v d →
    smapGet (compute_spf_single fuel g s).dist v = some d

theorem c2Graph_nonneg : NonnegGraph c2Graph := by
  intro u v c h
  rw [edgeCost] at h
  rw [show c2Graph = [(1, [(2, 1 / 2000000000), (3, 0)]), (2, []),
    (3, [(2, 0)])] from rfl] at h
  simp only [smapGet] at h
  split_ifs at h <;>
    simp only [smapGet] at h <;>
    (try split_ifs at h) <;>
    (try (injection h with h2; rw [← h2])) <;>
    first
      | cases h
      | norm_num

/-- The `dist` map the embedding actually computes on `c2Graph`. -/
theorem c2Graph_dist :
    (compute_spf_single 10 c2Graph 1).dist =
      [(1, 0), (2, 1 / 2000000000), (3, 0)] ∧
    spfDone c2Graph 1 (spfRun c2Graph 1 10 (spfInit 1)) = true := by
  constructor
  · norm_num [compute_spf_single, compute_spf_tree, spfRun, spfStep,
      spfInit, spfStale, spfRelaxEdge, frontierPop, frontierPush,
      smapGet, smapInsert, natSetInsert, natSetErase, c2Graph,
      edge_cost_supported, is_stale, EPS, abs_le]
  · norm_num [spfDone, spfRun, spfStep, spfInit, spfStale, spfRelaxEdge,
      frontierPop, frontierPush, smapGet, smapInsert, natSetInsert,
      natSetErase, c2Graph, edge_cost_supported, is_stale, EPS, abs_le]

/-- Counterexample to C2 as stated: on `c2Graph` the true shortest
distance from 1 to 2 is 0 (via `1 → 3 → 2`), yet the settled `dist[2]`
is `1/2 · 10⁻⁹` — the `ε`-tolerant tie-breaking keeps the direct edge
because the free path arrives within `EPS` with a larger first hop.
The run is complete (`spfDone`), so this is the loop's exit value. -/
theorem C2_counterexample :
    spfDone c2Graph 1 (spfRun c2Graph 1 10 (spfInit 1)) = true ∧
    NonnegGraph c2Graph ∧ ¬ ClaimC2At 10 c2Graph 1 := by
  refine ⟨c2Graph_dist.2, c2Graph_nonneg, ?_⟩
  intro h
  have hsd : IsShortestDist c2Graph 1 2 0 := by
    constructor
    · refine ⟨[1, 3, 2], ⟨rfl, rfl, ?_⟩, ?_⟩
      · rw [WalkChain]
        refine List.chain'_cons.mpr ⟨?_, List.chain'_cons.mpr ⟨?_, ?_⟩⟩
        · rw [show edgeCost c2Graph 1 3 = some 0 from rfl]
          exact Option.noConfusion
        · rw [show edgeCost c2Graph 3 2 = some 0 from rfl]
          exact Option.noConfusion
        · exact List.chain'_singleton 2
      · norm_num [walkCost, edgeCost, c2Graph, smapGet]
    · intro l hl
      exact walkCost_nonneg c2Graph c2Graph_nonneg l hl.2.2
  have hval := h 2 0 hsd
  rw [c2Graph_dist.1] at hval
  rw [show smapGet [(1, (0:ℚ)), (2, 1 / 2000000000), (3, 0)] 2 =
    some (1 / 2000000000) from rfl] at hval
  have : (1 : ℚ) / 2000000000 = 0 := Option.some.inj hval
  norm_num at this

/-! ### Amended C2: walk soundness of the computed tree

Adjacency lists of a `Graph` model `BTreeMap`s, whose lookup agrees
with membership; `AdjWF` records this well-formedness. -/

/-- Every pair listed in an adjacency map is what lookup at its key
returns (true of every association list with distinct keys, hence of
every embedded `BTreeMap`). -/
def AdjWF (g : Graph) : Prop :=
  ∀ u adj, smapGet g u = some adj → ∀ p ∈ adj, smapGet adj p.1 = some p.2

theorem walkCost_append_edge (g : Graph) (v : RId) (w : ℚ) :
    ∀ (l : List RId) (u : RId), l.getLast? = some u →
      edgeCost g u v = some w →
      walkCost g (l ++ [v]) = walkCost g l + w := by
  intro l
  induction l with
  | nil => intro u hu _; cases hu
  | cons x rest ih =>
    intro u hu hw
    cases rest with
    | nil =>
      have hx : x = u := by simpa using hu
      subst hx
      simp [walkCost, hw]
    | cons y rest2 =>
      have hu2 : (y :: rest2).getLast? = some u := by
        rw [List.getLast?_cons_cons] at hu; exact hu
      have hih := ih u hu2 hw
      simp only [List.cons_append] at hih ⊢
      rw [walkCost, walkCost, hih]
      ring

theorem IsWalkFrom_append_edge (g : Graph) (s u v : RId) (w : ℚ)
    (l : List RId) (hl : IsWalkFrom g s u l)
    (hw : edgeCost g u v = some w) :
    IsWalkFrom g s v (l ++ [v]) ∧
      walkCost g (l ++ [v]) = walkCost g l + w := by
  obtain ⟨hhead, hlast, hchain⟩ := hl
  refine ⟨⟨?_, ?_, ?_⟩, walkCost_append_edge g v w l u hlast hw⟩
  · cases l with
    | nil => cases hhead
    | cons a t => simpa using hhead
  · exact List.getLast?_concat l
  · rw [WalkChain] at hchain ⊢
    rw [List.chain'_append]
    refine ⟨hchain, List.chain'_singleton v, ?_⟩
    intro x hx y hy
    rw [hlast] at hx
    simp only [Option.mem_def, Option.some.injEq] at hx
    simp only [List.head?_cons, Option.mem_def, Option.some.injEq] at hy
    subst hx; subst hy
    rw [hw]
    exact Option.noConfusion

theorem mem_frontierPush (node : RId) (cost : ℚ) :
    ∀ (l : List (RId × ℚ)) (x : RId × ℚ), x ∈ frontierPush l node cost →
      x = (node, cost) ∨ x ∈ l := by
  intro l
  induction l with
  | nil =>
    intro x hx
    rw [frontierPush] at hx
    exact Or.inl (List.mem_singleton.mp hx)
  | cons e rest ih =>
    intro x hx
    rw [frontierPush] at hx
    split_ifs at hx with h
    · rcases List.mem_cons.mp hx with h1 | h2
      · exact Or.inl h1
      · exact Or.inr h2
    · rcases List.mem_cons.mp hx with h1 | h2
      · exact Or.inr (h1 ▸ List.mem_cons_self e rest)
      · rcases ih x h2 with h3 | h4
        · exact Or.inl h3
        · exact Or.inr (List.mem_cons_of_mem e h4)

theorem frontierPop_mem (stale : RId → ℚ → Bool) :
    ∀ (l : List (RId × ℚ)) (e : RId × ℚ) (rest : List (RId × ℚ)),
      frontierPop stale l = some (e, rest) →
      e ∈ l ∧ (∀ x ∈ rest, x ∈ l) ∧ stale e.1 e.2 = false := by
  intro l
  induction l with
  | nil => intro e rest h; cases h
  | cons a t ih =>
    intro e rest h
    rw [frontierPop] at h
    split_ifs at h with hs
    · obtain ⟨h1, h2, h3⟩ := ih e rest h
      exact ⟨List.mem_cons_of_mem a h1,
        fun x hx => List.mem_cons_of_mem a (h2 x hx), h3⟩
    · injection h with h'
      injection h' with ha ht
      subst ha; subst ht
      exact ⟨List.mem_cons_self a t,
        fun x hx => List.mem_cons_of_mem a hx,
        by simpa using hs⟩

/-- Invariant of the `compute_spf_tree` loop on which the amended C2
rests: every recorded distance and every frontier key is the exact
cost of an actual walk from the source, every recorded first hop is
the second node of an actual walk from the source, and every recorded
node other than the source has a recorded first hop. -/
def SpfInv (g : Graph) (src : RId) (st : SpfState) : Prop :=
  (∀ v d, smapGet st.dist v = some d →
     ∃ l, IsWalkFrom g src v l ∧ walkCost g l = d) ∧
  (∀ e ∈ st.frontier,
     ∃ l, IsWalkFrom g src e.1 l ∧ walkCost g l = e.2) ∧
  (∀ v h, smapGet st.first_hop v = some h →
     ∃ rest, IsWalkFrom g src v (src :: h :: rest)) ∧
  (∀ v, v ≠ src → (smapGet st.dist v).isSome →
     (smapGet st.first_hop v).isSome)

theorem spfInit_inv (g : Graph) (src : RId) : SpfInv g src (spfInit src) := by
  have hwalk : IsWalkFrom g src src [src] ∧ walkCost g [src] = 0 :=
    ⟨⟨rfl, rfl, List.chain'_singleton src⟩, rfl⟩
  refine ⟨?_, ?_, ?_, ?_⟩
  · intro v d hd
    simp only [spfInit, smapGet] at hd
    split_ifs at hd with h
    subst h
    exact ⟨[src], hwalk.1, by rw [hwalk.2, Option.some.inj hd]⟩
  · intro e he
    simp only [spfInit, List.mem_singleton] at he
    subst he
    exact ⟨[src], hwalk.1, hwalk.2⟩
  · intro v h hh
    simp only [spfInit, smapGet] at hh
    cases hh
  · intro v hne hsome
    simp only [spfInit, smapGet] at hsome
    by_cases h : src = v
    · exact absurd h.symm hne
    · rw [if_neg h] at hsome
      exact Bool.noConfusion hsome

theorem spfInsert_inv (g : Graph) (src u : RId) (cost_u : ℚ)
    (st : SpfState) (v : RId) (w : ℚ) (hop : RId)
    (hwalkv : ∃ l, IsWalkFrom g src v l ∧ walkCost g l = cost_u + w)
    (hhopv : ∃ rest, IsWalkFrom g src v (src :: hop :: rest))
    (hinv : SpfInv g src st)
    (hu : u ≠ src → (smapGet st.first_hop u).isSome) :
    SpfInv g src
      { dist := smapInsert st.dist v (cost_u + w)
        first_hop := smapInsert st.first_hop v hop
        parent := smapInsert st.parent v u
        settled := natSetErase st.settled v
        frontier := frontierPush st.frontier v (cost_u + w) } ∧
    (u ≠ src → (smapGet (smapInsert st.first_hop v hop) u).isSome) := by
  dsimp only [SpfInv]
  refine ⟨⟨?_, ?_, ?_, ?_⟩, ?_⟩
  · intro v' d hd
    by_cases hv : v = v'
    · subst hv
      rw [smapGet_insert_self] at hd
      obtain ⟨l, hl1, hl2⟩ := hwalkv
      exact ⟨l, hl1, by rw [hl2]; exact Option.some.inj hd⟩
    · rw [smapGet_insert_ne st.dist v v' _ hv] at hd
      exact hinv.1 v' d hd
  · intro e he
    rcases mem_frontierPush v (cost_u + w) st.frontier e he with h3 | h4
    · subst h3
      exact hwalkv
    · exact hinv.2.1 e h4
  · intro v' h hh
    by_cases hv : v = v'
    · subst hv
      rw [smapGet_insert_self] at hh
      obtain ⟨rest, hr⟩ := hhopv
      exact ⟨rest, by rw [← Option.some.inj hh]; exact hr⟩
    · rw [smapGet_insert_ne st.first_hop v v' _ hv] at hh
      exact hinv.2.2.1 v' h hh
  · intro v' hne hsome
    by_cases hv : v = v'
    · subst hv
      rw [smapGet_insert_self]
      rfl
    · rw [smapGet_insert_ne st.first_hop v v' _ hv]
      refine hinv.2.2.2 v' hne ?_
      rw [smapGet_insert_ne st.dist v v' _ hv] at hsome
      exact hsome
  · intro husrc
    by_cases hv : v = u
    · subst hv
      rw [smapGet_insert_self]
      rfl
    · rw [smapGet_insert_ne st.first_hop v u _ hv]
      exact hu husrc

theorem spfRelaxEdge_inv (g : Graph) (src u : RId) (cost_u : ℚ)
    (st : SpfState) (v : RId) (w : ℚ)
    (hedge : edgeCost g u v = some w)
    (hLu : ∃ l, IsWalkFrom g src u l ∧ walkCost g l = cost_u)
    (hinv : SpfInv g src st)
    (hu : u ≠ src → (smapGet st.first_hop u).isSome) :
    SpfInv g src (spfRelaxEdge src u cost_u st v w) ∧
    (u ≠ src →
      (smapGet (spfRelaxEdge src u cost_u st v w).first_hop u).isSome) := by
  obtain ⟨Lu, hLuw, hLuc⟩ := hLu
  have hwalkv : ∃ l, IsWalkFrom g src v l ∧ walkCost g l = cost_u + w := by
    obtain ⟨hw1, hw2⟩ := IsWalkFrom_append_edge g src u v w Lu hLuw hedge
    exact ⟨Lu ++ [v], hw1, by rw [hw2, hLuc]⟩
  have hhopv1 : u = src → ∃ rest, IsWalkFrom g src v (src :: v :: rest) := by
    intro husrc
    subst husrc
    refine ⟨[], rfl, ?_, ?_⟩
    · rw [List.getLast?_cons_cons]; rfl
    · rw [WalkChain]
      refine List.chain'_cons.mpr ⟨?_, List.chain'_singleton v⟩
      rw [hedge]; exact Option.noConfusion
  have hhopv2 : ¬ u = src → ∃ rest, IsWalkFrom g src v
      (src :: (smapGet st.first_hop u).getD v :: rest) := by
    intro husrc
    obtain ⟨h0, hh0⟩ := Option.isSome_iff_exists.mp (hu husrc)
    rw [hh0, Option.getD_some]
    obtain ⟨rest, hrest⟩ := hinv.2.2.1 u h0 hh0
    obtain ⟨hw1, _⟩ := IsWalkFrom_append_edge g src u v w _ hrest hedge
    exact ⟨rest ++ [v], by simpa [List.cons_append] using hw1⟩
  simp only [spfRelaxEdge]
  split_ifs <;>
    first
      | exact ⟨hinv, hu⟩
      | exact spfInsert_inv g src u cost_u st v w v hwalkv
          (hhopv1 (by first | rfl | assumption)) hinv hu
      | exact spfInsert_inv g src u cost_u st v w
          ((smapGet st.first_hop u).getD v) hwalkv
          (hhopv2 (by assumption)) hinv hu

theorem spfRelaxFold_inv (g : Graph) (src u : RId) (cost_u : ℚ)
    (hLu : ∃ l, IsWalkFrom g src u l ∧ walkCost g l = cost_u) :
    ∀ (neighbors : List (RId × ℚ)),
      (∀ p ∈ neighbors, edgeCost g u p.1 = some p.2) →
      ∀ st : SpfState, SpfInv g src st →
        (u ≠ src → (smapGet st.first_hop u).isSome) →
        SpfInv g src
          (neighbors.foldl
            (fun s p => spfRelaxEdge src u cost_u s p.1 p.2) st) := by
  intro neighbors
  induction neighbors with
  | nil => intro _ st hst _; exact hst
  | cons p rest ih =>
    intro hns st hst hu
    rw [List.foldl_cons]
    have h1 := spfRelaxEdge_inv g src u cost_u st p.1 p.2
      (hns p (List.mem_cons_self p rest)) hLu hst hu
    exact ih (fun q hq => hns q (List.mem_cons_of_mem p hq)) _ h1.1 h1.2

theorem spfStep_inv (g : Graph) (src : RId) (hg : AdjWF g)
    (st st2 : SpfState) (hinv : SpfInv g src st)
    (hstep : spfStep g src st = some st2) : SpfInv g src st2 := by
  cases hpop : frontierPop (spfStale st) st.frontier with
  | none => rw [spfStep, hpop] at hstep; cases hstep
  | some pr =>
    obtain ⟨⟨u, cost_u⟩, rest⟩ := pr
    simp only [spfStep, hpop, Option.some.injEq] at hstep
    obtain ⟨hmem, hsub, hstale⟩ :=
      frontierPop_mem (spfStale st) st.frontier (u, cost_u) rest hpop
    dsimp only at hstale
    have hLu := hinv.2.1 (u, cost_u) hmem
    have hdist : (smapGet st.dist u).isSome := by
      rw [spfStale] at hstale
      split_ifs at hstale
      cases hget : smapGet st.dist u with
      | none =>
        simp only [hget] at hstale
        exact Bool.noConfusion hstale
      | some b => rfl
    have hinv1 : SpfInv g src
        { st with frontier := rest, settled := natSetInsert st.settled u } :=
      ⟨hinv.1, fun e he => hinv.2.1 e (hsub e he), hinv.2.2.1, hinv.2.2.2⟩
    have hu1 : u ≠ src → (smapGet st.first_hop u).isSome :=
      fun hne => hinv.2.2.2 u hne hdist
    cases hadj : smapGet g u with
    | none =>
      simp only [hadj] at hstep
      rw [← hstep]
      exact hinv1
    | some nb =>
      simp only [hadj] at hstep
      rw [← hstep]
      exact spfRelaxFold_inv g src u cost_u hLu nb
        (fun p hp => by
          rw [edgeCost, hadj]
          exact hg u nb hadj p hp)
        _ hinv1 hu1

theorem spfRun_inv (g : Graph) (src : RId) (hg : AdjWF g) :
    ∀ (fuel : Nat) (st : SpfState), SpfInv g src st →
      SpfInv g src (spfRun g src fuel st) := by
  intro fuel
  induction fuel with
  | zero => intro st hst; exact hst
  | succ n ih =>
    intro st hst
    rw [spfRun]
    cases hstep : spfStep g src st with
    | none => exact hst
    | some st2 => exact ih st2 (spfStep_inv g src hg st st2 hst hstep)

/-- C2 (amended): for every graph with well-formed adjacency maps and
every source, each distance `compute_spf_single` reports is the exact
cost of an actual walk from the source to that node — in particular it
is bounded below by the true shortest-path distance whenever one
exists — and each reported first hop is the second node of an actual
walk from the source to that node.  (By `C2_counterexample` the
reported distance can strictly exceed the shortest-path distance, so
this soundness bound is what the code guarantees.) -/
theorem C2_spf_dist_walks (fuel : Nat) (g : Graph) (src : RId)
    (hg : AdjWF g) :
    (∀ v d, smapGet (compute_spf_single fuel g src).dist v = some d →
       (∃ l, IsWalkFrom g src v l ∧ walkCost g l = d) ∧
       ∀ d0, IsShortestDist g src v d0 → d0 ≤ d) ∧
    (∀ v h, smapGet (compute_spf_single fuel g src).first_hop v = some h →
       ∃ rest, IsWalkFrom g src v (src :: h :: rest)) := by
  have hfin := spfRun_inv g src hg fuel (spfInit src) (spfInit_inv g src)
  constructor
  · intro v d hd
    have hwalk := hfin.1 v d hd
    refine ⟨hwalk, ?_⟩
    intro d0 hd0
    obtain ⟨l, hl, hc⟩ := hwalk
    rw [← hc]
    exact hd0.2 l hl
  · intro v h hh
    exact hfin.2.2.1 v h hh

theorem c2Graph_adjWF : AdjWF c2Graph := by
  intro u adj h p hp
  simp only [c2Graph, smapGet] at h
  split_ifs at h <;>
    (try cases h) <;>
    simp only [List.mem_cons, List.not_mem_nil, or_false] at hp <;>
    (try rcases hp with rfl | rfl) <;>
    rfl

/-! ## Claim C1: `compute_incremental_spf` from `dijkstra/mod.rs`

The incremental algorithm reuses the graph/frontier embedding above.
The source's `collect_subtree` recursion terminates through its
visited set; the embedding makes the recursion depth explicit with a
fuel parameter, as for the main loops. -/

/-- `collect_nodes`: every key and every neighbor key of the graph,
as a sorted set. -/
def collectNodes (g : Graph) : List Nat :=
  g.foldl
    (fun acc p => p.2.foldl (fun a q => natSetInsert a q.1)
      (natSetInsert acc p.1)) []

/-- `EdgeUpdate` from `route_compute/types.rs` (`from` is a Lean
keyword, hence `from_`). -/
structure EdgeUpdate where
  from_ : RId
  to_ : RId
  old_cost : Option ℚ
  new_cost : Option ℚ
deriving DecidableEq, Repr

/-- `IncrementalSpfResult` from `route_compute/types.rs`. -/
structure IncrementalSpfResult where
  tree : SpfTreeResult
  affected_nodes : List Nat
  used_full_recompute : Bool
deriving DecidableEq, Repr

/-- `is_increase_or_removal` (the `is_finite` filters are vacuous over
`ℚ`). -/
def is_increase_or_removal (old_cost new_cost : Option ℚ) : Bool :=
  match old_cost, new_cost with
  | some o, some n => decide (o + EPS < n)
  | some _, none => true
  | _, _ => false

/-- `build_children`: invert the parent map into child sets. -/
def build_children (parent : SMap RId) : SMap (List Nat) :=
  parent.foldl
    (fun acc pr =>
      smapInsert acc pr.2 (natSetInsert ((smapGet acc pr.2).getD []) pr.1))
    []

/-- `collect_subtree`: mark `root` and recurse into its children
unless already marked; recursion depth bounded by `fuel`. -/
def collect_subtree (children : SMap (List Nat)) :
    Nat → RId → List Nat → List Nat
  | 0, _, out => out
  | fuel + 1, root, out =>
    if root ∈ out then out
    else
      let out2 := natSetInsert out root
      match smapGet children root with
      | none => out2
      | some kids => kids.foldl (fun o c => collect_subtree children fuel c o) out2

/-- The affected-node computation of `compute_incremental_spf`
(lines 273-288): both endpoints of every update, plus the previous
subtrees below an endpoint whose tree edge got worse. -/
def incremental_affected (fuel : Nat) (previous : SpfTreeResult)
    (updates : List EdgeUpdate) : List Nat :=
  let children := build_children previous.parent
  updates.foldl
    (fun acc u =>
      let acc1 := natSetInsert (natSetInsert acc u.from_) u.to_
      if is_increase_or_removal u.old_cost u.new_cost then
        let acc2 :=
          if smapGet previous.parent u.to_ = some u.from_ then
            collect_subtree children fuel u.to_ acc1
          else acc1
        if smapGet previous.parent u.from_ = some u.to_ then
          collect_subtree children fuel u.from_ acc2
        else acc2
      else acc1)
    []

/-- `build_reverse_graph`: incoming edge lists, in graph iteration
order. -/
def build_reverse_graph (g : Graph) : SMap (List (RId × ℚ)) :=
  g.foldl
    (fun acc p =>
      p.2.foldl
        (fun a q => smapInsert a q.1 (((smapGet a q.1).getD []) ++ [(p.1, q.2)]))
        acc)
    []

/-- The mutable state of the incremental loop (no settled set). -/
structure IncState where
  dist : SMap ℚ
  first_hop : SMap RId
  parent : SMap RId
  frontier : List (RId × ℚ)
deriving DecidableEq, Repr

/-- The removal phase (lines 303-310): drop every affected node other
than the source from the three maps. -/
def incRemoveAffected (affected : List Nat) (src : RId)
    (dist : SMap ℚ) (first_hop parent : SMap RId) :
    SMap ℚ × SMap RId × SMap RId :=
  affected.foldl
    (fun t node =>
      if node = src then t
      else (smapErase t.1 node, smapErase t.2.1 node, smapErase t.2.2 node))
    (dist, first_hop, parent)

/-- The incoming-edge scan of the seeding loop (lines 328-362):
running best `(metric, parent, hop)` with `∞`/`u32::MAX` as `none`;
an incoming edge whose predecessor has no distance or (when not the
source) no first hop is skipped. -/
def incSeedScan (src node : RId) (dist : SMap ℚ) (first_hop : SMap RId)
    (incoming : List (RId × ℚ)) : Option ℚ × Option Nat × Option Nat :=
  incoming.foldl
    (fun best p =>
      if ¬ edge_cost_supported p.2 then best
      else
        match smapGet dist p.1 with
        | none => best
        | some pred_dist =>
          let candidate_metric := pred_dist + p.2
          match (if p.1 = src then some node else smapGet first_hop p.1) with
          | none => best
          | some candidate_hop =>
            let better_metric :=
              match best.1 with
              | none => true
              | some b => decide (candidate_metric + EPS < b)
            let equal_metric :=
              match best.1 with
              | none => false
              | some b => decide (|candidate_metric - b| ≤ EPS)
            let better_hop := equal_metric &&
              decide (candidate_hop < best.2.2.getD u32Max)
            let better_parent := equal_metric &&
              decide (candidate_hop = best.2.2.getD u32Max) &&
              decide (p.1 < best.2.1.getD u32Max)
            if better_metric || better_hop || better_parent then
              (some candidate_metric, some p.1, some candidate_hop)
            else best)
    (none, none, none)

/-- One iteration of the seeding loop (lines 323-370) for one affected
node: scan its incoming edges and install the best candidate when one
was found. -/
def incSeedNode (src : RId) (reverse : SMap (List (RId × ℚ)))
    (st : IncState) (node : RId) : IncState :=
  if node = src then st
  else
    match incSeedScan src node st.dist st.first_hop
        ((smapGet reverse node).getD []) with
    | (some best_metric, best_parent, best_hop) =>
      { dist := smapInsert st.dist node best_metric
        first_hop := smapInsert st.first_hop node (best_hop.getD u32Max)
        parent := smapInsert st.parent node (best_parent.getD u32Max)
        frontier := frontierPush st.frontier node best_metric }
    | (none, _, _) => st

/-- The incremental main-loop body for one neighbor edge
(lines 381-410): like `spfRelaxEdge` but with no settled set, and the
edge is skipped when a non-source `u` has no first hop. -/
def incRelaxEdge (src u : RId) (cost_u : ℚ) (st : IncState)
    (v : RId) (edge_cost : ℚ) : IncState :=
  if ¬ edge_cost_supported edge_cost then st
  else
    let candidate_metric := cost_u + edge_cost
    match (if u = src then some v else smapGet st.first_hop u) with
    | none => st
    | some candidate_hop =>
      let best_metric := smapGet st.dist v
      let best_hop := (smapGet st.first_hop v).getD u32Max
      let best_parent := (smapGet st.parent v).getD u32Max
      let better_metric :=
        match best_metric with
        | none => true
        | some best => decide (candidate_metric + EPS < best)
      let equal_metric :=
        match best_metric with
        | none => false
        | some best => decide (|candidate_metric - best| ≤ EPS)
      let better_hop := equal_metric && decide (candidate_hop < best_hop)
      let better_parent := equal_metric && decide (candidate_hop = best_hop)
        && decide (u < best_parent)
      if better_metric || better_hop || better_parent then
        { dist := smapInsert st.dist v candidate_metric
          first_hop := smapInsert st.first_hop v candidate_hop
          parent := smapInsert st.parent v u
          frontier := frontierPush st.frontier v candidate_metric }
      else st

/-- The stale filter of the incremental loop (line 373; no settled
set). -/
def incStale (st : IncState) (node : RId) (cost : ℚ) : Bool :=
  match smapGet st.dist node with
  | some best => is_stale best cost
  | none => true

/-- One iteration of the incremental loop (lines 372-412). -/
def incStep (g : Graph) (src : RId) (st : IncState) : Option IncState :=
  match frontierPop (incStale st) st.frontier with
  | none => none
  | some ((u, cost_u), rest) =>
    let st1 := { st with frontier := rest }
    some (match smapGet g u with
      | none => st1
      | some neighbors =>
        neighbors.foldl (fun s p => incRelaxEdge src u cost_u s p.1 p.2) st1)

/-- Run the incremental loop for at most `fuel` iterations. -/
def incRun (g : Graph) (src : RId) : Nat → IncState → IncState
  | 0, st => st
  | fuel + 1, st =>
    match incStep g src st with
    | none => st
    | some st2 => incRun g src fuel st2

/-- The incremental loop has reached its exit condition. -/
def incDone (g : Graph) (src : RId) (st : IncState) : Bool :=
  (incStep g src st).isNone

/-- `compute_incremental_spf` from `dijkstra/mod.rs`, with all loop
and recursion depths bounded by `fuel`; at any `fuel` at which the
loops have terminated this is the function's value. -/
def compute_incremental_spf (fuel : Nat) (g : Graph) (src : RId)
    (previous : SpfTreeResult) (updates : List EdgeUpdate) :
    IncrementalSpfResult :=
  if updates = [] then
    { tree := previous, affected_nodes := [], used_full_recompute := false }
  else
    let affected := incremental_affected fuel previous updates
    let node_count := max (collectNodes g).length 1
    if node_count ≤ 2 * affected.length then
      { tree := compute_spf_tree fuel g src
        affected_nodes := affected
        used_full_recompute := true }
    else
      let maps := incRemoveAffected affected src
        previous.dist previous.first_hop previous.parent
      let st0 : IncState :=
        { dist := smapInsert maps.1 src 0
          first_hop := smapErase maps.2.1 src
          parent := smapErase maps.2.2 src
          frontier := if src ∈ affected then frontierPush [] src 0 else [] }
      let reverse := build_reverse_graph g
      let st1 := affected.foldl (incSeedNode src reverse) st0
      let stF := incRun g src fuel st1
      { tree := { dist := stF.dist, first_hop := stF.first_hop,
                  parent := stF.parent }
        affected_nodes := affected
        used_full_recompute := false }

/-- The previous graph of the C1 counterexample: with `ε = 10⁻⁹`,
edges `1→2: 0.4ε`, `1→3: 0.2ε`, `1→4: 0`, `2→5: 0.8ε`, `3→5: 0.4ε`,
`4→5: 10`. -/
def c1GraphOld : Graph :=
  [(1, [(2, 1 / 2500000000), (3, 1 / 5000000000), (4, 0)]),
   (2, [(5, 1 / 1250000000)]),
   (3, [(5, 1 / 2500000000)]),
   (4, [(5, 10)]),
   (5, [])]

/-- The updated graph: the edge `4→5` drops from 10 to 0. -/
def c1GraphNew : Graph :=
  [(1, [(2, 1 / 2500000000), (3, 1 / 5000000000), (4, 0)]),
   (2, [(5, 1 / 1250000000)]),
   (3, [(5, 1 / 2500000000)]),
   (4, [(5, 0)]),
   (5, [])]

/-- The update list describing the change from `c1GraphOld` to
`c1GraphNew`. -/
def c1Updates : List EdgeUpdate := [⟨4, 5, some 10, some 0⟩]

/-- The tree `compute_spf_tree` produces on both graphs (the ε-scale
tie-breaking lands on first hop 2 for node 5 in both). -/
def c1Tree : SpfTreeResult :=
  { dist := [(1, 0), (2, 1 / 2500000000), (3, 1 / 5000000000), (4, 0),
      (5, 3 / 2500000000)]
    first_hop := [(2, 2), (3, 3), (4, 4), (5, 2)]
    parent := [(2, 1), (3, 1), (4, 1), (5, 2)] }

/-- The tree the incremental pass produces instead: node 5 settles on
the reseeded candidate through 4. -/
def c1IncTree : SpfTreeResult :=
  { dist := [(1, 0), (2, 1 / 2500000000), (3, 1 / 5000000000), (4, 0),
      (5, 0)]
    first_hop := [(2, 2), (3, 3), (4, 4), (5, 4)]
    parent := [(2, 1), (3, 1), (4, 1), (5, 4)] }

/-- C1 as stated, at one input: the incremental tree equals the full
recompute on the updated graph. -/
def ClaimC1At (fuel : Nat) (gOld gNew : Graph) (src : RId)
    (updates : List EdgeUpdate) : Prop :=
  (compute_incremental_spf fuel gNew src
      (compute_spf_tree fuel gOld src) updates).tree =
    compute_spf_tree fuel gNew src

/-- The state of the incremental loop after removal and reseeding on
the C1 counterexample instance (the `else` branch of
`compute_incremental_spf` up to the main loop). -/
def c1SeedState : IncState :=
  let affected := incremental_affected 12 c1Tree c1Updates
  let maps := incRemoveAffected affected 1
    c1Tree.dist c1Tree.first_hop c1Tree.parent
  let st0 : IncState :=
    { dist := smapInsert maps.1 1 0
      first_hop := smapErase maps.2.1 1
      parent := smapErase maps.2.2 1
      frontier := if 1 ∈ affected then frontierPush [] 1 0 else [] }
  affected.foldl (incSeedNode 1 (build_reverse_graph c1GraphNew)) st0

theorem c1GraphOld_nonneg : NonnegGraph c1GraphOld := by
  intro u v c h
  rw [edgeCost] at h
  simp only [c1GraphOld, smapGet] at h
  split_ifs at h <;>
    simp only [smapGet] at h <;>
    (try split_ifs at h) <;>
    (try (injection h with h2; rw [← h2])) <;>
    first
      | cases h
      | norm_num

theorem c1GraphNew_nonneg : NonnegGraph c1GraphNew := by
  intro u v c h
  rw [edgeCost] at h
  simp only [c1GraphNew, smapGet] at h
  split_ifs at h <;>
    simp only [smapGet] at h <;>
    (try split_ifs at h) <;>
    (try (injection h with h2; rw [← h2])) <;>
    first
      | cases h
      | norm_num

theorem c1Graphs_edge_description :
    ∀ a b, edgeCost c1GraphNew a b =
      if a = 4 ∧ b = 5 then some 0 else edgeCost c1GraphOld a b := by
  intro a b
  by_cases h4 : a = 4
  · subst h4
    by_cases h5 : b = 5
    · subst h5; rfl
    · rw [if_neg (fun hc => h5 hc.2), edgeCost, edgeCost]
      rw [show smapGet c1GraphNew 4 = some [(5, (0 : ℚ))] from rfl,
        show smapGet c1GraphOld 4 = some [(5, (10 : ℚ))] from rfl]
      simp only [smapGet]
      have h5' : ¬ (5 : RId) = b := fun hh => h5 hh.symm
      rw [if_neg h5', if_neg h5']
  · rw [if_neg (fun hc => h4 hc.1), edgeCost, edgeCost]
    have hsame : smapGet c1GraphNew a = smapGet c1GraphOld a := by
      simp only [c1GraphNew, c1GraphOld, smapGet]
      split_ifs <;>
        first
          | rfl
          | exact absurd (by assumption : (4 : RId) = a).symm h4
    rw [hsame]

theorem c1Tree_old_eval :
    compute_spf_tree 12 c1GraphOld 1 = c1Tree ∧
    spfDone c1GraphOld 1 (spfRun c1GraphOld 1 12 (spfInit 1)) = true := by
  constructor <;>
    norm_num [compute_spf_tree, spfDone, spfRun, spfStep, spfInit, spfStale,
      spfRelaxEdge, frontierPop, frontierPush, smapGet, smapInsert,
      natSetInsert, natSetErase, c1GraphOld, c1Tree, edge_cost_supported,
      is_stale, EPS, abs_le]

theorem c1Tree_new_eval :
    compute_spf_tree 12 c1GraphNew 1 = c1Tree ∧
    spfDone c1GraphNew 1 (spfRun c1GraphNew 1 12 (spfInit 1)) = true := by
  constructor <;>
    norm_num [compute_spf_tree, spfDone, spfRun, spfStep, spfInit, spfStale,
      spfRelaxEdge, frontierPop, frontierPush, smapGet, smapInsert,
      natSetInsert, natSetErase, c1GraphNew, c1Tree, edge_cost_supported,
      is_stale, EPS, abs_le]

theorem c1Inc_eval :
    compute_incremental_spf 12 c1GraphNew 1 c1Tree c1Updates =
      ⟨c1IncTree, [4, 5], false⟩ ∧
    incDone c1GraphNew 1 (incRun c1GraphNew 1 12 c1SeedState) = true := by
  constructor <;>
    norm_num [compute_incremental_spf, incremental_affected, build_children,
      collect_subtree, is_increase_or_removal, incRemoveAffected,
      build_reverse_graph, incSeedNode, incSeedScan, incRelaxEdge, incStale,
      incStep, incRun, incDone, c1SeedState, collectNodes, smapErase,
      frontierPop, frontierPush, smapGet, smapInsert, natSetInsert,
      natSetErase, c1GraphNew, c1Tree, c1IncTree, c1Updates, u32Max,
      edge_cost_supported, is_stale, EPS, abs_le]

/-- Counterexample to C1 as stated: on the ε-scale instance
`c1GraphOld → c1GraphNew` (a single cost decrease on edge `4→5`,
described exactly by `c1Updates`, both graphs non-negative, all three
loops terminated, and the full-recompute fallback not taken), the
incremental tree reports node 5 at distance 0 via first hop 4 while
the full recompute on the same updated graph reports distance
`1.2 · 10⁻⁹` via first hop 2: the ε-tolerant tie-breaking makes the
result depend on relaxation order, which differs between the seeded
incremental run and the full run. -/
theorem C1_counterexample :
    NonnegGraph c1GraphOld ∧ NonnegGraph c1GraphNew ∧
    (∀ a b, edgeCost c1GraphNew a b =
      if a = 4 ∧ b = 5 then some 0 else edgeCost c1GraphOld a b) ∧
    edgeCost c1GraphOld 4 5 = some 10 ∧
    spfDone c1GraphOld 1 (spfRun c1GraphOld 1 12 (spfInit 1)) = true ∧
    spfDone c1GraphNew 1 (spfRun c1GraphNew 1 12 (spfInit 1)) = true ∧
    incDone c1GraphNew 1 (incRun c1GraphNew 1 12 c1SeedState) = true ∧
    (compute_incremental_spf 12 c1GraphNew 1
        (compute_spf_tree 12 c1GraphOld 1)
        c1Updates).used_full_recompute = false ∧
    ¬ ClaimC1At 12 c1GraphOld c1GraphNew 1 c1Updates := by
  refine ⟨c1GraphOld_nonneg, c1GraphNew_nonneg, c1Graphs_edge_description,
    rfl, c1Tree_old_eval.2, c1Tree_new_eval.2, c1Inc_eval.2, ?_, ?_⟩
  · rw [c1Tree_old_eval.1, c1Inc_eval.1]
  · intro h
    rw [ClaimC1At, c1Tree_old_eval.1, c1Inc_eval.1, c1Tree_new_eval.1] at h
    have hfh := congrArg SpfTreeResult.first_hop h
    rw [show (⟨c1IncTree, [4, 5], false⟩ :
      IncrementalSpfResult).tree = c1IncTree from rfl] at hfh
    simp only [c1IncTree, c1Tree] at hfh
    exact absurd hfh (by decide)

/-- C1 (amended): the incremental result coincides with the full
recompute whenever the full-recompute fallback triggers — for every
non-empty update list whose affected set reaches the
`2·|affected| ≥ |nodes|` threshold, `compute_incremental_spf` returns
exactly `compute_spf_tree` on the updated graph, the computed affected
set, and the `used_full_recompute` flag.  (By `C1_counterexample` the
equality can fail when the fallback is not taken, so the claim's
"whether or not the fallback was taken" is too strong.) -/
theorem C1_incremental_fallback (fuel : Nat) (g : Graph) (src : RId)
    (previous : SpfTreeResult) (updates : List EdgeUpdate)
    (hne : updates ≠ [])
    (hcond : max (collectNodes g).length 1 ≤
      2 * (incremental_affected fuel previous updates).length) :
    compute_incremental_spf fuel g src previous updates =
      { tree := compute_spf_tree fuel g src
        affected_nodes := incremental_affected fuel previous updates
        used_full_recompute := true } := by
  rw [compute_incremental_spf, if_neg hne]
  simp only [if_pos hcond]

/-- Fallback-witness update list: a brand-new edge `1→2`. -/
def c1WUpdates : List EdgeUpdate := [⟨1, 2, none, some 1⟩]

/-- Fallback-witness graph: the single edge `1→2`. -/
def c1WGraph : Graph := [(1, [(2, 1)])]

theorem C1_incremental_fallback_witness :
    c1WUpdates ≠ [] ∧
    max (collectNodes c1WGraph).length 1 ≤
      2 * (incremental_affected 5 ⟨[], [], []⟩ c1WUpdates).length ∧
    compute_incremental_spf 5 c1WGraph 1 ⟨[], [], []⟩ c1WUpdates =
      { tree := compute_spf_tree 5 c1WGraph 1
        affected_nodes := incremental_affected 5 ⟨[], [], []⟩ c1WUpdates
        used_full_recompute := true } := by
  refine ⟨fun h => List.noConfusion h, of_decide_eq_true (Eq.refl true), ?_⟩
  exact C1_incremental_fallback 5 c1WGraph 1 ⟨[], [], []⟩ c1WUpdates
    (fun h => List.noConfusion h) (of_decide_eq_true (Eq.refl true))

/-! ## Claim C5: `compute_bellman_ford` from `bellman_ford.rs`

The graph type and the walk vocabulary are shared with the Dijkstra
section.  `dist` is `BTreeMap<u32, f64>` initialised to `INFINITY`
everywhere and `0.0` at the source; since only finite entries are ever
read (every read is guarded by `is_finite`), infinite entries are
modelled as absent keys.  The BFS over the seed set terminates in the
source through its visited set; the embedding bounds it with a fuel
parameter and the theorems require the observed exit condition (empty
queue). -/

/-- `BellmanFordResult` from `route_compute/types.rs`. -/
structure BellmanFordResult where
  dist : SMap ℚ
  predecessor : SMap RId
  negative_cycle_nodes : List Nat
deriving DecidableEq, Repr

/-- The inner relaxation loop of one pass (lines 31-42), for the
neighbors of `u` whose `base` distance was read at loop entry. -/
def bfInner (u : RId) (base : ℚ) (st : SMap ℚ × SMap RId × Bool)
    (nbrs : List (RId × ℚ)) : SMap ℚ × SMap RId × Bool :=
  nbrs.foldl
    (fun t q =>
      let candidate := base + q.2
      match smapGet t.1 q.1 with
      | none => (smapInsert t.1 q.1 candidate, smapInsert t.2.1 q.1 u, true)
      | some current =>
        if candidate < current then
          (smapInsert t.1 q.1 candidate, smapInsert t.2.1 q.1 u, true)
        else t)
    st

/-- One graph entry of a pass (lines 26-43): skip when the base
distance is infinite. -/
def bfOuter (st : SMap ℚ × SMap RId × Bool) (p : RId × List (RId × ℚ)) :
    SMap ℚ × SMap RId × Bool :=
  match smapGet st.1 p.1 with
  | none => st
  | some base => bfInner p.1 base st p.2

/-- One full relaxation pass (lines 25-43), with the `changed` flag
reset on entry. -/
def bfPass (g : Graph) (dist : SMap ℚ) (pred : SMap RId) :
    SMap ℚ × SMap RId × Bool :=
  g.foldl bfOuter (dist, pred, false)

/-- The round loop (lines 24-47): at most the given number of passes,
stopping early after an unchanged pass. -/
def bfRounds (g : Graph) : Nat → SMap ℚ × SMap RId → SMap ℚ × SMap RId
  | 0, st => st
  | m + 1, st =>
    let r := bfPass g st.1 st.2
    if r.2.2 then bfRounds g m (r.1, r.2.1) else (r.1, r.2.1)

/-- The relaxability test of the seed pass: `candidate < current`,
with an infinite `current` always relaxable. -/
def seedRelax (dist : SMap ℚ) (candidate : ℚ) (v : RId) : Bool :=
  match smapGet dist v with
  | none => true
  | some current => decide (candidate < current)

/-- The inner loop of the seed pass (lines 55-65). -/
def bfSeedInner (u : RId) (base : ℚ) (dist : SMap ℚ) (acc : List Nat)
    (nbrs : List (RId × ℚ)) : List Nat :=
  nbrs.foldl
    (fun a q =>
      if seedRelax dist (base + q.2) q.1 then
        natSetInsert (natSetInsert a u) q.1
      else a)
    acc

/-- The seed pass (lines 49-66): both endpoints of every edge still
relaxable under the final distances. -/
def bfSeeds (g : Graph) (dist : SMap ℚ) : List Nat :=
  g.foldl
    (fun acc p =>
      match smapGet dist p.1 with
      | none => acc
      | some base => bfSeedInner p.1 base dist acc p.2)
    []

/-- One iteration of the forward-closure BFS (lines 71-80). -/
def bfsStep (g : Graph) (st : List Nat × List RId) :
    Option (List Nat × List RId) :=
  match st.2 with
  | [] => none
  | node :: rest =>
    if node ∈ st.1 then some (st.1, rest)
    else
      some (natSetInsert st.1 node,
        rest ++ (match smapGet g node with
          | none => []
          | some nbrs => nbrs.map Prod.fst))

/-- Run the BFS for at most `fuel` iterations. -/
def bfsRun (g : Graph) : Nat → List Nat × List RId → List Nat × List RId
  | 0, st => st
  | fuel + 1, st =>
    match bfsStep g st with
    | none => st
    | some st2 => bfsRun g fuel st2

/-- The BFS closure `compute_bellman_ford` computes: visited set and
remaining queue after `fuel` iterations from the seed queue. -/
def bellman_ford_closure (fuel : Nat) (g : Graph) (src : RId) :
    List Nat × List RId :=
  bfsRun g fuel
    ([], bfSeeds g
      (bfRounds g ((natSetInsert (collectNodes g) src).length - 1)
        ([(src, 0)], [])).1)

/-- `compute_bellman_ford` from `bellman_ford.rs`, with the BFS depth
bounded by `fuel`; at any `fuel` at which the BFS has drained its
queue this is the function's value. -/
def compute_bellman_ford (fuel : Nat) (g : Graph) (src : RId) :
    BellmanFordResult :=
  let r := bfRounds g ((natSetInsert (collectNodes g) src).length - 1)
    ([(src, 0)], [])
  { dist := r.1
    predecessor := r.2
    negative_cycle_nodes := (bellman_ford_closure fuel g src).1 }

/-- Reachability along graph edges. -/
def Reachable (g : Graph) (a b : RId) : Prop := ∃ l, IsWalkFrom g a b l

/-- `x` lies on a negative cycle: a closed walk at `x` with at least
one edge and negative total cost. -/
def NegCycle (g : Graph) (x : RId) : Prop :=
  ∃ l, IsWalkFrom g x x l ∧ 2 ≤ l.length ∧ walkCost g l < 0

/-- C5 as stated, at one input: marked iff reachable from some
negative cycle. -/
def ClaimC5At (fuel : Nat) (g : Graph) (s : RId) : Prop :=
  ∀ y, y ∈ (compute_bellman_ford fuel g s).negative_cycle_nodes ↔
    ∃ x, NegCycle g x ∧ Reachable g x y

/-- The graph refuting C5 as stated: a negative cycle `2 → 3 → 2`
disconnected from the source 1. -/
def c5Graph : Graph := [(1, []), (2, [(3, -1)]), (3, [(2, -1)])]

/-- Counterexample to C5 as stated: on `c5Graph` with source 1 the
negative cycle `2 → 3 → 2` exists and reaches node 2, yet
`negative_cycle_nodes` is empty (the BFS queue drained, so this is the
function's exit value): the final relaxation pass only seeds edges
whose tail already has a finite distance, and nothing disconnected
from the source ever becomes finite. -/
theorem C5_counterexample :
    (bellman_ford_closure 1 c5Graph 1).2 = [] ∧
    ¬ ClaimC5At 1 c5Graph 1 := by
  refine ⟨rfl, ?_⟩
  intro h
  have hcyc : NegCycle c5Graph 2 := by
    refine ⟨[2, 3, 2], ⟨rfl, rfl, ?_⟩, ?_, ?_⟩
    · rw [WalkChain]
      refine List.chain'_cons.mpr ⟨?_, List.chain'_cons.mpr ⟨?_, ?_⟩⟩
      · rw [show edgeCost c5Graph 2 3 = some (-1) from rfl]
        exact Option.noConfusion
      · rw [show edgeCost c5Graph 3 2 = some (-1) from rfl]
        exact Option.noConfusion
      · exact List.chain'_singleton 2
    · norm_num
    · norm_num [walkCost, edgeCost, c5Graph, smapGet]
  have h2 := (h 2).mpr ⟨2, hcyc, [2], rfl, rfl, List.chain'_singleton 2⟩
  rw [show (compute_bellman_ford 1 c5Graph 1).negative_cycle_nodes = []
    from rfl] at h2
  exact absurd h2 (List.not_mem_nil 2)

theorem C2_spf_dist_walks_witness :
    AdjWF c2Graph ∧
    ((∃ l, IsWalkFrom c2Graph 1 2 l ∧
        walkCost c2Graph l = 1 / 2000000000) ∧
      ∀ d0, IsShortestDist c2Graph 1 2 d0 → d0 ≤ 1 / 2000000000) := by
  refine ⟨c2Graph_adjWF, ?_⟩
  refine (C2_spf_dist_walks 10 c2Graph 1 c2Graph_adjWF).1 2
    (1 / 2000000000) ?_
  rw [c2Graph_dist.1]
  rfl

/-! ### Walk toolkit for the C5 development -/

theorem smapGet_mem {α : Type} (m : SMap α) (k : RId) (v : α)
    (h : smapGet m k = some v) : (k, v) ∈ m := by
  induction m with
  | nil => cases h
  | cons e rest ih =>
    obtain ⟨k2, v2⟩ := e
    rw [smapGet] at h
    split_ifs at h with h1
    · refine List.mem_cons.mpr (Or.inl ?_)
      rw [← h1, ← Option.some.inj h]
    · exact List.mem_cons_of_mem _ (ih h)

/-- Both levels of map lookup agree with membership: the graph is an
embedded pair of `BTreeMap`s. -/
def GraphWF (g : Graph) : Prop :=
  (∀ e ∈ g, smapGet g e.1 = some e.2) ∧
  ∀ e ∈ g, ∀ p ∈ e.2, smapGet e.2 p.1 = some p.2

theorem edgeCost_mem (g : Graph) (a b : RId) (w : ℚ)
    (h : edgeCost g a b = some w) :
    ∃ adj, smapGet g a = some adj ∧ (b, w) ∈ adj := by
  rw [edgeCost] at h
  cases hget : smapGet g a with
  | none => rw [hget] at h; cases h
  | some adj =>
    rw [hget] at h
    exact ⟨adj, rfl, smapGet_mem adj b w h⟩

theorem GraphWF.edge_of_mem (g : Graph) (hg : GraphWF g)
    (u v : RId) (adj : SMap ℚ) (w : ℚ)
    (hu : (u, adj) ∈ g) (hv : (v, w) ∈ adj) : edgeCost g u v = some w := by
  rw [edgeCost, hg.1 (u, adj) hu]
  exact hg.2 (u, adj) hu (v, w) hv

theorem Reachable.of_self (g : Graph) (a : RId) : Reachable g a a :=
  ⟨[a], rfl, rfl, List.chain'_singleton a⟩

theorem getLast?_append_right {α : Type} (l1 l2 : List α) (h : l2 ≠ []) :
    (l1 ++ l2).getLast? = l2.getLast? := by
  induction l1 with
  | nil => rfl
  | cons a t ih =>
    rw [List.cons_append]
    cases hc : t ++ l2 with
    | nil => exact absurd (List.append_eq_nil.mp hc).2 h
    | cons b u => rw [List.getLast?_cons_cons, ← hc, ih]

theorem head?_append_left {α : Type} (l1 l2 : List α) (h : l1 ≠ []) :
    (l1 ++ l2).head? = l1.head? := by
  cases l1 with
  | nil => exact absurd rfl h
  | cons a t => rfl

theorem walkCost_append_mid (g : Graph) (x : RId) :
    ∀ (l1 l2 : List RId),
      walkCost g (l1 ++ x :: l2) =
        walkCost g (l1 ++ [x]) + walkCost g (x :: l2) := by
  intro l1
  induction l1 with
  | nil =>
    intro l2
    simp only [List.nil_append]
    rw [show walkCost g [x] = 0 from rfl]
    ring
  | cons a t ih =>
    intro l2
    cases t with
    | nil =>
      simp only [List.cons_append, List.nil_append]
      rw [walkCost, walkCost, show walkCost g [x] = 0 from rfl]
      ring
    | cons b t2 =>
      simp only [List.cons_append] at ih ⊢
      rw [walkCost, walkCost, ih l2]
      ring

theorem walk_split (g : Graph) (s y x : RId) (l1 l2 : List RId)
    (h : IsWalkFrom g s y (l1 ++ x :: l2)) :
    IsWalkFrom g s x (l1 ++ [x]) ∧ IsWalkFrom g x y (x :: l2) := by
  obtain ⟨hhead, hlast, hchain⟩ := h
  rw [WalkChain, show l1 ++ x :: l2 = (l1 ++ [x]) ++ l2 by simp] at hchain
  obtain ⟨hc1, hc2, hlink⟩ := List.chain'_append.mp hchain
  refine ⟨⟨?_, List.getLast?_concat l1, hc1⟩, ⟨rfl, ?_, ?_⟩⟩
  · cases l1 with
    | nil => exact hhead
    | cons a t => exact hhead
  · rw [getLast?_append_right l1 (x :: l2) (List.cons_ne_nil x l2)] at hlast
    exact hlast
  · rw [WalkChain]
    cases l2 with
    | nil => exact List.chain'_singleton x
    | cons b t =>
      refine List.chain'_cons.mpr ⟨?_, hc2⟩
      exact hlink x (List.getLast?_concat l1) b rfl

theorem walk_join (g : Graph) (a b c : RId) (l1 l2 : List RId)
    (h1 : IsWalkFrom g a b l1) (h2 : IsWalkFrom g b c l2) :
    IsWalkFrom g a c (l1 ++ l2.tail) := by
  obtain ⟨hh1, hl1, hc1⟩ := h1
  obtain ⟨hh2, hl2, hc2⟩ := h2
  cases l2 with
  | nil => cases hh2
  | cons b2 t =>
    have hb : b2 = b := Option.some.inj hh2
    subst hb
    cases t with
    | nil =>
      have hcb : c = b2 := by
        rw [show (([b2] : List RId)).getLast? = some b2 from rfl] at hl2
        exact (Option.some.inj hl2).symm
      subst hcb
      simpa using ⟨hh1, hl1, hc1⟩
    | cons z t2 =>
      rw [show (b2 :: z :: t2).tail = z :: t2 from rfl]
      refine ⟨?_, ?_, ?_⟩
      · have hl1ne : l1 ≠ [] := by
          intro hnil
          rw [hnil] at hh1
          exact Option.noConfusion hh1
        rw [head?_append_left l1 (z :: t2) hl1ne]
        exact hh1
      · rw [getLast?_append_right l1 (z :: t2) (List.cons_ne_nil z t2)]
        rw [List.getLast?_cons_cons] at hl2
        exact hl2
      · rw [WalkChain]
        rw [List.chain'_append]
        obtain ⟨hedge, hcz⟩ := List.chain'_cons.mp hc2
        refine ⟨hc1, hcz, ?_⟩
        intro p hp q hq
        rw [hl1] at hp
        simp only [Option.mem_def, Option.some.injEq] at hp
        simp only [List.head?_cons, Option.mem_def, Option.some.injEq] at hq
        subst hp; subst hq
        exact hedge

theorem Reachable.trans (g : Graph) (a b c : RId)
    (h1 : Reachable g a b) (h2 : Reachable g b c) : Reachable g a c := by
  obtain ⟨l1, hw1⟩ := h1
  obtain ⟨l2, hw2⟩ := h2
  exact ⟨l1 ++ l2.tail, walk_join g a b c l1 l2 hw1 hw2⟩

theorem walk_tail (g : Graph) (x z y : RId) (t : List RId)
    (h : IsWalkFrom g x y (x :: z :: t)) : IsWalkFrom g z y (z :: t) := by
  obtain ⟨_, hlast, hchain⟩ := h
  exact ⟨rfl, by rwa [List.getLast?_cons_cons] at hlast,
    (List.chain'_cons.mp hchain).2⟩

theorem not_nodup_split {l : List RId} (h : ¬ l.Nodup) :
    ∃ l1 x l2 l3, l = l1 ++ x :: l2 ++ x :: l3 := by
  induction l with
  | nil => exact absurd List.nodup_nil h
  | cons a t ih =>
    by_cases ha : a ∈ t
    · obtain ⟨l2, l3, ht⟩ := List.append_of_mem ha
      exact ⟨[], a, l2, l3, by rw [ht]; rfl⟩
    · have : ¬ t.Nodup := fun hn => h (List.nodup_cons.mpr ⟨ha, hn⟩)
      obtain ⟨l1, x, l2, l3, ht⟩ := ih this
      exact ⟨a :: l1, x, l2, l3, by rw [ht]; rfl⟩

theorem natSetInsert_sorted (l : List Nat) (n : Nat)
    (h : l.Sorted (· < ·)) : (natSetInsert l n).Sorted (· < ·) := by
  induction l with
  | nil => simp [natSetInsert]
  | cons m rest ih =>
    rw [natSetInsert]
    obtain ⟨hm, hrest⟩ := List.sorted_cons.mp h
    split_ifs with h1 h2
    · refine List.sorted_cons.mpr ⟨?_, h⟩
      intro b hb
      rcases List.mem_cons.mp hb with rfl | hb2
      · exact h1
      · exact h1.trans (hm b hb2)
    · exact h
    · refine List.sorted_cons.mpr ⟨?_, ih hrest⟩
      intro b hb
      rcases (mem_natSetInsert rest n b).mp hb with rfl | hb2
      · omega
      · exact hm b hb2

theorem natSetFold_sorted (nbrs : List (RId × ℚ)) :
    ∀ acc : List Nat, acc.Sorted (· < ·) →
      (nbrs.foldl (fun a q => natSetInsert a q.1) acc).Sorted (· < ·) := by
  induction nbrs with
  | nil => intro acc h; exact h
  | cons q rest ih =>
    intro acc h
    rw [List.foldl_cons]
    exact ih _ (natSetInsert_sorted acc q.1 h)

theorem collectNodes_sorted (g : Graph) :
    (collectNodes g).Sorted (· < ·) := by
  rw [collectNodes]
  have h : ∀ (l : List (RId × SMap ℚ)) (acc : List Nat),
      acc.Sorted (· < ·) →
      (l.foldl (fun acc p => p.2.foldl (fun a q => natSetInsert a q.1)
        (natSetInsert acc p.1)) acc).Sorted (· < ·) := by
    intro l
    induction l with
    | nil => intro acc h; exact h
    | cons e rest ih =>
      intro acc h
      rw [List.foldl_cons]
      exact ih _ (natSetFold_sorted e.2 _ (natSetInsert_sorted acc e.1 h))
  exact h g [] List.sorted_nil

theorem natSetFold_mem_mono (nbrs : List (RId × ℚ)) :
    ∀ (acc : List Nat) (x : Nat), x ∈ acc →
      x ∈ nbrs.foldl (fun a q => natSetInsert a q.1) acc := by
  induction nbrs with
  | nil => intro acc x h; exact h
  | cons q rest ih =>
    intro acc x h
    rw [List.foldl_cons]
    exact ih _ x ((mem_natSetInsert acc q.1 x).mpr (Or.inr h))

theorem natSetFold_mem_of (nbrs : List (RId × ℚ)) :
    ∀ (acc : List Nat) (q : RId × ℚ), q ∈ nbrs →
      q.1 ∈ nbrs.foldl (fun a p => natSetInsert a p.1) acc := by
  induction nbrs with
  | nil => intro acc q h; cases h
  | cons q0 rest ih =>
    intro acc q h
    rw [List.foldl_cons]
    rcases List.mem_cons.mp h with rfl | h2
    · exact natSetFold_mem_mono rest _ q.1
        ((mem_natSetInsert acc q.1 q.1).mpr (Or.inl rfl))
    · exact ih _ q h2

theorem collectNodes_mem_mono :
    ∀ (l : List (RId × SMap ℚ)) (acc : List Nat) (x : Nat), x ∈ acc →
      x ∈ l.foldl (fun acc p => p.2.foldl (fun a q => natSetInsert a q.1)
        (natSetInsert acc p.1)) acc := by
  intro l
  induction l with
  | nil => intro acc x h; exact h
  | cons e rest ih =>
    intro acc x h
    rw [List.foldl_cons]
    exact ih _ x (natSetFold_mem_mono e.2 _ x
      ((mem_natSetInsert acc e.1 x).mpr (Or.inr h)))

theorem mem_collectNodes_key (g : Graph) (u : RId) (adj : SMap ℚ)
    (h : (u, adj) ∈ g) : u ∈ collectNodes g := by
  rw [collectNodes]
  have haux : ∀ (l : List (RId × SMap ℚ)) (acc : List Nat),
      (u, adj) ∈ l →
      u ∈ l.foldl (fun acc p => p.2.foldl (fun a q => natSetInsert a q.1)
        (natSetInsert acc p.1)) acc := by
    intro l
    induction l with
    | nil => intro acc h2; cases h2
    | cons e rest ih =>
      intro acc h2
      rw [List.foldl_cons]
      rcases List.mem_cons.mp h2 with heq | h3
      · rw [← heq]
        exact collectNodes_mem_mono rest _ u (natSetFold_mem_mono adj _ u
          ((mem_natSetInsert acc u u).mpr (Or.inl rfl)))
      · exact ih _ h3
  exact haux g [] h

theorem mem_collectNodes_nbr (g : Graph) (u : RId) (adj : SMap ℚ)
    (v : RId) (w : ℚ) (h : (u, adj) ∈ g) (hv : (v, w) ∈ adj) :
    v ∈ collectNodes g := by
  rw [collectNodes]
  have haux : ∀ (l : List (RId × SMap ℚ)) (acc : List Nat),
      (u, adj) ∈ l →
      v ∈ l.foldl (fun acc p => p.2.foldl (fun a q => natSetInsert a q.1)
        (natSetInsert acc p.1)) acc := by
    intro l
    induction l with
    | nil => intro acc h2; cases h2
    | cons e rest ih =>
      intro acc h2
      rw [List.foldl_cons]
      rcases List.mem_cons.mp h2 with heq | h3
      · rw [← heq]
        exact collectNodes_mem_mono rest _ v
          (natSetFold_mem_of adj _ (v, w) hv)
      · exact ih _ h3
  exact haux g [] h

theorem edge_mem_nodes (g : Graph) (s a b : RId) (w : ℚ)
    (h : edgeCost g a b = some w) :
    a ∈ natSetInsert (collectNodes g) s ∧
    b ∈ natSetInsert (collectNodes g) s := by
  obtain ⟨adj, hget, hmem⟩ := edgeCost_mem g a b w h
  have hga := smapGet_mem g a adj hget
  exact ⟨(mem_natSetInsert _ s a).mpr
      (Or.inr (mem_collectNodes_key g a adj hga)),
    (mem_natSetInsert _ s b).mpr
      (Or.inr (mem_collectNodes_nbr g a adj b w hga hmem))⟩

theorem walk_tail_targets (g : Graph) :
    ∀ (l : List RId), WalkChain g l →
      ∀ x ∈ l.tail, ∃ p w, edgeCost g p x = some w := by
  intro l
  induction l with
  | nil => intro _ x hx; cases hx
  | cons a t ih =>
    intro hchain x hx
    cases t with
    | nil => cases hx
    | cons b t2 =>
      obtain ⟨hedge, hrest⟩ := List.chain'_cons.mp hchain
      rcases List.mem_cons.mp hx with rfl | hx2
      · obtain ⟨w, hw⟩ := Option.ne_none_iff_exists.mp hedge
        exact ⟨a, w, hw.symm⟩
      · exact ih hrest x hx2

theorem walk_nodes_mem (g : Graph) (s y : RId) (l : List RId)
    (h : IsWalkFrom g s y l) :
    ∀ x ∈ l, x ∈ natSetInsert (collectNodes g) s := by
  obtain ⟨hhead, _, hchain⟩ := h
  intro x hx
  cases l with
  | nil => cases hx
  | cons a t =>
    have ha : a = s := Option.some.inj hhead
    rcases List.mem_cons.mp hx with rfl | hx2
    · exact (mem_natSetInsert _ s x).mpr (Or.inl ha)
    · obtain ⟨p, w, hw⟩ := walk_tail_targets g (a :: t) hchain x hx2
      exact (edge_mem_nodes g s p x w hw).2

theorem nodesU_nodup (g : Graph) (s : RId) :
    (natSetInsert (collectNodes g) s).Nodup :=
  (natSetInsert_sorted _ _ (collectNodes_sorted g)).nodup

theorem nodup_subset_length {l U : List Nat} (hn : l.Nodup)
    (hsub : ∀ x ∈ l, x ∈ U) : l.length ≤ U.length := by
  calc l.length = l.toFinset.card := (List.toFinset_card_of_nodup hn).symm
    _ ≤ U.toFinset.card := Finset.card_le_card
        (fun x hx => List.mem_toFinset.mpr (hsub x (List.mem_toFinset.mp hx)))
    _ ≤ U.length := List.toFinset_card_le U

theorem nodup_subset_full {l U : List Nat} (hn : l.Nodup) (hU : U.Nodup)
    (hsub : ∀ x ∈ l, x ∈ U) (hlen : U.length ≤ l.length) :
    ∀ z ∈ U, z ∈ l := by
  have hsubF : l.toFinset ⊆ U.toFinset :=
    fun x hx => List.mem_toFinset.mpr (hsub x (List.mem_toFinset.mp hx))
  have hcard : U.toFinset.card ≤ l.toFinset.card := by
    rw [List.toFinset_card_of_nodup hn, List.toFinset_card_of_nodup hU]
    exact hlen
  have := Finset.eq_of_subset_of_card_le hsubF hcard
  intro z hz
  exact List.mem_toFinset.mp (this ▸ List.mem_toFinset.mpr hz)

/-! ### Pass lemmas for the C5 development -/

/-- `d2` improves-or-equals `d1` pointwise (`none` is `∞`). -/
def dle (d2 d1 : SMap ℚ) : Prop :=
  ∀ v q, smapGet d1 v = some q → ∃ q2, smapGet d2 v = some q2 ∧ q2 ≤ q

theorem dle_refl (d : SMap ℚ) : dle d d :=
  fun _ q h => ⟨q, h, le_refl q⟩

theorem dle_trans (d3 d2 d1 : SMap ℚ) (h32 : dle d3 d2) (h21 : dle d2 d1) :
    dle d3 d1 := by
  intro v q h
  obtain ⟨q2, h2, hle2⟩ := h21 v q h
  obtain ⟨q3, h3, hle3⟩ := h32 v q2 h2
  exact ⟨q3, h3, hle3.trans hle2⟩

theorem dle_insert_of_none (d : SMap ℚ) (k : RId) (c : ℚ)
    (h : smapGet d k = none) : dle (smapInsert d k c) d := by
  intro v q hv
  by_cases hkv : k = v
  · rw [← hkv] at hv
    rw [h] at hv
    cases hv
  · exact ⟨q, by rw [smapGet_insert_ne d k v c hkv]; exact hv, le_refl q⟩

theorem dle_insert_le (d : SMap ℚ) (k : RId) (c cur : ℚ)
    (h : smapGet d k = some cur) (hle : c ≤ cur) :
    dle (smapInsert d k c) d := by
  intro v q hv
  by_cases hkv : k = v
  · subst hkv
    rw [h] at hv
    exact ⟨c, smapGet_insert_self d k c, hle.trans (Option.some.inj hv).le⟩
  · exact ⟨q, by rw [smapGet_insert_ne d k v c hkv]; exact hv, le_refl q⟩

theorem bfInner_dle (u : RId) (base : ℚ) :
    ∀ (nbrs : List (RId × ℚ)) (st : SMap ℚ × SMap RId × Bool),
      dle (bfInner u base st nbrs).1 st.1 := by
  intro nbrs
  induction nbrs with
  | nil => intro st; exact dle_refl st.1
  | cons q rest ih =>
    intro st
    rw [bfInner, List.foldl_cons, ← bfInner]
    refine dle_trans _ _ _ (ih _) ?_
    cases hget : smapGet st.1 q.1 with
    | none =>
      simp only [hget]
      exact dle_insert_of_none st.1 q.1 (base + q.2) hget
    | some cur =>
      simp only [hget]
      split_ifs with hlt
      · exact dle_insert_le st.1 q.1 (base + q.2) cur hget hlt.le
      · exact dle_refl st.1

theorem bfInner_changed (u : RId) (base : ℚ) :
    ∀ (nbrs : List (RId × ℚ)) (st : SMap ℚ × SMap RId × Bool),
      st.2.2 = true → (bfInner u base st nbrs).2.2 = true := by
  intro nbrs
  induction nbrs with
  | nil => intro st h; exact h
  | cons q rest ih =>
    intro st h
    rw [bfInner, List.foldl_cons, ← bfInner]
    refine ih _ ?_
    cases hget : smapGet st.1 q.1 with
    | none => rfl
    | some cur =>
      simp only [hget]
      split_ifs with hlt
      · rfl
      · exact h

theorem bfInner_unchanged (u : RId) (base : ℚ) :
    ∀ (nbrs : List (RId × ℚ)) (st : SMap ℚ × SMap RId × Bool),
      (bfInner u base st nbrs).2.2 = false →
      bfInner u base st nbrs = st ∧
      ∀ q ∈ nbrs, ∃ cur, smapGet st.1 q.1 = some cur ∧ cur ≤ base + q.2 := by
  intro nbrs
  induction nbrs with
  | nil =>
    intro st _
    exact ⟨rfl, fun q hq => absurd hq (List.not_mem_nil q)⟩
  | cons q rest ih =>
    intro st h
    rw [bfInner, List.foldl_cons, ← bfInner] at h ⊢
    cases hget : smapGet st.1 q.1 with
    | none =>
      simp only [hget] at h
      rw [bfInner_changed u base rest _ rfl] at h
      cases h
    | some cur =>
      simp only [hget] at h ⊢
      split_ifs at h ⊢ with hlt
      · rw [bfInner_changed u base rest _ rfl] at h
        cases h
      · obtain ⟨hst, hrest⟩ := ih st h
        refine ⟨hst, ?_⟩
        intro q2 hq2
        rcases List.mem_cons.mp hq2 with rfl | h3
        · exact ⟨cur, hget, le_of_not_lt hlt⟩
        · exact hrest q2 h3

theorem bfOuter_dle (st : SMap ℚ × SMap RId × Bool)
    (e : RId × List (RId × ℚ)) : dle (bfOuter st e).1 st.1 := by
  rw [bfOuter]
  cases hget : smapGet st.1 e.1 with
  | none => exact dle_refl st.1
  | some base => exact bfInner_dle e.1 base e.2 st

theorem bfOuter_changed (st : SMap ℚ × SMap RId × Bool)
    (e : RId × List (RId × ℚ)) (h : st.2.2 = true) :
    (bfOuter st e).2.2 = true := by
  rw [bfOuter]
  cases hget : smapGet st.1 e.1 with
  | none => exact h
  | some base => exact bfInner_changed e.1 base e.2 st h

theorem bfOuter_unchanged (st : SMap ℚ × SMap RId × Bool)
    (e : RId × List (RId × ℚ)) (h : (bfOuter st e).2.2 = false) :
    bfOuter st e = st ∧
    ∀ base, smapGet st.1 e.1 = some base →
      ∀ q ∈ e.2, ∃ cur, smapGet st.1 q.1 = some cur ∧ cur ≤ base + q.2 := by
  rw [bfOuter] at h ⊢
  cases hget : smapGet st.1 e.1 with
  | none =>
    refine ⟨rfl, ?_⟩
    intro base hbase
    cases hbase
  | some base0 =>
    rw [hget] at h
    obtain ⟨hst, hq⟩ := bfInner_unchanged e.1 base0 e.2 st h
    refine ⟨hst, ?_⟩
    intro base hbase
    rw [← Option.some.inj hbase]
    exact hq

theorem bfFold_dle :
    ∀ (l : List (RId × List (RId × ℚ))) (st : SMap ℚ × SMap RId × Bool),
      dle (l.foldl bfOuter st).1 st.1 := by
  intro l
  induction l with
  | nil => intro st; exact dle_refl st.1
  | cons e rest ih =>
    intro st
    rw [List.foldl_cons]
    exact dle_trans _ _ _ (ih _) (bfOuter_dle st e)

theorem bfFold_changed :
    ∀ (l : List (RId × List (RId × ℚ))) (st : SMap ℚ × SMap RId × Bool),
      st.2.2 = true → (l.foldl bfOuter st).2.2 = true := by
  intro l
  induction l with
  | nil => intro st h; exact h
  | cons e rest ih =>
    intro st h
    rw [List.foldl_cons]
    exact ih _ (bfOuter_changed st e h)

theorem bfPass_dle (g : Graph) (d : SMap ℚ) (p : SMap RId) :
    dle (bfPass g d p).1 d :=
  bfFold_dle g (d, p, false)

theorem bfInner_bound (u : RId) (base : ℚ) (v : RId) (w : ℚ) :
    ∀ (nbrs : List (RId × ℚ)) (st : SMap ℚ × SMap RId × Bool),
      (v, w) ∈ nbrs →
      ∃ q, smapGet (bfInner u base st nbrs).1 v = some q ∧ q ≤ base + w := by
  intro nbrs
  induction nbrs with
  | nil => intro st h; cases h
  | cons q0 rest ih =>
    intro st h
    rw [bfInner, List.foldl_cons, ← bfInner]
    rcases List.mem_cons.mp h with heq | h2
    · subst heq
      cases hget : smapGet st.1 v with
      | none =>
        simp only [hget]
        obtain ⟨q2, hq2, hle2⟩ := bfInner_dle u base rest
          (smapInsert st.1 v (base + w), smapInsert st.2.1 v u, true)
          v (base + w) (smapGet_insert_self st.1 v (base + w))
        exact ⟨q2, hq2, hle2⟩
      | some cur =>
        simp only [hget]
        split_ifs with hlt
        · obtain ⟨q2, hq2, hle2⟩ := bfInner_dle u base rest
            (smapInsert st.1 v (base + w), smapInsert st.2.1 v u, true)
            v (base + w) (smapGet_insert_self st.1 v (base + w))
          exact ⟨q2, hq2, hle2⟩
        · obtain ⟨q2, hq2, hle2⟩ := bfInner_dle u base rest st v cur hget
          exact ⟨q2, hq2, hle2.trans (le_of_not_lt hlt)⟩
    · exact ih _ h2

theorem bfPass_bound (g : Graph) (d : SMap ℚ) (p : SMap RId)
    (u : RId) (nbrs : List (RId × ℚ)) (hmem : (u, nbrs) ∈ g)
    (base : ℚ) (hbase : smapGet d u = some base)
    (v : RId) (w : ℚ) (hv : (v, w) ∈ nbrs) :
    ∃ q, smapGet (bfPass g d p).1 v = some q ∧ q ≤ base + w := by
  have haux : ∀ (l : List (RId × List (RId × ℚ)))
      (st : SMap ℚ × SMap RId × Bool), (u, nbrs) ∈ l → dle st.1 d →
      ∃ q, smapGet (l.foldl bfOuter st).1 v = some q ∧ q ≤ base + w := by
    intro l
    induction l with
    | nil => intro st h _; cases h
    | cons e rest ih =>
      intro st h hdle
      rw [List.foldl_cons]
      rcases List.mem_cons.mp h with heq | h2
      · obtain ⟨base2, hbase2, hble⟩ := hdle u base hbase
        have hstep : bfOuter st e = bfInner u base2 st nbrs := by
          rw [← heq, bfOuter]
          show (match smapGet st.1 u with
            | none => st
            | some b => bfInner u b st nbrs) = _
          rw [hbase2]
        obtain ⟨q, hq, hle⟩ := bfInner_bound u base2 v w nbrs st hv
        obtain ⟨q2, hq2, hle2⟩ := bfFold_dle rest (bfOuter st e) v q
          (by rw [hstep]; exact hq)
        exact ⟨q2, hq2, (hle2.trans hle).trans (by linarith)⟩
      · exact ih _ h2 (dle_trans _ _ _ (bfOuter_dle st e) hdle)
  exact haux g (d, p, false) hmem (dle_refl d)

/-- No edge of the graph is still relaxable under `d`. -/
def Fixpoint (g : Graph) (d : SMap ℚ) : Prop :=
  ∀ e ∈ g, ∀ base, smapGet d e.1 = some base →
    ∀ q ∈ e.2, ∃ cur, smapGet d q.1 = some cur ∧ cur ≤ base + q.2

theorem bfPass_unchanged (g : Graph) (d : SMap ℚ) (p : SMap RId)
    (h : (bfPass g d p).2.2 = false) :
    (bfPass g d p).1 = d ∧ Fixpoint g d := by
  have haux : ∀ (l : List (RId × List (RId × ℚ)))
      (st : SMap ℚ × SMap RId × Bool),
      (l.foldl bfOuter st).2.2 = false →
      l.foldl bfOuter st = st ∧
      ∀ e ∈ l, ∀ base, smapGet st.1 e.1 = some base →
        ∀ q ∈ e.2, ∃ cur, smapGet st.1 q.1 = some cur ∧
          cur ≤ base + q.2 := by
    intro l
    induction l with
    | nil =>
      intro st _
      exact ⟨rfl, fun e he => absurd he (List.not_mem_nil e)⟩
    | cons e rest ih =>
      intro st h2
      rw [List.foldl_cons] at h2 ⊢
      have hstep : (bfOuter st e).2.2 = false := by
        cases hb : (bfOuter st e).2.2 with
        | false => rfl
        | true => rw [bfFold_changed rest _ hb] at h2; cases h2
      obtain ⟨hst, hbounds⟩ := bfOuter_unchanged st e hstep
      rw [hst] at h2 ⊢
      obtain ⟨hfold, hrest⟩ := ih st h2
      refine ⟨hfold, ?_⟩
      intro e2 he2
      rcases List.mem_cons.mp he2 with rfl | h3
      · exact hbounds
      · exact hrest e2 h3
  obtain ⟨hfold, hfix⟩ := haux g (d, p, false) h
  rw [bfPass, hfold]
  exact ⟨rfl, hfix⟩

/-- Every recorded distance is the exact cost of an actual walk from
the source. -/
def WalkReal (g : Graph) (s : RId) (d : SMap ℚ) : Prop :=
  ∀ v q, smapGet d v = some q → ∃ l, IsWalkFrom g s v l ∧ walkCost g l = q

theorem WalkReal.insert (g : Graph) (s : RId) (d : SMap ℚ)
    (hd : WalkReal g s d) (v : RId) (c : ℚ)
    (hc : ∃ l, IsWalkFrom g s v l ∧ walkCost g l = c) :
    WalkReal g s (smapInsert d v c) := by
  intro v2 q h
  by_cases hvv : v = v2
  · subst hvv
    rw [smapGet_insert_self] at h
    obtain ⟨l, hl, hcost⟩ := hc
    exact ⟨l, hl, by rw [hcost]; exact Option.some.inj h⟩
  · rw [smapGet_insert_ne d v v2 c hvv] at h
    exact hd v2 q h

theorem bfInner_real (g : Graph) (s u : RId) (base : ℚ)
    (hbase : ∃ l, IsWalkFrom g s u l ∧ walkCost g l = base) :
    ∀ (nbrs : List (RId × ℚ)) (st : SMap ℚ × SMap RId × Bool),
      (∀ q ∈ nbrs, edgeCost g u q.1 = some q.2) →
      WalkReal g s st.1 → WalkReal g s (bfInner u base st nbrs).1 := by
  intro nbrs
  induction nbrs with
  | nil => intro st _ h; exact h
  | cons q0 rest ih =>
    intro st hedges hreal
    rw [bfInner, List.foldl_cons, ← bfInner]
    have hcand : ∃ l, IsWalkFrom g s q0.1 l ∧
        walkCost g l = base + q0.2 := by
      obtain ⟨l, hl, hcost⟩ := hbase
      obtain ⟨hw1, hw2⟩ := IsWalkFrom_append_edge g s u q0.1 q0.2 l hl
        (hedges q0 (List.mem_cons_self q0 rest))
      exact ⟨l ++ [q0.1], hw1, by rw [hw2, hcost]⟩
    refine ih _ (fun q hq => hedges q (List.mem_cons_of_mem q0 hq)) ?_
    cases hget : smapGet st.1 q0.1 with
    | none =>
      simp only [hget]
      exact WalkReal.insert g s st.1 hreal q0.1 (base + q0.2) hcand
    | some cur =>
      simp only [hget]
      split_ifs with hlt
      · exact WalkReal.insert g s st.1 hreal q0.1 (base + q0.2) hcand
      · exact hreal

theorem bfPass_real (g : Graph) (s : RId) (hg : GraphWF g)
    (d : SMap ℚ) (p : SMap RId) (hreal : WalkReal g s d) :
    WalkReal g s (bfPass g d p).1 := by
  have haux : ∀ (l : List (RId × List (RId × ℚ)))
      (st : SMap ℚ × SMap RId × Bool), (∀ e ∈ l, e ∈ g) →
      WalkReal g s st.1 → WalkReal g s (l.foldl bfOuter st).1 := by
    intro l
    induction l with
    | nil => intro st _ h; exact h
    | cons e rest ih =>
      intro st hsub h
      rw [List.foldl_cons]
      refine ih _ (fun e2 he2 => hsub e2 (List.mem_cons_of_mem e he2)) ?_
      rw [bfOuter]
      cases hget : smapGet st.1 e.1 with
      | none => exact h
      | some base =>
        refine bfInner_real g s e.1 base (h e.1 base hget) e.2 st ?_ h
        intro q hq
        exact GraphWF.edge_of_mem g hg e.1 q.1 e.2 q.2
          (hsub e (List.mem_cons_self e rest)) hq
  exact haux g (d, p, false) (fun e he => he) hreal

/-! ### Round lemmas for the C5 development -/

/-- After enough passes: every walk of at most `k` edges bounds the
recorded distance of its endpoint. -/
def BoundK (g : Graph) (s : RId) (k : Nat) (d : SMap ℚ) : Prop :=
  ∀ y l, IsWalkFrom g s y l → l.length ≤ k + 1 →
    ∃ q, smapGet d y = some q ∧ q ≤ walkCost g l

theorem BoundK.of_dle (g : Graph) (s : RId) (k : Nat) (d2 d1 : SMap ℚ)
    (hdle : dle d2 d1) (h : BoundK g s k d1) : BoundK g s k d2 := by
  intro y l hwalk hlen
  obtain ⟨q, hq, hle⟩ := h y l hwalk hlen
  obtain ⟨q2, hq2, hle2⟩ := hdle y q hq
  exact ⟨q2, hq2, hle2.trans hle⟩

theorem BoundK.src_le_zero (g : Graph) (s : RId) (k : Nat) (d : SMap ℚ)
    (h : BoundK g s k d) : ∃ q0, smapGet d s = some q0 ∧ q0 ≤ 0 := by
  obtain ⟨q, hq, hle⟩ := h s [s] ⟨rfl, rfl, List.chain'_singleton s⟩
    (by simp)
  exact ⟨q, hq, by rw [show walkCost g [s] = 0 from rfl] at hle; exact hle⟩

theorem pass_BoundK (g : Graph) (s : RId) (k : Nat) (d : SMap ℚ)
    (p : SMap RId) (h : BoundK g s k d) :
    BoundK g s (k + 1) (bfPass g d p).1 := by
  intro y l hwalk hlen
  by_cases hshort : l.length ≤ k + 1
  · obtain ⟨q, hq, hle⟩ := h y l hwalk hshort
    obtain ⟨q2, hq2, hle2⟩ := bfPass_dle g d p y q hq
    exact ⟨q2, hq2, hle2.trans hle⟩
  · rcases List.eq_nil_or_concat l with rfl | ⟨l2, z, hl⟩
    · cases hwalk.1
    · rw [List.concat_eq_append] at hl
      subst hl
      have hz : z = y := by
        have h2 := hwalk.2.1
        rw [List.getLast?_concat] at h2
        exact Option.some.inj h2
      subst hz
      rcases List.eq_nil_or_concat l2 with rfl | ⟨l3, x, hl2⟩
      · exact absurd (by simp : ([] ++ [z]).length ≤ k + 1) hshort
      · rw [List.concat_eq_append] at hl2
        subst hl2
        have hwalk2 : IsWalkFrom g s z (l3 ++ x :: [z]) := by
          rw [show l3 ++ x :: [z] = (l3 ++ [x]) ++ [z] by simp]
          exact hwalk
        obtain ⟨walkA, walkB⟩ := walk_split g s z x l3 [z] hwalk2
        obtain ⟨hedge, _⟩ := List.chain'_cons.mp walkB.2.2
        obtain ⟨w, hw⟩ := Option.ne_none_iff_exists.mp hedge
        have hw2 : edgeCost g x z = some w := hw.symm
        have hlenA : (l3 ++ [x]).length ≤ k + 1 := by
          have : ((l3 ++ [x]) ++ [z]).length = l3.length + 2 := by simp
          rw [this] at hlen hshort
          simp only [List.length_append, List.length_cons,
            List.length_nil]
          omega
        obtain ⟨qx, hqx, hlex⟩ := h x (l3 ++ [x]) walkA hlenA
        obtain ⟨adj, hgetadj, hmemadj⟩ := edgeCost_mem g x z w hw2
        obtain ⟨q, hq, hle⟩ := bfPass_bound g d p x adj
          (smapGet_mem g x adj hgetadj) qx hqx z w hmemadj
        refine ⟨q, hq, ?_⟩
        have hcost : walkCost g ((l3 ++ [x]) ++ [z]) =
            walkCost g (l3 ++ [x]) + w :=
          walkCost_append_edge g z w (l3 ++ [x]) x
            (List.getLast?_concat l3) hw2
        rw [hcost]
        linarith

theorem fixpoint_bound (g : Graph) (s : RId) (d : SMap ℚ)
    (hfix : Fixpoint g d)
    (hs : ∃ q0, smapGet d s = some q0 ∧ q0 ≤ 0) :
    ∀ y l, IsWalkFrom g s y l →
      ∃ q, smapGet d y = some q ∧ q ≤ walkCost g l := by
  have main : ∀ (n : Nat) (y : RId) (l : List RId), l.length ≤ n →
      IsWalkFrom g s y l →
      ∃ q, smapGet d y = some q ∧ q ≤ walkCost g l := by
    intro n
    induction n with
    | zero =>
      intro y l hlen hwalk
      cases l with
      | nil => cases hwalk.1
      | cons a t => simp at hlen
    | succ n ih =>
      intro y l hlen hwalk
      rcases List.eq_nil_or_concat l with rfl | ⟨l2, z, hl⟩
      · cases hwalk.1
      · rw [List.concat_eq_append] at hl
        subst hl
        have hz : z = y := by
          have h2 := hwalk.2.1
          rw [List.getLast?_concat] at h2
          exact Option.some.inj h2
        subst hz
        rcases List.eq_nil_or_concat l2 with rfl | ⟨l3, x, hl2⟩
        · have hzs : z = s := by
            have h1 := hwalk.1
            exact Option.some.inj h1
          subst hzs
          obtain ⟨q0, hq0, hle0⟩ := hs
          exact ⟨q0, hq0,
            by rw [show walkCost g ([] ++ [z]) = 0 from rfl]; exact hle0⟩
        · rw [List.concat_eq_append] at hl2
          subst hl2
          have hwalk2 : IsWalkFrom g s z (l3 ++ x :: [z]) := by
            rw [show l3 ++ x :: [z] = (l3 ++ [x]) ++ [z] by simp]
            exact hwalk
          obtain ⟨walkA, walkB⟩ := walk_split g s z x l3 [z] hwalk2
          obtain ⟨hedge, _⟩ := List.chain'_cons.mp walkB.2.2
          obtain ⟨w, hw⟩ := Option.ne_none_iff_exists.mp hedge
          have hw2 : edgeCost g x z = some w := hw.symm
          have hlenA : (l3 ++ [x]).length ≤ n := by
            have h2 : ((l3 ++ [x]) ++ [z]).length = l3.length + 2 := by
              simp
            rw [h2] at hlen
            simp only [List.length_append, List.length_cons,
              List.length_nil]
            omega
          obtain ⟨qx, hqx, hlex⟩ := ih x (l3 ++ [x]) hlenA walkA
          obtain ⟨adj, hgetadj, hmemadj⟩ := edgeCost_mem g x z w hw2
          obtain ⟨cur, hcur, hcle⟩ := hfix (x, adj)
            (smapGet_mem g x adj hgetadj) qx hqx (z, w) hmemadj
          refine ⟨cur, hcur, ?_⟩
          have hcost : walkCost g ((l3 ++ [x]) ++ [z]) =
              walkCost g (l3 ++ [x]) + w :=
            walkCost_append_edge g z w (l3 ++ [x]) x
              (List.getLast?_concat l3) hw2
          rw [hcost]
          linarith
  intro y l hwalk
  exact main l.length y l (le_refl _) hwalk

theorem rounds_BoundK (g : Graph) (s : RId) :
    ∀ (m k : Nat) (d : SMap ℚ) (p : SMap RId), BoundK g s k d →
      BoundK g s (k + m) (bfRounds g m (d, p)).1 := by
  intro m
  induction m with
  | zero => intro k d p h; exact h
  | succ n ih =>
    intro k d p h
    cases hch : (bfPass g d p).2.2 with
    | true =>
      have hstep : bfRounds g (n + 1) (d, p) =
          bfRounds g n ((bfPass g d p).1, (bfPass g d p).2.1) := by
        rw [bfRounds]
        simp only [hch, if_true]
      rw [hstep]
      have hB1 := pass_BoundK g s k d p h
      have hres := ih (k + 1) (bfPass g d p).1 (bfPass g d p).2.1 hB1
      rw [show k + (n + 1) = k + 1 + n from by omega]
      exact hres
    | false =>
      have hstep : bfRounds g (n + 1) (d, p) =
          ((bfPass g d p).1, (bfPass g d p).2.1) := by
        rw [bfRounds]
        simp only [hch]
        rw [if_neg Bool.false_ne_true]
      rw [hstep]
      obtain ⟨hd, hfix⟩ := bfPass_unchanged g d p hch
      show BoundK g s (k + (n + 1)) (bfPass g d p).1
      rw [hd]
      intro y l hwalk _
      exact fixpoint_bound g s d hfix (BoundK.src_le_zero g s k d h) y l
        hwalk

theorem rounds_real (g : Graph) (s : RId) (hg : GraphWF g) :
    ∀ (m : Nat) (d : SMap ℚ) (p : SMap RId), WalkReal g s d →
      WalkReal g s (bfRounds g m (d, p)).1 := by
  intro m
  induction m with
  | zero => intro d p h; exact h
  | succ n ih =>
    intro d p h
    cases hch : (bfPass g d p).2.2 with
    | true =>
      have hstep : bfRounds g (n + 1) (d, p) =
          bfRounds g n ((bfPass g d p).1, (bfPass g d p).2.1) := by
        rw [bfRounds]
        simp only [hch, if_true]
      rw [hstep]
      exact ih (bfPass g d p).1 (bfPass g d p).2.1
        (bfPass_real g s hg d p h)
    | false =>
      have hstep : bfRounds g (n + 1) (d, p) =
          ((bfPass g d p).1, (bfPass g d p).2.1) := by
        rw [bfRounds]
        simp only [hch]
        rw [if_neg Bool.false_ne_true]
      rw [hstep]
      exact bfPass_real g s hg d p h

theorem init_BoundK (g : Graph) (s : RId) : BoundK g s 0 [(s, 0)] := by
  intro y l hwalk hlen
  cases l with
  | nil => cases hwalk.1
  | cons a t =>
    have ht : t = [] := by
      rw [List.length_cons] at hlen
      exact List.length_eq_zero.mp (by omega)
    subst ht
    have ha : a = s := Option.some.inj hwalk.1
    have hy : a = y := Option.some.inj hwalk.2.1
    subst ha
    rw [← hy]
    refine ⟨0, ?_, ?_⟩
    · rw [smapGet, if_pos rfl]
    · rw [show walkCost g [a] = 0 from rfl]

theorem init_real (g : Graph) (s : RId) : WalkReal g s [(s, 0)] := by
  intro v q h
  rw [smapGet] at h
  split_ifs at h with hsv
  · subst hsv
    exact ⟨[s], ⟨rfl, rfl, List.chain'_singleton s⟩,
      by rw [← Option.some.inj h]; rfl⟩
  · rw [smapGet] at h
    cases h

/-! ### Seed-pass characterization for the C5 development -/

theorem seedRelax_true_iff (d : SMap ℚ) (c : ℚ) (v : RId) :
    seedRelax d c v = true ↔
      ∀ cur, smapGet d v = some cur → c < cur := by
  rw [seedRelax]
  cases hget : smapGet d v with
  | none =>
    constructor
    · intro _ cur hcur
      exact Option.noConfusion hcur
    · intro _
      rfl
  | some cur =>
    simp only [decide_eq_true_eq]
    exact ⟨fun h cur2 hcur2 => (Option.some.inj hcur2) ▸ h,
      fun h => h cur rfl⟩

theorem seedRelax_false (d : SMap ℚ) (c : ℚ) (v : RId)
    (h : seedRelax d c v = false) :
    ∃ cur, smapGet d v = some cur ∧ cur ≤ c := by
  rw [seedRelax] at h
  cases hget : smapGet d v with
  | none => rw [hget] at h; cases h
  | some cur =>
    rw [hget] at h
    exact ⟨cur, rfl, le_of_not_lt (by simpa using h)⟩

theorem bfSeedInner_mem (u : RId) (base : ℚ) (d : SMap ℚ) :
    ∀ (nbrs : List (RId × ℚ)) (acc : List Nat) (x : Nat),
      x ∈ bfSeedInner u base d acc nbrs ↔
        x ∈ acc ∨ ∃ q ∈ nbrs, seedRelax d (base + q.2) q.1 = true ∧
          (x = u ∨ x = q.1) := by
  intro nbrs
  induction nbrs with
  | nil =>
    intro acc x
    simp [bfSeedInner]
  | cons q0 rest ih =>
    intro acc x
    rw [bfSeedInner, List.foldl_cons, ← bfSeedInner]
    cases hrel : seedRelax d (base + q0.2) q0.1 with
    | false =>
      rw [if_neg Bool.false_ne_true]
      rw [ih]
      constructor
      · rintro (h | ⟨q, hq, hrel2, hx⟩)
        · exact Or.inl h
        · exact Or.inr ⟨q, List.mem_cons_of_mem q0 hq, hrel2, hx⟩
      · rintro (h | ⟨q, hq, hrel2, hx⟩)
        · exact Or.inl h
        · rcases List.mem_cons.mp hq with rfl | hq2
          · rw [hrel] at hrel2; cases hrel2
          · exact Or.inr ⟨q, hq2, hrel2, hx⟩
    | true =>
      rw [if_pos rfl]
      rw [ih]
      constructor
      · rintro (h | ⟨q, hq, hrel2, hx⟩)
        · rcases (mem_natSetInsert _ _ x).mp h with rfl | h2
          · exact Or.inr ⟨q0, List.mem_cons_self q0 rest, hrel,
              Or.inr rfl⟩
          · rcases (mem_natSetInsert _ _ x).mp h2 with rfl | h3
            · exact Or.inr ⟨q0, List.mem_cons_self q0 rest, hrel,
                Or.inl rfl⟩
            · exact Or.inl h3
        · exact Or.inr ⟨q, List.mem_cons_of_mem q0 hq, hrel2, hx⟩
      · rintro (h | ⟨q, hq, hrel2, hx⟩)
        · exact Or.inl ((mem_natSetInsert _ _ x).mpr
            (Or.inr ((mem_natSetInsert _ _ x).mpr (Or.inr h))))
        · rcases List.mem_cons.mp hq with rfl | hq2
          · rcases hx with rfl | rfl
            · exact Or.inl ((mem_natSetInsert _ _ _).mpr
                (Or.inr ((mem_natSetInsert _ _ _).mpr (Or.inl rfl))))
            · exact Or.inl ((mem_natSetInsert _ _ _).mpr (Or.inl rfl))
          · exact Or.inr ⟨q, hq2, hrel2, hx⟩

theorem bfSeeds_mem (g : Graph) (d : SMap ℚ) (x : Nat) :
    x ∈ bfSeeds g d ↔
      ∃ e ∈ g, ∃ base, smapGet d e.1 = some base ∧
        ∃ q ∈ e.2, seedRelax d (base + q.2) q.1 = true ∧
          (x = e.1 ∨ x = q.1) := by
  have haux : ∀ (l : List (RId × List (RId × ℚ))) (acc : List Nat),
      x ∈ l.foldl
        (fun acc p =>
          match smapGet d p.1 with
          | none => acc
          | some base => bfSeedInner p.1 base d acc p.2) acc ↔
      x ∈ acc ∨ ∃ e ∈ l, ∃ base, smapGet d e.1 = some base ∧
        ∃ q ∈ e.2, seedRelax d (base + q.2) q.1 = true ∧
          (x = e.1 ∨ x = q.1) := by
    intro l
    induction l with
    | nil => intro acc; simp
    | cons e rest ih =>
      intro acc
      rw [List.foldl_cons]
      cases hget : smapGet d e.1 with
      | none =>
        simp only [hget]
        rw [ih]
        constructor
        · rintro (h | ⟨e2, he2, rest_h⟩)
          · exact Or.inl h
          · exact Or.inr ⟨e2, List.mem_cons_of_mem e he2, rest_h⟩
        · rintro (h | ⟨e2, he2, base, hbase, hq⟩)
          · exact Or.inl h
          · rcases List.mem_cons.mp he2 with rfl | he3
            · rw [hget] at hbase; cases hbase
            · exact Or.inr ⟨e2, he3, base, hbase, hq⟩
      | some base0 =>
        simp only [hget]
        rw [ih, bfSeedInner_mem]
        constructor
        · rintro ((h | ⟨q, hq, hrel, hx⟩) | ⟨e2, he2, rest_h⟩)
          · exact Or.inl h
          · exact Or.inr ⟨e, List.mem_cons_self e rest, base0, hget, q,
              hq, hrel, hx⟩
          · exact Or.inr ⟨e2, List.mem_cons_of_mem e he2, rest_h⟩
        · rintro (h | ⟨e2, he2, base, hbase, q, hq, hrel, hx⟩)
          · exact Or.inl (Or.inl h)
          · rcases List.mem_cons.mp he2 with rfl | he3
            · rw [hget] at hbase
              rw [← Option.some.inj hbase] at hrel
              exact Or.inl (Or.inr ⟨q, hq, hrel, hx⟩)
            · exact Or.inr ⟨e2, he3, base, hbase, q, hq, hrel, hx⟩
  rw [bfSeeds, haux g []]
  simp

/-! ### BFS lemmas for the C5 development -/

theorem bfsRun_mem_done (g : Graph) :
    ∀ (fuel : Nat) (st : List Nat × List RId) (x : Nat),
      (x ∈ st.1 ∨ x ∈ st.2) → (bfsRun g fuel st).2 = [] →
      x ∈ (bfsRun g fuel st).1 := by
  intro fuel
  induction fuel with
  | zero =>
    intro st x hx hdone
    rw [bfsRun] at hdone ⊢
    rcases hx with h | h
    · exact h
    · rw [hdone] at h; cases h
  | succ n ih =>
    intro st x hx hdone
    rw [bfsRun] at hdone ⊢
    cases hstep : bfsStep g st with
    | none =>
      simp only [hstep] at hdone ⊢
      rcases hx with h | h
      · exact h
      · rw [hdone] at h; cases h
    | some st2 =>
      simp only [hstep] at hdone ⊢
      refine ih st2 x ?_ hdone
      cases hq : st.2 with
      | nil => rw [bfsStep, hq] at hstep; cases hstep
      | cons node rest =>
        simp only [bfsStep, hq] at hstep
        split_ifs at hstep with hmem
        · injection hstep with h2
          rw [← h2]
          rcases hx with h | h
          · exact Or.inl h
          · rw [hq] at h
            rcases List.mem_cons.mp h with rfl | h3
            · exact Or.inl hmem
            · exact Or.inr h3
        · injection hstep with h2
          rw [← h2]
          rcases hx with h | h
          · exact Or.inl ((mem_natSetInsert _ _ x).mpr (Or.inr h))
          · rw [hq] at h
            rcases List.mem_cons.mp h with rfl | h3
            · exact Or.inl ((mem_natSetInsert _ _ x).mpr (Or.inl rfl))
            · exact Or.inr (List.mem_append.mpr (Or.inl h3))

/-- BFS invariant: every successor of a visited node is visited or
queued. -/
def BfsInv (g : Graph) (st : List Nat × List RId) : Prop :=
  ∀ x ∈ st.1, ∀ adj, smapGet g x = some adj →
    ∀ p ∈ adj, p.1 ∈ st.1 ∨ p.1 ∈ st.2

theorem bfsStep_inv (g : Graph) (st st2 : List Nat × List RId)
    (hstep : bfsStep g st = some st2) (hinv : BfsInv g st) :
    BfsInv g st2 := by
  cases hq : st.2 with
  | nil => rw [bfsStep, hq] at hstep; cases hstep
  | cons node rest =>
    simp only [bfsStep, hq] at hstep
    split_ifs at hstep with hmem
    · injection hstep with h2
      rw [← h2]
      intro x hx adj hadj p hp
      rcases hinv x hx adj hadj p hp with h | h
      · exact Or.inl h
      · rw [hq] at h
        rcases List.mem_cons.mp h with heq | h3
        · exact Or.inl (heq ▸ hmem)
        · exact Or.inr h3
    · injection hstep with h2
      rw [← h2]
      intro x hx adj hadj p hp
      rcases (mem_natSetInsert _ _ x).mp hx with rfl | hxold
      · refine Or.inr (List.mem_append.mpr (Or.inr ?_))
        rw [hadj]
        exact List.mem_map.mpr ⟨p, hp, rfl⟩
      · rcases hinv x hxold adj hadj p hp with h | h
        · exact Or.inl ((mem_natSetInsert _ _ _).mpr (Or.inr h))
        · rw [hq] at h
          rcases List.mem_cons.mp h with heq | h3
          · exact Or.inl ((mem_natSetInsert _ _ _).mpr (Or.inl heq))
          · exact Or.inr (List.mem_append.mpr (Or.inl h3))

theorem bfsRun_closed (g : Graph) :
    ∀ (fuel : Nat) (st : List Nat × List RId), BfsInv g st →
      (bfsRun g fuel st).2 = [] →
      ∀ x ∈ (bfsRun g fuel st).1, ∀ adj, smapGet g x = some adj →
        ∀ p ∈ adj, p.1 ∈ (bfsRun g fuel st).1 := by
  intro fuel
  induction fuel with
  | zero =>
    intro st hinv hdone x hx adj hadj p hp
    rw [bfsRun] at hdone hx ⊢
    rcases hinv x hx adj hadj p hp with h | h
    · exact h
    · rw [hdone] at h; cases h
  | succ n ih =>
    intro st hinv hdone x hx adj hadj p hp
    rw [bfsRun] at hdone hx ⊢
    cases hstep : bfsStep g st with
    | none =>
      simp only [hstep] at hdone hx ⊢
      rcases hinv x hx adj hadj p hp with h | h
      · exact h
      · rw [hdone] at h; cases h
    | some st2 =>
      simp only [hstep] at hdone hx ⊢
      exact ih st2 (bfsStep_inv g st st2 hstep hinv) hdone x hx adj hadj
        p hp

theorem bfsRun_sound (g : Graph) (hg : GraphWF g) :
    ∀ (fuel : Nat) (st : List Nat × List RId) (y : Nat),
      y ∈ (bfsRun g fuel st).1 →
      y ∈ st.1 ∨ ∃ x ∈ st.2, Reachable g x y := by
  intro fuel
  induction fuel with
  | zero =>
    intro st y hy
    rw [bfsRun] at hy
    exact Or.inl hy
  | succ n ih =>
    intro st y hy
    rw [bfsRun] at hy
    cases hstep : bfsStep g st with
    | none =>
      rw [hstep] at hy
      exact Or.inl hy
    | some st2 =>
      rw [hstep] at hy
      rcases ih st2 y hy with h | ⟨x, hxq, hreach⟩
      · cases hq : st.2 with
        | nil => rw [bfsStep, hq] at hstep; cases hstep
        | cons node rest =>
          simp only [bfsStep, hq] at hstep
          split_ifs at hstep with hmem
          · injection hstep with h2
            rw [← h2] at h
            exact Or.inl h
          · injection hstep with h2
            rw [← h2] at h
            rcases (mem_natSetInsert _ _ y).mp h with rfl | hold
            · exact Or.inr ⟨y, List.mem_cons_self y rest,
                Reachable.of_self g y⟩
            · exact Or.inl hold
      · cases hq : st.2 with
        | nil => rw [bfsStep, hq] at hstep; cases hstep
        | cons node rest =>
          simp only [bfsStep, hq] at hstep
          split_ifs at hstep with hmem
          · injection hstep with h2
            rw [← h2] at hxq
            exact Or.inr ⟨x, List.mem_cons_of_mem node hxq, hreach⟩
          · injection hstep with h2
            rw [← h2] at hxq
            rcases List.mem_append.mp hxq with h3 | h3
            · exact Or.inr ⟨x, List.mem_cons_of_mem node h3, hreach⟩
            · cases hadj : smapGet g node with
              | none => rw [hadj] at h3; cases h3
              | some adj =>
                rw [hadj] at h3
                obtain ⟨p, hp, hpx⟩ := List.mem_map.mp h3
                have hedge : edgeCost g node p.1 = some p.2 :=
                  GraphWF.edge_of_mem g hg node p.1 adj p.2
                    (smapGet_mem g node adj hadj) hp
                refine Or.inr ⟨node, List.mem_cons_self node rest, ?_⟩
                refine Reachable.trans g node x y ?_ hreach
                rw [← hpx]
                exact ⟨[node, p.1], rfl, rfl, List.chain'_cons.mpr
                  ⟨by rw [hedge]; exact Option.noConfusion,
                    List.chain'_singleton p.1⟩⟩

theorem closed_walk_mem (g : Graph) (M : List Nat)
    (hclosed : ∀ x ∈ M, ∀ adj, smapGet g x = some adj →
      ∀ p ∈ adj, p.1 ∈ M)
    (y : RId) :
    ∀ (l : List RId) (x : RId), x ∈ M → IsWalkFrom g x y l → y ∈ M := by
  intro l
  induction l with
  | nil => intro x _ hw; cases hw.1
  | cons a t ih =>
    intro x hx hw
    have hax : a = x := Option.some.inj hw.1
    subst hax
    cases t with
    | nil =>
      have hy : y = a := (Option.some.inj hw.2.1).symm
      rw [hy]
      exact hx
    | cons z t2 =>
      obtain ⟨hedge, _⟩ := List.chain'_cons.mp hw.2.2
      obtain ⟨w, hw2⟩ := Option.ne_none_iff_exists.mp hedge
      obtain ⟨adj, hgetadj, hmemadj⟩ := edgeCost_mem g a z w hw2.symm
      have hz : z ∈ M := hclosed a hx adj hgetadj (z, w) hmemadj
      exact ih z hz (walk_tail g a z y t2 hw)

/-! ### Negative-cycle extraction for the C5 development -/

theorem walk_cut_or_cycle (g : Graph) (s : RId) :
    ∀ (n : Nat) (l : List RId) (y : RId) (c : ℚ), l.length ≤ n →
      IsWalkFrom g s y l → walkCost g l ≤ c →
      (∃ l2, IsWalkFrom g s y l2 ∧ walkCost g l2 ≤ c ∧ l2.Nodup) ∨
      (∃ x, Reachable g s x ∧ NegCycle g x ∧ Reachable g x y) := by
  intro n
  induction n with
  | zero =>
    intro l y c hlen hwalk _
    cases l with
    | nil => cases hwalk.1
    | cons a t => simp at hlen
  | succ n ih =>
    intro l y c hlen hwalk hcost
    by_cases hnd : l.Nodup
    · exact Or.inl ⟨l, hwalk, hcost, hnd⟩
    · obtain ⟨l1, x, l2, l3, hsplit⟩ := not_nodup_split hnd
      have hA : l = l1 ++ (x :: (l2 ++ (x :: l3))) := by rw [hsplit]; simp
      obtain ⟨walkA, walkRest⟩ :=
        walk_split g s y x l1 (l2 ++ (x :: l3)) (hA ▸ hwalk)
      have hw2 : IsWalkFrom g x y ((x :: l2) ++ (x :: l3)) := by
        rw [show (x :: l2) ++ (x :: l3) = x :: (l2 ++ (x :: l3)) by simp]
        exact walkRest
      obtain ⟨walkK, walkB⟩ := walk_split g x y x (x :: l2) l3 hw2
      have hc0 : walkCost g l =
          walkCost g (l1 ++ [x]) + walkCost g (x :: (l2 ++ (x :: l3))) := by
        rw [hA]
        exact walkCost_append_mid g x l1 (l2 ++ (x :: l3))
      have hcK : walkCost g (x :: (l2 ++ (x :: l3))) =
          walkCost g ((x :: l2) ++ [x]) + walkCost g (x :: l3) := by
        have h2 := walkCost_append_mid g x (x :: l2) l3
        rw [show (x :: l2) ++ (x :: l3) = x :: (l2 ++ (x :: l3)) by simp]
          at h2
        exact h2
      by_cases hK : walkCost g ((x :: l2) ++ [x]) < 0
      · refine Or.inr ⟨x, ⟨l1 ++ [x], walkA⟩,
          ⟨(x :: l2) ++ [x], walkK, ?_, hK⟩, ⟨x :: l3, walkB⟩⟩
        simp only [List.length_append, List.length_cons]
        omega
      · have hjoin := walk_join g s x y (l1 ++ [x]) (x :: l3) walkA walkB
        have hform : (l1 ++ [x]) ++ (x :: l3).tail = l1 ++ (x :: l3) := by
          simp
        rw [hform] at hjoin
        have hlencut : (l1 ++ (x :: l3)).length ≤ n := by
          have h1 : l.length = l1.length + l2.length + l3.length + 2 := by
            rw [hA]
            simp only [List.length_append, List.length_cons]
            omega
          simp only [List.length_append, List.length_cons]
          omega
        have hccut : walkCost g (l1 ++ (x :: l3)) ≤ c := by
          have h2 := walkCost_append_mid g x l1 l3
          rw [h2]
          have h3 : 0 ≤ walkCost g ((x :: l2) ++ [x]) := le_of_not_lt hK
          linarith
        exact ih (l1 ++ (x :: l3)) y c hlencut hjoin hccut

theorem bf_relax_sound (g : Graph) (s : RId)
    (d : SMap ℚ)
    (hB : BoundK g s ((natSetInsert (collectNodes g) s).length - 1) d)
    (hreal : WalkReal g s d)
    (u v : RId) (w : ℚ) (hedge : edgeCost g u v = some w)
    (base : ℚ) (hbase : smapGet d u = some base)
    (hguard : ∀ cur, smapGet d v = some cur → base + w < cur) :
    (∃ x, Reachable g s x ∧ NegCycle g x ∧ Reachable g x v) ∧
    (∃ x, Reachable g s x ∧ NegCycle g x ∧ Reachable g x u) := by
  have hs : s ∈ natSetInsert (collectNodes g) s :=
    (mem_natSetInsert _ _ s).mpr (Or.inl rfl)
  have hUpos : 0 < (natSetInsert (collectNodes g) s).length :=
    List.length_pos.mpr (List.ne_nil_of_mem hs)
  have hnoshort : ∀ l2, IsWalkFrom g s v l2 →
      walkCost g l2 ≤ base + w → l2.Nodup → False := by
    intro l2 hw2 hc2 hnd2
    have hsub := walk_nodes_mem g s v l2 hw2
    have hlen2 := nodup_subset_length hnd2 hsub
    obtain ⟨q, hq1, hq2⟩ := hB v l2 hw2 (by omega)
    have h3 := hguard q hq1
    linarith
  have hv : ∃ x, Reachable g s x ∧ NegCycle g x ∧ Reachable g x v := by
    obtain ⟨W, hW, hWc⟩ := hreal u base hbase
    obtain ⟨hW2, hW2c⟩ := IsWalkFrom_append_edge g s u v w W hW hedge
    have hWcost : walkCost g (W ++ [v]) ≤ base + w := by
      rw [hW2c, hWc]
    rcases walk_cut_or_cycle g s (W ++ [v]).length (W ++ [v]) v (base + w)
        (le_refl _) hW2 hWcost with ⟨l2, hl2w, hl2c, hl2nd⟩ | hcyc
    · exact (hnoshort l2 hl2w hl2c hl2nd).elim
    · exact hcyc
  refine ⟨hv, ?_⟩
  obtain ⟨W, hW, hWc⟩ := hreal u base hbase
  rcases walk_cut_or_cycle g s W.length W u base (le_refl _) hW
      (le_of_eq hWc) with ⟨P, hPw, hPc, hPnd⟩ | hcycU
  · have hPsub := walk_nodes_mem g s u P hPw
    have hPlen := nodup_subset_length hPnd hPsub
    obtain ⟨hPv, hPvc⟩ := IsWalkFrom_append_edge g s u v w P hPw hedge
    by_cases hfull : P.length = (natSetInsert (collectNodes g) s).length
    · have hvU : v ∈ natSetInsert (collectNodes g) s :=
        (edge_mem_nodes g s u v w hedge).2
      have hcover := nodup_subset_full hPnd (nodesU_nodup g s) hPsub
        (by omega)
      have hvP : v ∈ P := hcover v hvU
      obtain ⟨p1, p2, hPsplit⟩ := List.append_of_mem hvP
      have hPw2 : IsWalkFrom g s u (p1 ++ v :: p2) := hPsplit ▸ hPw
      obtain ⟨_, hvu⟩ := walk_split g s u v p1 p2 hPw2
      obtain ⟨x, hx1, hx2, hx3⟩ := hv
      exact ⟨x, hx1, hx2, Reachable.trans g x v u hx3 ⟨v :: p2, hvu⟩⟩
    · obtain ⟨q, hq1, hq2⟩ := hB v (P ++ [v]) hPv
        (by simp only [List.length_append, List.length_cons,
          List.length_nil]; omega)
      have h3 := hguard q hq1
      have h4 : walkCost g (P ++ [v]) ≤ base + w := by
        rw [hPvc]
        linarith
      linarith
  · exact hcycU

/-! ### Completeness ingredients for the C5 development -/

theorem walk_shorten_nodup (g : Graph) (s y : RId) :
    ∀ (n : Nat) (l : List RId), l.length ≤ n → IsWalkFrom g s y l →
      ∃ l2, IsWalkFrom g s y l2 ∧ l2.Nodup := by
  intro n
  induction n with
  | zero =>
    intro l hlen hwalk
    cases l with
    | nil => cases hwalk.1
    | cons a t => simp at hlen
  | succ n ih =>
    intro l hlen hwalk
    by_cases hnd : l.Nodup
    · exact ⟨l, hwalk, hnd⟩
    · obtain ⟨l1, x, l2, l3, hsplit⟩ := not_nodup_split hnd
      have hA : l = l1 ++ (x :: (l2 ++ (x :: l3))) := by rw [hsplit]; simp
      obtain ⟨walkA, walkRest⟩ :=
        walk_split g s y x l1 (l2 ++ (x :: l3)) (hA ▸ hwalk)
      have hw2 : IsWalkFrom g x y ((x :: l2) ++ (x :: l3)) := by
        rw [show (x :: l2) ++ (x :: l3) = x :: (l2 ++ (x :: l3)) by simp]
        exact walkRest
      obtain ⟨_, walkB⟩ := walk_split g x y x (x :: l2) l3 hw2
      have hjoin := walk_join g s x y (l1 ++ [x]) (x :: l3) walkA walkB
      have hform : (l1 ++ [x]) ++ (x :: l3).tail = l1 ++ (x :: l3) := by
        simp
      rw [hform] at hjoin
      have hlencut : (l1 ++ (x :: l3)).length ≤ n := by
        have h1 : l.length = l1.length + l2.length + l3.length + 2 := by
          rw [hA]
          simp only [List.length_append, List.length_cons]
          omega
        simp only [List.length_append, List.length_cons]
        omega
      exact ih (l1 ++ (x :: l3)) hlencut hjoin

theorem walk_telescope (g : Graph) (d : SMap ℚ) :
    ∀ (l : List RId) (a b : RId), IsWalkFrom g a b l →
      (∀ (x y : RId) (w : ℚ), x ∈ l → edgeCost g x y = some w →
        ∀ base, smapGet d x = some base →
          ∃ c, smapGet d y = some c ∧ c ≤ base + w) →
      ∀ qa, smapGet d a = some qa →
        ∃ qb, smapGet d b = some qb ∧ qb ≤ qa + walkCost g l := by
  intro l
  induction l with
  | nil => intro a b hw; cases hw.1
  | cons x0 t ih =>
    intro a b hw H qa hqa
    have hax : x0 = a := Option.some.inj hw.1
    subst hax
    cases t with
    | nil =>
      have hb : b = x0 := (Option.some.inj hw.2.1).symm
      subst hb
      exact ⟨qa, hqa, by
        rw [show walkCost g [b] = 0 from rfl]
        linarith⟩
    | cons z t2 =>
      obtain ⟨hedge, _⟩ := List.chain'_cons.mp hw.2.2
      obtain ⟨w, hw2⟩ := Option.ne_none_iff_exists.mp hedge
      obtain ⟨qz, hqz, hqzle⟩ := H x0 z w (List.mem_cons_self x0 (z :: t2))
        hw2.symm qa hqa
      have hwt := walk_tail g x0 z b t2 hw
      obtain ⟨qb, hqb, hqble⟩ := ih z b hwt
        (fun x y w2 hx => H x y w2 (List.mem_cons_of_mem x0 hx)) qz hqz
      refine ⟨qb, hqb, ?_⟩
      rw [walkCost, show edgeCost g x0 z = some w from hw2.symm,
        Option.getD_some]
      linarith

/-- C5 (amended): for every well-formed graph with finite edge weights
(negative allowed) and every source, once the closure BFS has drained
its queue, a node `y` is in
`compute_bellman_ford(G, s).negative_cycle_nodes` iff `y` is reachable
from some negative cycle that is itself reachable from the source `s`.
(By `C5_counterexample` the source-reachability qualification cannot be
dropped: a negative cycle disconnected from `s` is never marked.) -/
theorem C5_negative_cycle_marking (fuel : Nat) (g : Graph) (s : RId)
    (hg : GraphWF g)
    (hdone : (bellman_ford_closure fuel g s).2 = []) :
    ∀ y, y ∈ (compute_bellman_ford fuel g s).negative_cycle_nodes ↔
      ∃ x, Reachable g s x ∧ NegCycle g x ∧ Reachable g x y := by
  intro y
  set U := natSetInsert (collectNodes g) s with hU
  set d := (bfRounds g (U.length - 1) ([(s, 0)], [])).1 with hd
  have hmarked : (compute_bellman_ford fuel g s).negative_cycle_nodes =
      (bfsRun g fuel ([], bfSeeds g d)).1 := rfl
  have hdone2 : (bfsRun g fuel ([], bfSeeds g d)).2 = [] := hdone
  have hsU : s ∈ U := (mem_natSetInsert _ _ s).mpr (Or.inl rfl)
  have hUpos : 0 < U.length := List.length_pos.mpr (List.ne_nil_of_mem hsU)
  have hB : BoundK g s (U.length - 1) d := by
    have h1 := rounds_BoundK g s (U.length - 1) 0 [(s, 0)] []
      (init_BoundK g s)
    simpa using h1
  have hreal : WalkReal g s d :=
    rounds_real g s hg (U.length - 1) [(s, 0)] [] (init_real g s)
  constructor
  · intro hy
    rw [hmarked] at hy
    rcases bfsRun_sound g hg fuel ([], bfSeeds g d) y hy with h | h2
    · cases h
    · obtain ⟨x0, hx0q, hreach⟩ := h2
      obtain ⟨e, he, base, hbase, q, hq, hrel, hx0⟩ :=
        (bfSeeds_mem g d x0).mp hx0q
      have hedge : edgeCost g e.1 q.1 = some q.2 :=
        GraphWF.edge_of_mem g hg e.1 q.1 e.2 q.2 he hq
      have hguard : ∀ cur, smapGet d q.1 = some cur → base + q.2 < cur :=
        (seedRelax_true_iff d (base + q.2) q.1).mp hrel
      obtain ⟨hsv, hsu⟩ := bf_relax_sound g s d hB hreal e.1 q.1 q.2
        hedge base hbase hguard
      rcases hx0 with rfl | rfl
      · obtain ⟨x, h1, h2, h3⟩ := hsu
        exact ⟨x, h1, h2, Reachable.trans g x e.1 y h3 hreach⟩
      · obtain ⟨x, h1, h2, h3⟩ := hsv
        exact ⟨x, h1, h2, Reachable.trans g x q.1 y h3 hreach⟩
  · rintro ⟨x, ⟨Ws, hWs⟩, ⟨K, hK, hKlen, hKneg⟩, hxy⟩
    rw [hmarked]
    have hxfin : ∃ qx, smapGet d x = some qx := by
      obtain ⟨P, hPw, hPnd⟩ := walk_shorten_nodup g s x Ws.length Ws
        (le_refl _) hWs
      have hsub := walk_nodes_mem g s x P hPw
      have hlen := nodup_subset_length hPnd hsub
      rw [← hU] at hlen
      obtain ⟨qx, hqx, _⟩ := hB x P hPw (by omega)
      exact ⟨qx, hqx⟩
    by_cases hseed : ∃ z ∈ K, z ∈ bfSeeds g d
    · obtain ⟨z, hzK, hzseed⟩ := hseed
      have hzmark := bfsRun_mem_done g fuel ([], bfSeeds g d) z
        (Or.inr hzseed) hdone2
      have hclosed := bfsRun_closed g fuel ([], bfSeeds g d)
        (fun x2 hx2 => absurd hx2 (List.not_mem_nil x2)) hdone2
      obtain ⟨k1, k2, hKsplit⟩ := List.append_of_mem hzK
      have hKw2 : IsWalkFrom g x x (k1 ++ z :: k2) := hKsplit ▸ hK
      obtain ⟨_, hzx⟩ := walk_split g x x z k1 k2 hKw2
      have hreachzy : Reachable g z y :=
        Reachable.trans g z x y ⟨z :: k2, hzx⟩ hxy
      obtain ⟨lw, hlw⟩ := hreachzy
      exact closed_walk_mem g _ hclosed y lw z hzmark hlw
    · push_neg at hseed
      exfalso
      obtain ⟨qx, hqx⟩ := hxfin
      have H : ∀ (a b : RId) (w : ℚ), a ∈ K → edgeCost g a b = some w →
          ∀ base, smapGet d a = some base →
            ∃ c, smapGet d b = some c ∧ c ≤ base + w := by
        intro a b w haK hedge base hbase
        cases hrel : seedRelax d (base + w) b with
        | true =>
          exfalso
          refine hseed a haK ?_
          obtain ⟨adj, hgetadj, hmemadj⟩ := edgeCost_mem g a b w hedge
          exact (bfSeeds_mem g d a).mpr ⟨(a, adj),
            smapGet_mem g a adj hgetadj, base, hbase, (b, w), hmemadj,
            hrel, Or.inl rfl⟩
        | false =>
          exact seedRelax_false d (base + w) b hrel
      obtain ⟨qx2, hqx2, hqx2le⟩ := walk_telescope g d K x x hK H qx hqx
      rw [hqx] at hqx2
      have hq : qx = qx2 := Option.some.inj hqx2
      linarith

/-- Witness graph for the amended C5 (the marked-nodes test graph of
`bellman_ford.rs`): `1→2 (1)`, `2→3 (1)`, `3→2 (-3)`, `3→4 (1)`. -/
def c5WGraph : Graph :=
  [(1, [(2, 1)]), (2, [(3, 1)]), (3, [(2, -3), (4, 1)]), (4, [])]

theorem C5_negative_cycle_marking_witness :
    GraphWF c5WGraph ∧
    (bellman_ford_closure 12 c5WGraph 1).2 = [] ∧
    4 ∈ (compute_bellman_ford 12 c5WGraph 1).negative_cycle_nodes := by
  have hwf : GraphWF c5WGraph := by
    constructor
    · exact of_decide_eq_true (Eq.refl true)
    · exact of_decide_eq_true (Eq.refl true)
  have hdn : (bellman_ford_closure 12 c5WGraph 1).2 = [] := by
    norm_num [bellman_ford_closure, bfRounds, bfPass, bfOuter, bfInner,
      bfSeeds, bfSeedInner, seedRelax, bfsRun, bfsStep, collectNodes,
      natSetInsert, smapGet, smapInsert, c5WGraph]
  refine ⟨hwf, hdn, ?_⟩
  refine (C5_negative_cycle_marking 12 c5WGraph 1 hwf hdn 4).mpr ?_
  refine ⟨2, ⟨[1, 2], rfl, rfl, ?_⟩,
    ⟨[2, 3, 2], ⟨rfl, rfl, ?_⟩, by norm_num, ?_⟩,
    ⟨[2, 3, 4], rfl, rfl, ?_⟩⟩
  · refine List.chain'_cons.mpr ⟨?_, List.chain'_singleton 2⟩
    rw [show edgeCost c5WGraph 1 2 = some 1 from rfl]
    exact Option.noConfusion
  · refine List.chain'_cons.mpr ⟨?_, List.chain'_cons.mpr
      ⟨?_, List.chain'_singleton 2⟩⟩
    · rw [show edgeCost c5WGraph 2 3 = some 1 from rfl]
      exact Option.noConfusion
    · rw [show edgeCost c5WGraph 3 2 = some (-3) from rfl]
      exact Option.noConfusion
  · norm_num [walkCost, edgeCost, c5WGraph, smapGet]
  · refine List.chain'_cons.mpr ⟨?_, List.chain'_cons.mpr
      ⟨?_, List.chain'_singleton 4⟩⟩
    · rw [show edgeCost c5WGraph 2 3 = some 1 from rfl]
      exact Option.noConfusion
    · rw [show edgeCost c5WGraph 3 4 = some 1 from rfl]
      exact Option.noConfusion

end Romam
